import Mathlib

/-!
Verification development for the picorules-compiler-js-core repository.

The TypeScript sources are shallowly embedded: pure functions become Lean
functions, thrown exceptions become `Except String`, JavaScript `Map`/`Set`
(insertion ordered) become association lists with in-place replacement and
append-if-absent insertion, and the recursive graph walks (which terminate on
finite inputs) are given an explicit fuel argument large enough to be provably
sufficient on every input they receive.  Wall-clock values (`Date.now`,
`new Date().toISOString()`) are outside the model: `compiledAt` is a fixed
string and the `metrics` record is omitted; no claim mentions either.
-/

set_option maxHeartbeats 1000000

namespace Picorules

/-! ## Character and list utilities (JavaScript string-scanning semantics) -/

/-- Whitespace as matched by the `\s` class on the characters occurring in
rule texts (space, tab, newline, carriage return). -/
def isWsC (c : Char) : Bool :=
  c = ' ' || c = '\t' || c = '\n' || c = '\r'

/-- Word characters: the JavaScript `\w` class `[A-Za-z0-9_]`. -/
def isWordC (c : Char) : Bool :=
  (('a' ≤ c && c ≤ 'z') || ('A' ≤ c && c ≤ 'Z') || ('0' ≤ c && c ≤ '9') || c = '_')

/-- Test whether `pat` is a prefix of `l` (Boolean, executable). -/
def startsWithL : List Char → List Char → Bool
  | _, [] => true
  | [], _ :: _ => false
  | c :: cs, p :: ps => c = p && startsWithL cs ps

/-- Test whether `pat` occurs as a contiguous substring of `l`
(the JavaScript `String.prototype.includes`). -/
def hasSub : List Char → List Char → Bool
  | [], pat => startsWithL [] pat
  | c :: cs, pat => startsWithL (c :: cs) pat || hasSub cs pat

/-- Substring test on strings. -/
def strHasSub (s pat : String) : Bool := hasSub s.data pat.data

/-- Trim JavaScript-style whitespace from both ends of a character list. -/
def trimC (l : List Char) : List Char :=
  ((l.dropWhile isWsC).reverse.dropWhile isWsC).reverse

/-- ASCII lower-casing (`String.prototype.toLowerCase` on the identifier
alphabet); char-list based so that it reduces in the kernel. -/
def strToLower (s : String) : String := ⟨s.data.map Char.toLower⟩

/-- ASCII upper-casing (`String.prototype.toUpperCase`). -/
def strToUpper (s : String) : String := ⟨s.data.map Char.toUpper⟩

/-- Global, non-overlapping, left-to-right literal replacement
(`String.prototype.replace` with a global literal pattern).  The fuel
(supplied as input length + 1 by `strReplaceAll`) exceeds the number of
steps, since every step consumes at least one character. -/
def replaceAllL (pat repl : List Char) : Nat → List Char → List Char
  | 0, l => l
  | _ + 1, [] => []
  | f + 1, c :: rest =>
    if !pat.isEmpty && startsWithL (c :: rest) pat then
      repl ++ replaceAllL pat repl f ((c :: rest).drop pat.length)
    else c :: replaceAllL pat repl f rest

def strReplaceAll (s pat repl : String) : String :=
  ⟨replaceAllL pat.data repl.data (s.data.length + 1) s.data⟩

/-- List-based `Array.prototype.join` / template interpolation of string
lists. -/
def strJoin (sep : String) (xs : List String) : String :=
  match xs with
  | [] => ""
  | x :: rest => rest.foldl (fun acc y => acc ++ sep ++ y) x

/-! ## JavaScript `Map` / `Set` models

A `Map` is an association list; `set` replaces in place when the key exists
(keeping its position in iteration order) and appends otherwise, matching the
iteration-order semantics of JavaScript `Map`.  A `Set` of strings is a
duplicate-free list; `add` appends if absent. -/

def mapSet {α : Type} (m : List (String × α)) (k : String) (v : α) :
    List (String × α) :=
  if m.any (fun p => p.1 = k) then
    m.map (fun p => if p.1 = k then (k, v) else p)
  else m ++ [(k, v)]

def mapGet {α : Type} (m : List (String × α)) (k : String) : Option α :=
  (m.find? (fun p => p.1 = k)).map (fun p => p.2)

def setAdd (s : List String) (x : String) : List String :=
  if x ∈ s then s else s ++ [x]

/-! ## Data model (src/models)

`Rule` is the tagged union of the three parsed statement shapes
(`ParsedFetchStatement`, `ParsedComputeStatement`, `ParsedBindStatement`). -/

/-- One arm of a compute statement: `{predicate => returnValue}`; a missing
predicate marks the ELSE arm. -/
structure Condition where
  predicate : Option String
  returnValue : String
deriving DecidableEq, Repr

inductive Rule where
  | fetch (assignedVariable table : String) (attributeList : List String)
      (property functionName : String) (functionParams : Option (List String))
      (predicate : Option String) (references : List String)
  | compute (assignedVariable : String) (conditions : List Condition)
      (references : List String)
  | bind (assignedVariable sourceRuleblock sourceVariable property : String)
      (references : List String)
deriving DecidableEq, Repr

structure ParsedRuleblock where
  name : String
  text : String
  isActive : Bool
  rules : List Rule
deriving DecidableEq, Repr

/-- A raw ruleblock input record; `isActive` is optional with default `true`
(`RuleblockInputSchema`). -/
structure RuleblockInput where
  name : String
  text : String
  isActive : Option Bool := none
deriving DecidableEq, Repr

/-- A ruleblock input after zod validation (defaults applied). -/
structure ValidRuleblock where
  name : String
  text : String
  isActive : Bool
deriving DecidableEq, Repr

inductive Dialect where
  | oracle
  | mssql
  | postgresql
deriving DecidableEq, Repr

/-- Compiler options as accepted by `CompilerOptionsSchema` (the `cache`
member carries no behaviour and is omitted). -/
structure CompilerOptions where
  dialect : Dialect
  includeInactive : Option Bool := none
  staticSysdate : Option String := none
  subset : Option (List String) := none
  pruneInputs : Option (List String) := none
  pruneOutputs : Option (List String) := none
deriving DecidableEq, Repr

/-- Options after zod validation (the `includeInactive` default applied). -/
structure ValidOptions where
  dialect : Dialect
  includeInactive : Bool
  staticSysdate : Option String
  subset : Option (List String)
  pruneInputs : Option (List String)
  pruneOutputs : Option (List String)
deriving DecidableEq, Repr

/-! ## Input validation (zod schemas, src/models/schemas.ts)

`name` must match `/^[a-z_][a-z0-9_]*$/i` with length 1..100 and `text` is
capped at 1 MiB.  The zod error message is modelled as a fixed string per
failing field; no claim depends on its exact wording, only on the fact that
it does not begin with `Circular dependency`. -/

def isNameHeadC (c : Char) : Bool :=
  (('a' ≤ c && c ≤ 'z') || ('A' ≤ c && c ≤ 'Z') || c = '_')

def validName (s : String) : Bool :=
  match s.data with
  | [] => false
  | c :: cs => isNameHeadC c && cs.all isWordC && s.data.length ≤ 100

def validateRuleblock (rb : RuleblockInput) : Except String ValidRuleblock :=
  if validName rb.name then
    if rb.text.data.length ≤ 1000000 then
      .ok { name := rb.name, text := rb.text, isActive := rb.isActive.getD true }
    else .error "Invalid ruleblock input: text exceeds maximum length"
  else .error "Invalid ruleblock input: name"

/-- Option validation cannot fail in the typed model (the dialect is already
one of the three enum members); it only applies the `includeInactive`
default. -/
def validateOptions (o : CompilerOptions) : ValidOptions :=
  { dialect := o.dialect, includeInactive := o.includeInactive.getD false,
    staticSysdate := o.staticSysdate, subset := o.subset,
    pruneInputs := o.pruneInputs, pruneOutputs := o.pruneOutputs }

/-! ## Parsing: preprocessing (src/parsing/ruleblock-parser.ts) -/

/-- Scan for the closing `*/` of a block comment; return the suffix after
it, or `none` when the comment is unterminated. -/
def dropToClose : List Char → Option (List Char)
  | [] => none
  | [_] => none
  | c :: d :: rest2 =>
    if c = '*' && d = '/' then some rest2 else dropToClose (d :: rest2)

theorem dropToClose_length : ∀ l r, dropToClose l = some r → r.length + 2 ≤ l.length := by
  intro l
  induction l with
  | nil => intro r h; simp [dropToClose] at h
  | cons c cs ih =>
    cases cs with
    | nil => intro r h; simp [dropToClose] at h
    | cons d rest2 =>
      intro r h
      simp only [dropToClose] at h
      split at h
      · injection h with h; subst h; simp
      · have := ih r h
        simp at this ⊢; omega

/-- Remove `/* ... */` block comments (lazy, non-nested); an unterminated
`/*` is left in place, as with the source regex.  Fuel-based so that the
definition reduces in the kernel; `stripBlockComments` supplies fuel
exceeding the number of scanning steps (each step consumes at least one
character). -/
def sbcAux : Nat → List Char → List Char
  | 0, l => l
  | _ + 1, [] => []
  | _ + 1, [c] => [c]
  | f + 1, c :: d :: rest2 =>
    if c = '/' && d = '*' then
      match dropToClose rest2 with
      | some rest3 => sbcAux f rest3
      | none => c :: d :: sbcAux f rest2
    else c :: sbcAux f (d :: rest2)

def stripBlockComments (l : List Char) : List Char := sbcAux (l.length + 1) l

/-- Drop characters up to (but not including) the next newline. -/
def dropUntilNl : List Char → List Char
  | [] => []
  | c :: rest => if c = '\n' then c :: rest else dropUntilNl rest

theorem dropUntilNl_length : ∀ l, (dropUntilNl l).length ≤ l.length := by
  intro l
  induction l with
  | nil => simp [dropUntilNl]
  | cons c cs ih =>
    rw [dropUntilNl]
    by_cases hc : c = '\n'
    · rw [if_pos hc]
    · rw [if_neg hc]
      simp; omega

/-- Remove `// ...` line comments (to end of line); fuel as above. -/
def slcAux : Nat → List Char → List Char
  | 0, l => l
  | _ + 1, [] => []
  | _ + 1, [c] => [c]
  | f + 1, c :: d :: rest2 =>
    if c = '/' && d = '/' then slcAux f (dropUntilNl rest2)
    else c :: slcAux f (d :: rest2)

def stripLineComments (l : List Char) : List Char := slcAux (l.length + 1) l

/-- Split at the first `]`: returns the content before it and the suffix
after it. -/
def splitAtClose : List Char → Option (List Char × List Char)
  | [] => none
  | c :: rest =>
    if c = ']' then some ([], rest)
    else
      match splitAtClose rest with
      | some (content, after) => some (c :: content, after)
      | none => none

theorem splitAtClose_length : ∀ l content after,
    splitAtClose l = some (content, after) →
    content.length + after.length + 1 = l.length := by
  intro l
  induction l with
  | nil => intro c a h; simp [splitAtClose] at h
  | cons x xs ih =>
    intro c a h
    simp only [splitAtClose] at h
    split at h
    · injection h with h
      injection h with h1 h2
      subst h1; subst h2; simp
    · match hxs : splitAtClose xs with
      | some (c', a') =>
        rw [hxs] at h
        injection h with h
        injection h with h1 h2
        subst h1; subst h2
        have := ih c' a' hxs
        simp at this ⊢; omega
      | none => rw [hxs] at h; simp at h

/-- Normalise bracketed attribute lists: within each `[...]` (up to the first
`]`) remove all whitespace, as `text.replace` with the bracket regex and the
inner `replace(/\s+/g, '')` does.  A `[` with no matching `]` is left
untouched. -/
def nbAux : Nat → List Char → List Char
  | 0, l => l
  | _ + 1, [] => []
  | f + 1, c :: rest =>
    if c = '[' then
      match splitAtClose rest with
      | some (content, after) =>
        '[' :: (content.filter (fun x => !isWsC x)) ++ ']' :: nbAux f after
      | none => '[' :: nbAux f rest
    else c :: nbAux f rest

def normalizeBrackets (l : List Char) : List Char := nbAux (l.length + 1) l

theorem dropWhile_length_le (p : Char → Bool) : ∀ l : List Char,
    (l.dropWhile p).length ≤ l.length := by
  intro l
  induction l with
  | nil => simp
  | cons c cs ih =>
    rw [List.dropWhile]
    by_cases hc : p c = true
    · rw [hc]
      simp only [cond_true, List.length_cons]
      omega
    · rw [Bool.not_eq_true] at hc
      rw [hc]

/-- Collapse every run of whitespace to a single space
(`replace(/\s+/g, ' ')`). -/
def cwAux : Nat → List Char → List Char
  | 0, l => l
  | _ + 1, [] => []
  | f + 1, c :: rest =>
    if isWsC c then ' ' :: cwAux f (rest.dropWhile isWsC)
    else c :: cwAux f rest

def collapseWs (l : List Char) : List Char := cwAux (l.length + 1) l

/-- Split on `;` (JavaScript `split(';')`: empty pieces preserved). -/
def splitSemi : List Char → List (List Char)
  | [] => [[]]
  | c :: rest =>
    if c = ';' then [] :: splitSemi rest
    else
      match splitSemi rest with
      | s :: ss => (c :: s) :: ss
      | [] => [[c]]

/-- Split on `,` (JavaScript `split(',')`). -/
def splitComma : List Char → List (List Char)
  | [] => [[]]
  | c :: rest =>
    if c = ',' then [] :: splitComma rest
    else
      match splitComma rest with
      | s :: ss => (c :: s) :: ss
      | [] => [[c]]

def spanWord (l : List Char) : List Char × List Char :=
  (l.takeWhile isWordC, l.dropWhile isWordC)

def dropWs (l : List Char) : List Char := l.dropWhile isWsC

/-! ## Bind statement parser (src/parsing/bind-statement-parser.ts)

The regex `/^(\w+)\s*=>\s*rout_(\w+)\.(\w+)\.(\w+)\.bind\(\)\s*;?$/` is
deterministic (each `\w+` is a maximal word-character run followed by a
non-word character), so it is rendered as a straight-line scanner. -/

def matchBind (l : List Char) : Option (String × String × String × String) :=
  let (v, r1) := spanWord l
  if v.isEmpty then none else
  match dropWs r1 with
  | '=' :: '>' :: r2 =>
    match dropWs r2 with
    | 'r' :: 'o' :: 'u' :: 't' :: '_' :: r3 =>
      let (srb, r4) := spanWord r3
      if srb.isEmpty then none else
      match r4 with
      | '.' :: r5 =>
        let (sv, r6) := spanWord r5
        if sv.isEmpty then none else
        match r6 with
        | '.' :: r7 =>
          let (p, r8) := spanWord r7
          if p.isEmpty then none else
          match r8 with
          | '.' :: 'b' :: 'i' :: 'n' :: 'd' :: '(' :: ')' :: r9 =>
            match dropWs r9 with
            | [] => some (⟨v⟩, ⟨srb⟩, ⟨sv⟩, ⟨p⟩)
            | [';'] => some (⟨v⟩, ⟨srb⟩, ⟨sv⟩, ⟨p⟩)
            | _ => none
          | _ => none
        | _ => none
      | _ => none
    | _ => none
  | _ => none

def parseBindStatement (text : String) : Except String Rule :=
  match matchBind text.data with
  | some (v, srb, sv, p) => .ok (.bind v srb sv p [sv])
  | none => .error ("Invalid bind statement: " ++ text)

/-! ## Compute statement parser (src/parsing/compute-statement-parser.ts) -/

/-- Split at the first `=>`, returning the pieces before and after it. -/
def splitFirstArrow : List Char → Option (List Char × List Char)
  | [] => none
  | c :: rest =>
    match rest with
    | d :: r2 =>
      if c = '=' && d = '>' then some ([], r2)
      else
        match splitFirstArrow rest with
        | some (a, b) => some (c :: a, b)
        | none => none
    | [] => none

/-- Split at the first `}`: content before it and suffix after it. -/
def splitAtCloseBrace : List Char → Option (List Char × List Char)
  | [] => none
  | c :: rest =>
    if c = '}' then some ([], rest)
    else
      match splitAtCloseBrace rest with
      | some (content, after) => some (c :: content, after)
      | none => none

theorem splitAtCloseBrace_length : ∀ l content after,
    splitAtCloseBrace l = some (content, after) →
    content.length + after.length + 1 = l.length := by
  intro l
  induction l with
  | nil => intro c a h; simp [splitAtCloseBrace] at h
  | cons x xs ih =>
    intro c a h
    simp only [splitAtCloseBrace] at h
    split at h
    · injection h with h
      injection h with h1 h2
      subst h1; subst h2; simp
    · match hxs : splitAtCloseBrace xs with
      | some (c', a') =>
        rw [hxs] at h
        injection h with h
        injection h with h1 h2
        subst h1; subst h2
        have := ih c' a' hxs
        simp at this ⊢; omega
      | none => rw [hxs] at h; simp at h

/-- Harvest the `{predicate => value}` arms, mirroring the global scan of
`/\{([^}]*?)=>([^}]*?)\}/g`: at each `{`, the content up to the first `}` is
inspected; if it contains `=>`, the first occurrence splits it into a
predicate (empty after trimming means the ELSE arm) and a return value. -/
def scAux : Nat → List Char → List Condition
  | 0, _ => []
  | _ + 1, [] => []
  | f + 1, c :: rest =>
    if c = '{' then
      match splitAtCloseBrace rest with
      | some (content, after) =>
        match splitFirstArrow content with
        | some (pre, post) =>
          { predicate := (if (trimC pre).isEmpty then none else some ⟨trimC pre⟩),
            returnValue := ⟨trimC post⟩ } :: scAux f after
        | none => scAux f rest
      | none => scAux f rest
    else scAux f rest

def scanConds (l : List Char) : List Condition := scAux (l.length + 1) l

def parseComputeStatement (text : String) : Except String Rule :=
  let l := text.data
  let (v, r1) := spanWord l
  if v.isEmpty then .error ("Invalid compute statement: " ++ text)
  else
    match dropWs r1 with
    | ':' :: _ =>
      let conds := scanConds l
      if conds.isEmpty then
        .error ("No conditions found in compute statement: " ++ text)
      else .ok (.compute ⟨v⟩ conds [])
    | _ => .error ("Invalid compute statement: " ++ text)

/-! ## Fetch statement parser (src/parsing/fetch-statement-parser.ts)

The regex
`/^(\w+)\s*=>\s*(\w+)\.([\w%]+|\[.+?\])\.(\w+)\.(\w+)\((.*?)\)(?:\.where\(([\s\S]*?)\))?;?$/`
is rendered as a scanner.  The lazy parameter group is realised by trying
each `)` from the left until the remainder matches the tail
(`.where(...)` optional, then an optional `;`, then end of input); the lazy
`where` body likewise ends at the first `)` whose remainder is empty or a
single `;`.  Regex backtracking into the earlier groups (only reachable on
inputs with pathological attribute specs) is not modelled. -/

def findWhereClose (acc : List Char) : List Char → Option (List Char)
  | [] => none
  | c :: rest =>
    if c = ')' then
      match rest with
      | [] => some acc.reverse
      | [';'] => some acc.reverse
      | _ => findWhereClose (c :: acc) rest
    else findWhereClose (c :: acc) rest

/-- Match the tail after a candidate closing `)` of the parameter list:
`(?:\.where\(([\s\S]*?)\))?;?$`.  Returns the `where` body when present. -/
def matchFetchTail (tail : List Char) : Option (Option (List Char)) :=
  match tail with
  | [] => some none
  | [';'] => some none
  | '.' :: 'w' :: 'h' :: 'e' :: 'r' :: 'e' :: '(' :: wrest =>
    match findWhereClose [] wrest with
    | some w => some (some w)
    | none => none
  | _ => none

def findParamsSplit (acc : List Char) : List Char → Option (List Char × Option (List Char))
  | [] => none
  | c :: rest =>
    if c = ')' then
      match matchFetchTail rest with
      | some pred => some (acc.reverse, pred)
      | none => findParamsSplit (c :: acc) rest
    else findParamsSplit (c :: acc) rest

/-- Split function parameters on commas at parenthesis depth zero, trimming
each piece; the final piece is kept only when nonempty after trimming
(`splitFunctionParams`).  The depth counter is an integer, as in the
source. -/
def splitParamsAux (depth : Int) (current : List Char) : List Char → List (List Char)
  | [] => if (trimC current.reverse).isEmpty then [] else [trimC current.reverse]
  | c :: rest =>
    if c = '(' then splitParamsAux (depth + 1) (c :: current) rest
    else if c = ')' then splitParamsAux (depth - 1) (c :: current) rest
    else if c = ',' && depth = 0 then trimC current.reverse :: splitParamsAux depth [] rest
    else splitParamsAux depth (c :: current) rest

def splitFunctionParams (params : List Char) : List (List Char) :=
  if params.isEmpty then [] else splitParamsAux 0 [] params

def matchFetch (l : List Char) : Option Rule :=
  let (v, r1) := spanWord l
  if v.isEmpty then none else
  match dropWs r1 with
  | '=' :: '>' :: r2 =>
    let r3 := dropWs r2
    let (tbl, r4) := spanWord r3
    if tbl.isEmpty then none else
    match r4 with
    | '.' :: r5 =>
      let attrStep : Option (List String × List Char) :=
        match r5 with
        | '[' :: r6 =>
          match splitAtClose r6 with
          | some (content, after) =>
            if content.isEmpty then none
            else some ((splitComma content).map (fun p => (⟨trimC p⟩ : String)), after)
          | none => none
        | _ =>
          let a := r5.takeWhile (fun c => isWordC c || c = '%')
          let r6 := r5.dropWhile (fun c => isWordC c || c = '%')
          if a.isEmpty then none else some ([(⟨a⟩ : String)], r6)
      match attrStep with
      | some (attrList, r7) =>
        match r7 with
        | '.' :: r8 =>
          let (prop, r9) := spanWord r8
          if prop.isEmpty then none else
          match r9 with
          | '.' :: r10 =>
            let (fn, r11) := spanWord r10
            if fn.isEmpty then none else
            match r11 with
            | '(' :: r12 =>
              match findParamsSplit [] r12 with
              | some (params, predRaw) =>
                let fps := splitFunctionParams params
                some (.fetch ⟨v⟩ ⟨tbl⟩ attrList ⟨prop⟩ ⟨fn⟩
                  (if fps.length > 0 then some (fps.map (fun p => (⟨p⟩ : String))) else none)
                  (match predRaw with
                   | some w => if w.isEmpty then none else some ⟨w⟩
                   | none => none)
                  [])
              | none => none
            | _ => none
          | _ => none
        | _ => none
      | none => none
    | _ => none
  | _ => none

def parseFetchStatement (text : String) : Except String Rule :=
  match matchFetch text.data with
  | some r => .ok r
  | none => .error ("Invalid fetch statement: " ++ text)

/-! ## Ruleblock parser (src/parsing/ruleblock-parser.ts) -/

/-- Statement classification and dispatch: directives (`#...`) are skipped,
`=>` without `:` is a bind or fetch, `:` is a compute, and anything else is
silently dropped.  The first parser error aborts the whole parse (a thrown
exception in the source). -/
def parseStatements : List (List Char) → Except String (List Rule)
  | [] => .ok []
  | seg :: rest =>
    if seg.head? = some '#' then parseStatements rest
    else if hasSub seg "=>".data && !hasSub seg ":".data then
      if hasSub seg ".bind()".data then
        match parseBindStatement ⟨seg ++ [';']⟩ with
        | .ok r => (parseStatements rest).map (fun rs => r :: rs)
        | .error e => .error e
      else
        match parseFetchStatement ⟨seg ++ [';']⟩ with
        | .ok r => (parseStatements rest).map (fun rs => r :: rs)
        | .error e => .error e
    else if hasSub seg ":".data then
      match parseComputeStatement ⟨seg ++ [';']⟩ with
      | .ok r => (parseStatements rest).map (fun rs => r :: rs)
      | .error e => .error e
    else parseStatements rest

/-- The per-ruleblock segment list: `[[rb_id]]` substitution, comment
stripping, bracket normalisation, whitespace collapse, split on `;`, trim,
drop empties. -/
def segmentsOf (name text : String) : List (List Char) :=
  let t1 := strReplaceAll text "[[rb_id]]" name
  let t2 := stripLineComments (stripBlockComments t1.data)
  let t3 := normalizeBrackets t2
  let t4 := collapseWs t3
  ((splitSemi t4).map trimC).filter (fun s => !s.isEmpty)

def parseRuleblock (input : ValidRuleblock) : Except String ParsedRuleblock :=
  (parseStatements (segmentsOf input.name input.text)).map
    (fun rules =>
      { name := input.name, text := input.text, isActive := input.isActive, rules })

/-- Parse every ruleblock; the first failure aborts (src/parsing/index.ts). -/
def parse (rbs : List ValidRuleblock) : Except String (List ParsedRuleblock) :=
  rbs.mapM parseRuleblock

/-! ## Reference resolution (src/linking/reference-resolver.ts) -/

/-- Maximal word-character runs of a string, in order: the matches of
`/\b[a-z_][a-z0-9_]*\b/gi` are exactly the runs whose first character is not
a digit (interior positions of a run are never word boundaries). -/
def twAux : Nat → List Char → List (List Char)
  | 0, _ => []
  | _ + 1, [] => []
  | f + 1, c :: rest =>
    if isWordC c then
      (c :: rest.takeWhile isWordC) :: twAux f (rest.dropWhile isWordC)
    else twAux f rest

def tokenizeWords (l : List Char) : List (List Char) := twAux (l.length + 1) l

def sqlKeywords : List String :=
  ["and", "or", "not", "null", "true", "false", "case", "when", "then",
   "else", "end", "between", "in", "like", "is", "exists", "select",
   "from", "where", "having", "group", "by", "order", "asc", "desc",
   "join", "left", "right", "inner", "outer", "on", "using", "coalesce",
   "least", "greatest", "sysdate", "count", "sum", "avg", "min", "max"]

def extractVariableReferences (expression : String) : List String :=
  let runs := (tokenizeWords expression.data).filter
    (fun w => match w with
      | c :: _ => isNameHeadC c
      | [] => false)
  (runs.map (fun w => (⟨w⟩ : String))).filter
    (fun m => !(strToLower m ∈ sqlKeywords))

def eadvColumns : List String := ["dt", "val", "att", "eid", "loc"]

/-- Resolve the `references` field of compute rules (deduplicated union over
all predicates and return values) and of fetch rules with a predicate
(filtering out event-table column names; an empty result leaves the rule
unchanged). -/
def resolveRule (r : Rule) : Rule :=
  match r with
  | .compute v conds _ =>
    let allRefs := conds.foldl (fun acc c =>
      let acc1 := match c.predicate with
        | some p => (extractVariableReferences p).foldl setAdd acc
        | none => acc
      (extractVariableReferences c.returnValue).foldl setAdd acc1) []
    .compute v conds allRefs
  | .fetch v tbl attrs prop fn fps pred refs =>
    match pred with
    | some p =>
      let vrefs := (extractVariableReferences p).filter
        (fun ref => !(strToLower ref ∈ eadvColumns))
      if vrefs.length > 0 then .fetch v tbl attrs prop fn fps pred vrefs
      else .fetch v tbl attrs prop fn fps pred refs
    | none => r
  | .bind .. => r

def resolveReferences (rb : ParsedRuleblock) : ParsedRuleblock :=
  { rb with rules := rb.rules.map resolveRule }

/-! ## Dependency graph (src/linking/dependency-graph.ts) -/

/-- The dependency graph: node keys in insertion order and the edge map.
The per-node `dependencies` field of the source's node records is written
but never read downstream, so only the key set is kept. -/
structure DepGraph where
  nodes : List String
  edges : List (String × List String)
deriving DecidableEq, Repr

/-- The deduplicated list of `sourceRuleblock` names of a ruleblock's bind
rules, in order of first occurrence (the `deps` set). -/
def bindTargets (rb : ParsedRuleblock) : List String :=
  rb.rules.foldl (fun ds r =>
    match r with
    | .bind _ srb _ _ _ => setAdd ds srb
    | _ => ds) []

def buildDependencyGraph (rbs : List ParsedRuleblock) : DepGraph :=
  let nodes := rbs.foldl (fun ns rb => setAdd ns rb.name) []
  let edges0 := rbs.foldl (fun es rb => mapSet es rb.name []) []
  let edges := rbs.foldl (fun es rb =>
    let deps := bindTargets rb
    if deps.length > 0 then mapSet es rb.name deps else es) edges0
  { nodes := nodes, edges := edges }

/-- Edge lookup: `graph.edges.get(node) || new Set()`. -/
def edgesGet (es : List (String × List String)) (n : String) : List String :=
  (mapGet es n).getD []

/-! ## Cycle detection (`detectCircularDependencies`)

The recursive DFS with white/grey/black colouring (`visited`,
`recursionStack`) and the shared `path` array.  The recursion always
terminates on the finite graphs it receives (each nested call is on an
unvisited node, which it marks); the fuel supplied by `graphFuel` exceeds
the number of distinct names, so the fuel-exhaustion branch (folded into
the cycle-found answer) is unreachable; every theorem below conditions on
a cycle-free answer, which certifies a fuel-sufficient run. -/

structure DetectSt where
  visited : List String
  stack : List String
deriving DecidableEq, Repr

/-- Nat position of the first occurrence (length when absent). -/
def posOf : List String → String → Nat
  | [], _ => 0
  | y :: ys, x => if y = x then 0 else posOf ys x + 1

/-- Mirrors `path.slice(path.indexOf(dep))` followed by pushing `dep`
(JavaScript `indexOf` yields `-1` when absent, making `slice(-1)` the last
element). -/
def pathCycle (path : List String) (d : String) : List String :=
  if d ∈ path then path.drop (posOf path d) ++ [d]
  else path.drop (path.length - 1) ++ [d]

/-- One neighbour step of the DFS: skip a black node, report a grey one,
descend into a white one.  Errors, once raised, pass through untouched, so
the fold below visits the dependencies exactly as the recursive loop in the
source does. -/
def dfsStep (dfs : String → DetectSt → List String → Except (List String) DetectSt)
    (path : List String) (acc : Except (List String) DetectSt) (d : String) :
    Except (List String) DetectSt :=
  match acc with
  | .error cyc => .error cyc
  | .ok s =>
    if d ∈ s.visited then
      if d ∈ s.stack then .error (pathCycle path d)
      else .ok s
    else dfs d s path

def dfsD : Nat → List (String × List String) → String → DetectSt → List String →
    Except (List String) DetectSt
  | 0, _, _, _, _ => .error []
  | f + 1, edges, name, st, path =>
    let st1 : DetectSt := { visited := setAdd st.visited name, stack := setAdd st.stack name }
    match (edgesGet edges name).foldl (dfsStep (dfsD f edges) (path ++ [name])) (.ok st1) with
    | .error cyc => .error cyc
    | .ok st2 => .ok { visited := st2.visited, stack := st2.stack.erase name }

def graphFuel (g : DepGraph) : Nat :=
  (g.nodes ++ (g.edges.map (fun p => p.2)).flatten).length + 1

def detectLoop (edges : List (String × List String)) (fuel : Nat) :
    List String → DetectSt → Option (List String)
  | [], _ => none
  | n :: ns, st =>
    if n ∈ st.visited then detectLoop edges fuel ns st
    else
      match dfsD fuel edges n st [] with
      | .error cyc => some cyc
      | .ok st' => detectLoop edges fuel ns st'

def detectCircularDependencies (g : DepGraph) : Option (List String) :=
  detectLoop g.edges (graphFuel g) g.nodes { visited := [], stack := [] }

/-! ## Topological sort (`topologicalSort`) -/

structure SortSt where
  visited : List String
  sorted : List ParsedRuleblock
deriving DecidableEq, Repr

/-- The `new Map(ruleblocks.map(rb => [rb.name, rb]))` lookup table. -/
def rbMapOf (rbs : List ParsedRuleblock) : List (String × ParsedRuleblock) :=
  rbs.foldl (fun m rb => mapSet m rb.name rb) []

/-- The recursive `visit`: mark, recurse into dependencies, then place.  As
with `dfsD`, the fuel is provably never exhausted at the size supplied by
`graphFuel` (the fuel-zero branch returns the state unchanged). -/
def visit (fuel : Nat) (edges : List (String × List String))
    (rbMap : List (String × ParsedRuleblock)) (name : String) (st : SortSt) : SortSt :=
  match fuel with
  | 0 => st
  | f + 1 =>
    if name ∈ st.visited then st
    else
      let st1 : SortSt := { st with visited := setAdd st.visited name }
      let st2 := (edgesGet edges name).foldl (fun s d => visit f edges rbMap d s) st1
      match mapGet rbMap name with
      | some rb => { st2 with sorted := st2.sorted ++ [rb] }
      | none => st2

def topologicalSort (rbs : List ParsedRuleblock) : Except String (List ParsedRuleblock) :=
  let graph := buildDependencyGraph rbs
  match detectCircularDependencies graph with
  | some cycles =>
    .error ("Circular dependency detected: " ++ strJoin " -> " cycles)
  | none =>
    let fuel := graphFuel graph
    let st := rbs.foldl
      (fun s rb => visit fuel graph.edges (rbMapOf rbs) rb.name s)
      { visited := [], sorted := [] }
    .ok st.sorted

/-- The linking stage (src/linking/index.ts): resolve references, then order
by dependencies. -/
def link (rbs : List ParsedRuleblock) : Except String (List ParsedRuleblock) :=
  topologicalSort (rbs.map resolveReferences)

/-! ## Transformation (src/transformation) -/

def selectSubset (rbs : List ParsedRuleblock) (subset : List String) :
    List ParsedRuleblock :=
  if subset.isEmpty then rbs
  else
    let subsetSet := subset.map strToLower
    rbs.filter (fun rb => strToLower rb.name ∈ subsetSet)

/-- Dependency map for pruning (src/transformation/prune.ts): lower-cased
ruleblock name to lower-cased bind targets. -/
def buildDependencyMap (rbs : List ParsedRuleblock) : List (String × List String) :=
  rbs.foldl (fun m rb =>
    let deps := rb.rules.foldl (fun ds r =>
      match r with
      | .bind _ srb _ _ _ => setAdd ds (strToLower srb)
      | _ => ds) []
    mapSet m (strToLower rb.name) deps) []

def depMapGet (m : List (String × List String)) (k : String) : List String :=
  (mapGet m k).getD []

/-- Fuel bound for the pruning walks: comfortably larger than the number of
queue operations either walk can perform. -/
def pruneFuel (depMap : List (String × List String)) (queue0 : List String) : Nat :=
  let flat := (depMap.map (fun p => p.2)).flatten ++ depMap.map (fun p => p.1)
  queue0.length + (queue0 ++ flat).dedup.length * (flat.length + 1) + 1

def ancBFS (depMap : List (String × List String)) :
    Nat → List String → List String → List String
  | 0, _, anc => anc
  | _ + 1, [], anc => anc
  | f + 1, current :: rest, anc =>
    if current ∈ anc then ancBFS depMap f rest anc
    else
      let anc' := setAdd anc current
      let pushed := (depMapGet depMap current).filter (fun d => !(d ∈ anc'))
      ancBFS depMap f (rest ++ pushed) anc'

def findAncestors (names : List String) (depMap : List (String × List String)) :
    List String :=
  let queue0 := names.map strToLower
  ancBFS depMap (pruneFuel depMap queue0) queue0 []

/-- Reverse dependency map: who depends on me. -/
def buildReverse (m : List (String × List String)) : List (String × List String) :=
  m.foldl (fun r p =>
    p.2.foldl (fun r d => mapSet r d (setAdd ((mapGet r d).getD []) p.1)) r) []

def descBFS (rev : List (String × List String)) :
    Nat → List String → List String → List String
  | 0, _, desc => desc
  | _ + 1, [], desc => desc
  | f + 1, current :: rest, desc =>
    let dependents := (mapGet rev current).getD []
    let step := dependents.foldl
      (fun (dp : List String × List String) d =>
        if d ∈ dp.1 then dp else (dp.1 ++ [d], dp.2 ++ [d]))
      (desc, [])
    descBFS rev f (rest ++ step.2) step.1

def findDescendants (names : List String) (depMap : List (String × List String)) :
    List String :=
  let rev := buildReverse depMap
  let queue0 := names.map strToLower
  descBFS rev (pruneFuel rev queue0) queue0 (queue0.foldl setAdd [])

def pruneRuleblocks (rbs : List ParsedRuleblock)
    (pruneInputs pruneOutputs : Option (List String)) : List ParsedRuleblock :=
  let pI := pruneInputs.getD []
  let pO := pruneOutputs.getD []
  if pI.isEmpty && pO.isEmpty then rbs
  else
    let depMap := buildDependencyMap rbs
    let toKeep1 : List String := if !pO.isEmpty then findAncestors pO depMap else []
    let toKeep : List String :=
      if !pI.isEmpty then
        let descendants := findDescendants pI depMap
        if toKeep1.length > 0 then toKeep1.filter (fun n => n ∈ descendants)
        else descendants
      else toKeep1
    rbs.filter (fun rb => strToLower rb.name ∈ toKeep)

/-- Transformation stage (src/transformation/index.ts): subset selection,
then pruning (a present-but-empty option still enters the corresponding
stage, which then keeps everything, exactly as the truthiness checks in the
source do). -/
def transform (rbs : List ParsedRuleblock) (opts : ValidOptions) :
    List ParsedRuleblock :=
  let r1 := match opts.subset with
    | some s => selectSubset rbs s
    | none => rbs
  match opts.pruneInputs, opts.pruneOutputs with
  | none, none => r1
  | pi, po => pruneRuleblocks r1 pi po

/-! ## Expression-translator scanning helpers

Each `String.prototype.replace(regex, ...)` with a global flag becomes a
left-to-right scanner: at each position it attempts the pattern; on success
it emits the replacement and resumes after the match, otherwise it emits one
character and advances — the engine's advance-by-one retry semantics. -/

/-- Characters ending the lazy argument group `(.*?)` before `)` (the dot
does not match a newline). -/
def notCloseParen (c : Char) : Bool := !(c = ')' || c = '\n')

/-- Skip the lazy argument group and step over the closing `)`. -/
def afterCloseParen (r : List Char) : Option (List Char) :=
  match r.dropWhile notCloseParen with
  | d :: r3 => if d = ')' then some r3 else none
  | [] => none

theorem afterCloseParen_length (r r3 : List Char) :
    afterCloseParen r = some r3 → r3.length < r.length := by
  intro h
  unfold afterCloseParen at h
  cases hd : r.dropWhile notCloseParen with
  | nil => rw [hd] at h; simp at h
  | cons d r3' =>
    rw [hd] at h
    have h' : (if d = ')' then some r3' else none) = some r3 := h
    split at h'
    · injection h' with h'
      subst h'
      have hle := dropWhile_length_le notCloseParen r
      rw [hd] at hle
      simp at hle; omega
    · simp at h'

/-- Attempt `fname` + `\s*` + `(` + lazy content up to the first `)` at the
head of `l`; returns the argument text and the suffix after the closing
paren.  No word boundary, case-sensitive — as in the `least`/`greatest`
family rewrites. -/
def matchFnCall (fname : List Char) (l : List Char) : Option (List Char × List Char) :=
  if startsWithL l fname then
    if ((l.drop fname.length).dropWhile isWsC).head? = some '(' then
      match afterCloseParen ((l.drop fname.length).dropWhile isWsC).tail with
      | some r3 =>
        some ((((l.drop fname.length).dropWhile isWsC).tail).takeWhile notCloseParen, r3)
      | none => none
    else none
  else none

theorem matchFnCall_length (fname l args rest : List Char) (hf : fname ≠ []) :
    matchFnCall fname l = some (args, rest) → rest.length < l.length := by
  intro h
  unfold matchFnCall at h
  split at h
  · split at h
    · rename_i hstart hhead
      cases ha : afterCloseParen ((l.drop fname.length).dropWhile isWsC).tail with
      | none => rw [ha] at h; simp at h
      | some r3 =>
        rw [ha] at h
        injection h with h
        injection h with h1 h2
        subst h2
        have hlen3 := afterCloseParen_length _ _ ha
        have hne : ((l.drop fname.length).dropWhile isWsC) ≠ [] := by
          intro hcon
          rw [hcon] at hhead
          simp at hhead
        have htail : ((l.drop fname.length).dropWhile isWsC).tail.length + 1 =
            ((l.drop fname.length).dropWhile isWsC).length := by
          cases hcase : (l.drop fname.length).dropWhile isWsC with
          | nil => exact absurd hcase hne
          | cons a as => simp
        have hdw : ((l.drop fname.length).dropWhile isWsC).length ≤
            (l.drop fname.length).length := dropWhile_length_le _ _
        have hdrop : (l.drop fname.length).length = l.length - fname.length := by simp
        have hfl : 1 ≤ fname.length := by
          cases fname with
          | nil => exact absurd rfl hf
          | cons _ _ => simp
        have hll : fname.length ≤ l.length := by
          by_contra hcon
          push_neg at hcon
          have hnil : l.drop fname.length = [] := by
            apply List.drop_eq_nil_of_le
            omega
          rw [hnil] at hne
          simp [List.dropWhile] at hne
        omega
    · simp at h
  · simp at h

/-- Global replace of `fname\s*\((.*?)\)` by `mk args` (the
`least_date` / `greatest_date` / `least` / `greatest` rewrites of the Oracle
and PostgreSQL translators). -/
def rfcAux (fname : List Char) (mk : List Char → List Char) :
    Nat → List Char → List Char
  | 0, l => l
  | _ + 1, [] => []
  | f + 1, c :: rest =>
    match matchFnCall fname (c :: rest) with
    | some (args, after) => mk args ++ rfcAux fname mk f after
    | none => c :: rfcAux fname mk f rest

def replaceFnCall (fname : List Char) (mk : List Char → List Char)
    (l : List Char) : List Char :=
  rfcAux fname mk (l.length + 1) l

/-- Generic global-replace scanner.  A matcher receives the suffix at the
current position and answers with the replacement text, the remainder after
the match, and whether the last matched character is a word character (for
subsequent `\b` checks).  `useB` gates match attempts to word-boundary
positions (patterns written with a leading `\b`).  The fuel given by
`runScan` exceeds the number of scanning steps, since every step consumes at
least one input character; the fuel-zero branch ends the pass with the rest
of the input unchanged. -/
def scanRepl (useB : Bool) (M : List Char → Option (List Char × List Char × Bool)) :
    Nat → Bool → List Char → List Char
  | 0, _, l => l
  | _ + 1, _, [] => []
  | fuel + 1, prev, c :: rest =>
    if useB && prev then c :: scanRepl useB M fuel (isWordC c) rest
    else
      match M (c :: rest) with
      | some (repl, after, pw) => repl ++ scanRepl useB M fuel pw after
      | none => c :: scanRepl useB M fuel (isWordC c) rest

def runScan (useB : Bool) (M : List Char → Option (List Char × List Char × Bool))
    (l : List Char) : List Char :=
  scanRepl useB M (l.length + 1) false l

/-- Case-insensitive prefix test (patterns compiled with the `i` flag). -/
def startsWithIcL : List Char → List Char → Bool
  | _, [] => true
  | [], _ :: _ => false
  | c :: cs, p :: ps => (c.toLower = p.toLower) && startsWithIcL cs ps

def isDigitC (c : Char) : Bool := '0' ≤ c && c ≤ '9'

/-- The `[a-z_]` class under the `i` flag. -/
def isLatinU (c : Char) : Bool :=
  (('a' ≤ c && c ≤ 'z') || ('A' ≤ c && c ≤ 'Z') || c = '_')

def lowerL (l : List Char) : List Char := l.map Char.toLower

/-- Matcher for a whole-word replacement `\bword\b` (case-insensitive): the
maximal word run at this position must equal `w`. -/
def wordM (w : List Char) (repl : List Char) (l : List Char) :
    Option (List Char × List Char × Bool) :=
  match l with
  | c :: rest =>
    if isWordC c then
      let run := c :: rest.takeWhile isWordC
      if lowerL run = w then some (repl, rest.dropWhile isWordC, true) else none
    else none
  | [] => none

/-- Matcher for `\bfname\s*\(` (case-insensitive), replacing just the opener. -/
def fnOpenM (fname : List Char) (repl : List Char) (l : List Char) :
    Option (List Char × List Char × Bool) :=
  if startsWithIcL l fname then
    let r := (l.drop fname.length).dropWhile isWsC
    if r.head? = some '(' then some (repl, r.tail, false)
    else none
  else none

/-- Matcher for `(\w+)\s*!\?` (with `bang`) or `(\w+)\s*\?` (without); the
`guard` flag renders the `(?!!)` lookahead used by the PostgreSQL and T-SQL
variants but absent from the Oracle one. -/
def wordNullM (bang guard : Bool) (suffix : List Char) (l : List Char) :
    Option (List Char × List Char × Bool) :=
  match l with
  | c :: rest =>
    if isWordC c then
      let run := c :: rest.takeWhile isWordC
      let r2 := (rest.dropWhile isWordC).dropWhile isWsC
      if bang then
        match r2 with
        | '!' :: '?' :: r3 => some (run ++ suffix, r3, false)
        | _ => none
      else
        match r2 with
        | '?' :: r3 =>
          if guard && r3.head? = some '!' then none
          else some (run ++ suffix, r3, false)
        | _ => none
    else none
  | [] => none

/-- Matcher for `\)(\s*)!\?` or `\)(\s*)\?(?!!)`. -/
def parenNullM (bang : Bool) (repl : List Char) (l : List Char) :
    Option (List Char × List Char × Bool) :=
  match l with
  | ')' :: rest =>
    let r2 := rest.dropWhile isWsC
    if bang then
      match r2 with
      | '!' :: '?' :: r3 => some (repl, r3, false)
      | _ => none
    else
      match r2 with
      | '?' :: r3 =>
        if r3.head? = some '!' then none else some (repl, r3, false)
      | _ => none
  | _ => none

/-- The single-quote character (written via its code point). -/
def quoteC : Char := Char.ofNat 39

/-- The backtick character. -/
def backtickC : Char := Char.ofNat 96

/-- Matcher for backtick string literals: a backtick-delimited literal
becomes a single-quoted one. -/
def backtickM (l : List Char) : Option (List Char × List Char × Bool) :=
  match l with
  | c :: rest =>
    if c = backtickC then
      let content := rest.takeWhile (fun x => x ≠ backtickC)
      match rest.dropWhile (fun x => x ≠ backtickC) with
      | _ :: r2 => some (quoteC :: content ++ [quoteC], r2, false)
      | [] => none
    else none
  | [] => none

/-- Scan a quoted SQL string literal at the head. -/
def quotedLit (l : List Char) : Option (List Char × List Char) :=
  match l with
  | c :: rest =>
    if c = quoteC then
      let content := rest.takeWhile (fun x => x ≠ quoteC)
      match rest.dropWhile (fun x => x ≠ quoteC) with
      | _ :: r2 => some (quoteC :: content ++ [quoteC], r2)
      | [] => none
    else none
  | [] => none

/-- Matcher for `('[^']*')\s*\+\s*` (string concatenation, right operand
following). -/
def concatRightM (l : List Char) : Option (List Char × List Char × Bool) :=
  match quotedLit l with
  | some (q, r1) =>
    let r2 := r1.dropWhile isWsC
    match r2 with
    | '+' :: r3 => some (q ++ " || ".data, r3.dropWhile isWsC, false)
    | _ => none
  | none => none

/-- Matcher for `\s*\+\s*('[^']*')` (string concatenation, left operand
already emitted). -/
def concatLeftM (l : List Char) : Option (List Char × List Char × Bool) :=
  let r1 := l.dropWhile isWsC
  match r1 with
  | '+' :: r2 =>
    match quotedLit (r2.dropWhile isWsC) with
    | some (q, r3) => some (" || ".data ++ q, r3, false)
    | none => none
  | _ => none

/-- Matcher for `\bfname\s*\((content)\)` where the content class excludes
the characters selected by `stop` and must be nonempty (for the
`to_number` / one-argument `to_char` rewrites). -/
def fnArgsM (fname : List Char) (stop : Char → Bool) (mk : List Char → List Char)
    (l : List Char) : Option (List Char × List Char × Bool) :=
  if startsWithIcL l fname then
    let r := (l.drop fname.length).dropWhile isWsC
    if r.head? = some '(' then
      let content := r.tail.takeWhile (fun c => !stop c)
      if content.isEmpty then none
      else
        match r.tail.dropWhile (fun c => !stop c) with
        | ')' :: r2 => some (mk content, r2, false)
        | _ => none
    else none
  else none

/-- Matcher for the two-argument `to_char` rewrite:
`\bto_char\s*\(([^,)]+),\s*('[^']+')\)`. -/
def toChar2M (mk : List Char → List Char → List Char) (l : List Char) :
    Option (List Char × List Char × Bool) :=
  if startsWithIcL l "to_char".data then
    let r := (l.drop 7).dropWhile isWsC
    if r.head? = some '(' then
      let c1 := r.tail.takeWhile (fun c => !(c = ',' || c = ')'))
      if c1.isEmpty then none
      else
        match r.tail.dropWhile (fun c => !(c = ',' || c = ')')) with
        | ',' :: r2 =>
          match quotedLit (r2.dropWhile isWsC) with
          | some (q, r3) =>
            if q.length < 3 then none
            else
              match r3 with
              | ')' :: r4 => some (mk c1 q, r4, false)
              | _ => none
          | none => none
        | _ => none
    else none
  else none

/-- Matcher for `\bsubstr\s*\(([^,]+),\s*(-\d+)\)` (negative start). -/
def substrNegM (mk : List Char → List Char → List Char) (l : List Char) :
    Option (List Char × List Char × Bool) :=
  if startsWithIcL l "substr".data then
    let r := (l.drop 6).dropWhile isWsC
    if r.head? = some '(' then
      let c1 := r.tail.takeWhile (fun c => c ≠ ',')
      if c1.isEmpty then none
      else
        match r.tail.dropWhile (fun c => c ≠ ',') with
        | ',' :: r2 =>
          match r2.dropWhile isWsC with
          | '-' :: r3 =>
            let d := r3.takeWhile isDigitC
            if d.isEmpty then none
            else
              match r3.drop d.length with
              | ')' :: r4 => some (mk c1 d, r4, false)
              | _ => none
          | _ => none
        | _ => none
    else none
  else none

/-- Matcher for `\bsubstr\s*\(([^,]+),\s*(\d+),\s*(\d+)\)`. -/
def substr3M (mk : List Char → List Char → List Char → List Char) (l : List Char) :
    Option (List Char × List Char × Bool) :=
  if startsWithIcL l "substr".data then
    let r := (l.drop 6).dropWhile isWsC
    if r.head? = some '(' then
      let c1 := r.tail.takeWhile (fun c => c ≠ ',')
      if c1.isEmpty then none
      else
        match r.tail.dropWhile (fun c => c ≠ ',') with
        | ',' :: r2 =>
          let r2w := r2.dropWhile isWsC
          let d1 := r2w.takeWhile isDigitC
          if d1.isEmpty then none
          else
            match r2w.drop d1.length with
            | ',' :: r3 =>
              let r3w := r3.dropWhile isWsC
              let d2 := r3w.takeWhile isDigitC
              if d2.isEmpty then none
              else
                match r3w.drop d2.length with
                | ')' :: r4 => some (mk c1 d1 d2, r4, false)
                | _ => none
            | _ => none
        | _ => none
    else none
  else none

/-- Matcher for `\bsubstr\s*\(([^,]+),\s*(\d+)\)`. -/
def substr2M (mk : List Char → List Char → List Char) (l : List Char) :
    Option (List Char × List Char × Bool) :=
  if startsWithIcL l "substr".data then
    let r := (l.drop 6).dropWhile isWsC
    if r.head? = some '(' then
      let c1 := r.tail.takeWhile (fun c => c ≠ ',')
      if c1.isEmpty then none
      else
        match r.tail.dropWhile (fun c => c ≠ ',') with
        | ',' :: r2 =>
          let r2w := r2.dropWhile isWsC
          let d := r2w.takeWhile isDigitC
          if d.isEmpty then none
          else
            match r2w.drop d.length with
            | ')' :: r3 => some (mk c1 d, r3, false)
            | _ => none
        | _ => none
    else none
  else none

def joinSep (sep : List Char) (parts : List (List Char)) : List Char :=
  match parts with
  | [] => []
  | p :: ps => ps.foldl (fun acc q => acc ++ sep ++ q) p

def natOfDigits (l : List Char) : Nat :=
  l.foldl (fun n c => n * 10 + (c.toNat - 48)) 0

/-! ## Oracle expression translator (src/sql/templates/oracle-templates.ts) -/

def oraLeastDateMk (args : List Char) : List Char :=
  let parts := (splitComma args).map trimC
  let co := parts.map (fun a =>
    "COALESCE(".data ++ a ++ ", TO_DATE('9999-12-31', 'YYYY-MM-DD'))".data)
  "NULLIF(LEAST(".data ++ joinSep ", ".data co ++ "), TO_DATE('9999-12-31', 'YYYY-MM-DD'))".data

def oraGreatestDateMk (args : List Char) : List Char :=
  let parts := (splitComma args).map trimC
  let co := parts.map (fun a =>
    "COALESCE(".data ++ a ++ ", TO_DATE('0001-01-01', 'YYYY-MM-DD'))".data)
  "NULLIF(GREATEST(".data ++ joinSep ", ".data co ++ "), TO_DATE('0001-01-01', 'YYYY-MM-DD'))".data

def oracleTranslateFunctions (e : List Char) : List Char :=
  if e.isEmpty then e
  else
    let r1 := replaceFnCall "least_date".data oraLeastDateMk e
    let r2 := replaceFnCall "greatest_date".data oraGreatestDateMk r1
    let r3 := replaceFnCall "least".data
      (fun a => "LEAST(".data ++ a ++ [')']) r2
    replaceFnCall "greatest".data
      (fun a => "GREATEST(".data ++ a ++ [')']) r3

def oracleTranslateOperators (e : List Char) : List Char :=
  if e.isEmpty then e
  else if trimC e = ['.'] then "1=1".data
  else
    let r1 := oracleTranslateFunctions e
    let r2 := runScan false (wordNullM true false " IS NOT NULL".data) r1
    runScan false (wordNullM false false " IS NULL".data) r2

/-! ## PostgreSQL expression translator
(src/sql/templates/postgresql-templates.ts) -/

def pgLeastDateMk (args : List Char) : List Char :=
  let parts := (splitComma args).map trimC
  let co := parts.map (fun a =>
    "COALESCE(".data ++ a ++ (", ".data ++ [quoteC] ++ "9999-12-31".data ++ [quoteC] ++ "::DATE)".data))
  "NULLIF(LEAST(".data ++ joinSep ", ".data co ++ ("), ".data ++ [quoteC] ++ "9999-12-31".data ++ [quoteC] ++ "::DATE)".data)

def pgGreatestDateMk (args : List Char) : List Char :=
  let parts := (splitComma args).map trimC
  let co := parts.map (fun a =>
    "COALESCE(".data ++ a ++ (", ".data ++ [quoteC] ++ "0001-01-01".data ++ [quoteC] ++ "::DATE)".data))
  "NULLIF(GREATEST(".data ++ joinSep ", ".data co ++ ("), ".data ++ [quoteC] ++ "0001-01-01".data ++ [quoteC] ++ "::DATE)".data)

def pgDateLit (s : String) : List Char := [quoteC] ++ s.data ++ [quoteC] ++ "::DATE".data

def pgTranslateFunctions (e : List Char) : List Char :=
  if e.isEmpty then e
  else
    let r1 := runScan false backtickM e
    let r2 := runScan false concatRightM r1
    let r3 := runScan false concatLeftM r2
    let r4 := runScan true (wordM "sysdate".data "CURRENT_DATE".data) r3
    let r5 := runScan true (fnOpenM "nvl".data "COALESCE(".data) r4
    let r6 := runScan true (fnArgsM "to_number".data (fun c => c = ')')
      (fun c => ['('] ++ c ++ ")::NUMERIC".data)) r5
    let r7 := runScan true (toChar2M
      (fun c q => "to_char(".data ++ c ++ ", ".data ++ q ++ [')'])) r6
    let r8 := runScan true (fnArgsM "to_char".data (fun c => c = ',' || c = ')')
      (fun c => ['('] ++ c ++ ")::TEXT".data)) r7
    let r9 := runScan true (substrNegM
      (fun c d => "RIGHT(".data ++ c ++ "::TEXT, ".data ++ d ++ [')'])) r8
    let r10 := runScan true (substr3M
      (fun c d1 d2 => "SUBSTRING((".data ++ c ++ ")::TEXT FROM ".data ++ d1 ++ " FOR ".data ++ d2 ++ [')'])) r9
    let r11 := runScan true (substr2M
      (fun c d => "SUBSTRING((".data ++ c ++ ")::TEXT FROM ".data ++ d ++ [')'])) r10
    let r12 := replaceFnCall "least_date".data pgLeastDateMk r11
    let r13 := replaceFnCall "greatest_date".data pgGreatestDateMk r12
    let r14 := replaceFnCall "least".data
      (fun a => "LEAST(".data ++ a ++ [')']) r13
    let r15 := replaceFnCall "greatest".data
      (fun a => "GREATEST(".data ++ a ++ [')']) r14
    let r16 := runScan true (wordM "lower__bound__dt".data (pgDateLit "0001-01-01")) r15
    runScan true (wordM "upper__bound__dt".data (pgDateLit "9999-12-31")) r16

/-- Lower-case the event-table column names (`normalizeEadvColumns`). -/
def pgNormalizeEadv (e : List Char) : List Char :=
  if e.isEmpty then e
  else
    let r1 := runScan true (wordM "eid".data "eid".data) e
    let r2 := runScan true (wordM "att".data "att".data) r1
    let r3 := runScan true (wordM "dt".data "dt".data) r2
    runScan true (wordM "val".data "val".data) r3

def pgTranslateOperators (e : List Char) : List Char :=
  if e.isEmpty then e
  else if trimC e = ['.'] then "1=1".data
  else
    let r1 := pgTranslateFunctions e
    let r2 := runScan false (parenNullM true ") IS NOT NULL".data) r1
    let r3 := runScan false (wordNullM true true " IS NOT NULL".data) r2
    let r4 := runScan false (parenNullM false ") IS NULL".data) r3
    let r5 := runScan false (wordNullM false true " IS NULL".data) r4
    pgNormalizeEadv r5

def pgTranslatePredicate (p : List Char) : List Char :=
  if p.isEmpty then p else pgNormalizeEadv (pgTranslateFunctions p)

/-! ## T-SQL expression translator (src/sql/templates/mssql-templates.ts)

The T-SQL dialect uses balanced-parenthesis extraction
(`replaceBalancedFunction`, with its safety counter of 100 iterations) for
the rewrites whose arguments may contain nested calls. -/

/-- Walk a balanced-parenthesis argument region (depth starts just after the
opening paren); returns the inside text and the suffix after the matching
close. -/
def balExtract (depth : Nat) (acc : List Char) : List Char → Option (List Char × List Char)
  | [] => none
  | c :: rest =>
    if c = '(' then balExtract (depth + 1) (c :: acc) rest
    else if c = ')' then
      if depth = 0 then some (acc.reverse, rest)
      else balExtract (depth - 1) (c :: acc) rest
    else balExtract depth (c :: acc) rest

/-- Find the first `\bfname\s*\(` (case-insensitive) with balanced argument
extraction; returns the text before the match, the arguments, and the text
after the closing paren.  An unbalanced call ends the search, as the source's
`break` does. -/
def findBalancedAux (fname : List Char) (prev : Bool) (acc : List Char) :
    List Char → Option (List Char × List Char × List Char)
  | [] => none
  | c :: rest =>
    if !prev && startsWithIcL (c :: rest) fname then
      let r := ((c :: rest).drop fname.length).dropWhile isWsC
      if r.head? = some '(' then
        match balExtract 0 [] r.tail with
        | some (args, after) => some (acc.reverse, args, after)
        | none => none
      else findBalancedAux fname (isWordC c) (c :: acc) rest
    else findBalancedAux fname (isWordC c) (c :: acc) rest

def replaceBalanced (fname : List Char) (mk : List Char → List Char) :
    Nat → List Char → List Char
  | 0, l => l
  | fuel + 1, l =>
    match findBalancedAux fname false [] l with
    | some (before, args, after) =>
      replaceBalanced fname mk fuel (before ++ mk args ++ after)
    | none => l

/-- Matcher for
`\bEXTRACT\s*\(\s*(YEAR|MONTH|DAY|HOUR|MINUTE|SECOND)\s+FROM\s+([^)]+)\)`. -/
def extractM (l : List Char) : Option (List Char × List Char × Bool) :=
  if startsWithIcL l "extract".data then
    let r := (l.drop 7).dropWhile isWsC
    if r.head? = some '(' then
      let r1 := r.tail.dropWhile isWsC
      let part := r1.takeWhile isWordC
      if ["year", "month", "day", "hour", "minute", "second"].any
          (fun p => lowerL part = p.data) then
        let r2 := r1.drop part.length
        let ws1 := r2.takeWhile isWsC
        if ws1.isEmpty then none
        else
          let r3 := r2.drop ws1.length
          if startsWithIcL r3 "from".data then
            let r4 := r3.drop 4
            let ws2 := r4.takeWhile isWsC
            if ws2.isEmpty then none
            else
              let r5 := r4.drop ws2.length
              let content := r5.takeWhile (fun c => c ≠ ')')
              if content.isEmpty then none
              else
                match r5.drop content.length with
                | ')' :: r6 =>
                  some ("DATEPART(".data ++ part.map Char.toUpper ++ ", ".data ++
                    content ++ [')'], r6, false)
                | _ => none
          else none
      else none
    else none
  else none

/-- Matcher for `\bsysdate\s*-\s*(\d+)` / `\bsysdate\s*\+\s*(\d+)`. -/
def sysdateNumM (sign : Char) (mk : List Char → List Char) (l : List Char) :
    Option (List Char × List Char × Bool) :=
  if startsWithIcL l "sysdate".data then
    match (l.drop 7).dropWhile isWsC with
    | s :: r2 =>
      if s = sign then
        let r3 := r2.dropWhile isWsC
        let d := r3.takeWhile isDigitC
        if d.isEmpty then none
        else some (mk d, r3.drop d.length, true)
      else none
    | [] => none
  else none

def dateSuffixes : List (List Char) :=
  ["_dt".data, "_dt_min".data, "_dt_max".data, "_fd".data, "_ld".data]

/-- Does `g` match `[a-z_]+(?:_dt|_dt_min|_dt_max|_fd|_ld)` exactly? -/
def dateGroupOk (g : List Char) : Bool :=
  g.all isLatinU && dateSuffixes.any
    (fun suf => suf.length < g.length && suf.isSuffixOf (lowerL g))

/-- Candidate lengths for the group `(dt|[a-z_]+(?:_dt|...))` starting at
`l`: the literal `dt` alternative first (the alternation is ordered), then
the general alternative from the longest match down (greedy). -/
def dateGroupCands (allowDt : Bool) (l : List Char) : List Nat :=
  let run := l.takeWhile isLatinU
  let general := ((List.range (run.length + 1)).reverse).filter
    (fun k => dateGroupOk (l.take k))
  (if allowDt && lowerL (l.take 2) = "dt".data then [2] else []) ++ general

def firstSome {α β : Type} (f : α → Option β) : List α → Option β
  | [] => none
  | a :: as =>
    match f a with
    | some b => some b
    | none => firstSome f as

/-- Matcher for `\b(dt|[a-z_]+(?:_dt|...))\s*SIGN\s*(\d+)`. -/
def dateVarNumM (sign : Char) (mk : List Char → List Char → List Char)
    (l : List Char) : Option (List Char × List Char × Bool) :=
  firstSome (fun k =>
    let v := l.take k
    match (l.drop k).dropWhile isWsC with
    | s :: r2 =>
      if s = sign then
        let r3 := r2.dropWhile isWsC
        let d := r3.takeWhile isDigitC
        if d.isEmpty then none
        else some (mk v d, r3.drop d.length, true)
      else none
    | [] => none) (dateGroupCands true l)

/-- Matcher for
`\b(dt|[a-z_]+(?:_dt|...))\s*-\s*(dt|[a-z_]+(?:_dt|...))\b`. -/
def dateVarDateVarM (mk : List Char → List Char → List Char) (l : List Char) :
    Option (List Char × List Char × Bool) :=
  firstSome (fun k1 =>
    let v1 := l.take k1
    match (l.drop k1).dropWhile isWsC with
    | '-' :: r2 =>
      let r3 := r2.dropWhile isWsC
      firstSome (fun k2 =>
        let v2 := r3.take k2
        if ((r3.drop k2).head?.map isWordC).getD false then none
        else some (mk v1 v2, r3.drop k2, true)) (dateGroupCands true r3)
    | _ => none) (dateGroupCands true l)

/-- Matcher for `\bsysdate\s*-\s*([a-z_]+(?:_dt|...))`. -/
def sysdateSuffVarM (mk : List Char → List Char) (l : List Char) :
    Option (List Char × List Char × Bool) :=
  if startsWithIcL l "sysdate".data then
    match (l.drop 7).dropWhile isWsC with
    | '-' :: r2 =>
      let r3 := r2.dropWhile isWsC
      firstSome (fun k => some (mk (r3.take k), r3.drop k, true))
        (dateGroupCands false r3)
    | _ => none
  else none

/-- Matcher for `\bsysdate\s*-\s*(dob|dod|dt)\b`. -/
def sysdateDobM (mk : List Char → List Char) (l : List Char) :
    Option (List Char × List Char × Bool) :=
  if startsWithIcL l "sysdate".data then
    match (l.drop 7).dropWhile isWsC with
    | '-' :: r2 =>
      let r3 := r2.dropWhile isWsC
      let w := r3.takeWhile isWordC
      if ["dob", "dod", "dt"].any (fun p => lowerL w = p.data) then
        some (mk w, r3.drop w.length, true)
      else none
    | _ => none
  else none

/-- Matcher for `\bsysdate\s*-\s*([a-z][a-z0-9_]*)`. -/
def sysdateIdentM (mk : List Char → List Char) (l : List Char) :
    Option (List Char × List Char × Bool) :=
  if startsWithIcL l "sysdate".data then
    match (l.drop 7).dropWhile isWsC with
    | '-' :: r2 =>
      match r2.dropWhile isWsC with
      | c :: r3 =>
        if ('a' ≤ c.toLower && c.toLower ≤ 'z') then
          let v := c :: r3.takeWhile isWordC
          some (mk v, r3.dropWhile isWordC, true)
        else none
      | [] => none
    | _ => none
  else none

/-- Matcher for `(CAST\s*\([^)]+\s+AS\s+DATE\s*\))\s*SIGN\s*(\d+)` (no word
boundary; the inner text must end with `AS DATE`). -/
def castDateM (sign : Char) (mk : List Char → List Char → List Char)
    (l : List Char) : Option (List Char × List Char × Bool) :=
  if startsWithIcL l "cast".data then
    let ws0 := (l.drop 4).takeWhile isWsC
    let r := (l.drop 4).drop ws0.length
    if r.head? = some '(' then
      let inner := r.tail.takeWhile (fun c => c ≠ ')')
      if inner.isEmpty then none
      else
        match r.tail.drop inner.length with
        | ')' :: r2 =>
          -- inner must be [^)]+ \s+ AS \s+ DATE \s*
          let t1 := (inner.reverse.dropWhile isWsC).reverse
          if "date".data.isSuffixOf (lowerL t1) then
            let t2 := t1.take (t1.length - 4)
            let t3 := (t2.reverse.dropWhile isWsC).reverse
            if t3.length < t2.length && "as".data.isSuffixOf (lowerL t3) then
              let t4 := t3.take (t3.length - 2)
              let t5 := (t4.reverse.dropWhile isWsC).reverse
              if t5.length < t4.length && !t5.isEmpty then
                let castExpr := l.take (4 + ws0.length + 1 + inner.length + 1)
                match (r2.dropWhile isWsC) with
                | s :: r3 =>
                  if s = sign then
                    let r4 := r3.dropWhile isWsC
                    let d := r4.takeWhile isDigitC
                    if d.isEmpty then none
                    else some (mk castExpr d, r4.drop d.length, true)
                  else none
                | [] => none
              else none
            else none
          else none
        | _ => none
    else none
  else none

/-- The `translateDateArithmetic` helper of the T-SQL dialect. -/
def msTranslateDateArithmetic (e : List Char) : List Char :=
  let r1 := runScan true (sysdateNumM '-'
    (fun d => "DATEADD(DAY, -".data ++ d ++ ", CAST(GETDATE() AS DATE))".data)) e
  let r2 := runScan true (sysdateNumM '+'
    (fun d => "DATEADD(DAY, ".data ++ d ++ ", CAST(GETDATE() AS DATE))".data)) r1
  let r3 := runScan true (dateVarNumM '-'
    (fun v d => "DATEADD(DAY, -".data ++ d ++ ", ".data ++ v ++ [')'])) r2
  runScan true (dateVarNumM '+'
    (fun v d => "DATEADD(DAY, ".data ++ d ++ ", ".data ++ v ++ [')'])) r3

/-- The `substr` rewrite body of the T-SQL dialect (balanced arguments). -/
def msSubstrMk (args : List Char) : List Char :=
  let parts := splitParamsAux 0 [] args
  match parts with
  | [p0, p1] =>
    (match p1 with
     | '-' :: d =>
       if !d.isEmpty && d.all isDigitC then
         "RIGHT(CAST(".data ++ p0 ++ " AS VARCHAR(1000)), ".data ++ d ++ [')']
       else "SUBSTRING(".data ++ args ++ [')']
     | d =>
       if !d.isEmpty && d.all isDigitC then
         "SUBSTRING(".data ++ p0 ++ ", ".data ++ d ++
           ", LEN(CAST(".data ++ p0 ++ " AS VARCHAR(1000))) - ".data ++
           (toString ((natOfDigits d : Int) - 1)).data ++ [')']
       else "SUBSTRING(".data ++ args ++ [')'])
  | [p0, p1, p2] =>
    "SUBSTRING(".data ++ p0 ++ ", ".data ++ p1 ++ ", ".data ++ p2 ++ [')']
  | _ => "SUBSTRING(".data ++ args ++ [')']

def msValuesClause (args : List Char) : List (List Char) :=
  (splitParamsAux 0 [] args).map (fun a => msTranslateDateArithmetic (trimC a))

def msLeastDateMk (args : List Char) : List Char :=
  let argList := msValuesClause args
  let values := joinSep ", ".data (argList.map (fun a => ['('] ++ a ++ [')']))
  "(SELECT MIN(x) FROM (VALUES ".data ++ values ++ ") AS T(x) WHERE X IS NOT NULL)".data

def msGreatestDateMk (args : List Char) : List Char :=
  let argList := msValuesClause args
  let values := joinSep ", ".data (argList.map (fun a => ['('] ++ a ++ [')']))
  "(SELECT MAX(x) FROM (VALUES ".data ++ values ++ ") AS T(x) WHERE x IS NOT NULL)".data

def msLeastMk (args : List Char) : List Char :=
  let argList := msValuesClause args
  let nullChecks := joinSep " or ".data (argList.map (fun a => ['('] ++ a ++ ") is null".data))
  let values := joinSep ", ".data (argList.map (fun a => ['('] ++ a ++ [')']))
  "(CASE WHEN (".data ++ nullChecks ++
    ") THEN NULL ELSE (SELECT MIN(x) FROM (VALUES ".data ++ values ++ ") AS T(x)) END)".data

def msGreatestMk (args : List Char) : List Char :=
  let argList := msValuesClause args
  let nullChecks := joinSep " or ".data (argList.map (fun a => ['('] ++ a ++ ") is null".data))
  let values := joinSep ", ".data (argList.map (fun a => ['('] ++ a ++ [')']))
  "(CASE WHEN (".data ++ nullChecks ++
    ") THEN NULL ELSE (SELECT MAX(x) FROM (VALUES ".data ++ values ++ ") AS T(x)) END)".data

def msTranslateFunctions (e : List Char) : List Char :=
  if e.isEmpty then e
  else
    let r1 := runScan false backtickM e
    let r2 := runScan true extractM r1
    let r3 := runScan true (fnOpenM "nvl".data "ISNULL(".data) r2
    let r4 := replaceBalanced "to_number".data
      (fun args => "CAST(".data ++ args ++ " AS FLOAT)".data) 100 r3
    let r5 := runScan true (fnOpenM "ceil".data "CEILING(".data) r4
    let r6 := runScan true (toChar2M
      (fun c q => "FORMAT(".data ++ c ++ ", ".data ++ q ++ [')'])) r5
    let r7 := runScan true (fnArgsM "to_char".data (fun c => c = ',' || c = ')')
      (fun c => "CAST(".data ++ c ++ " AS VARCHAR(100))".data)) r6
    let r8 := replaceBalanced "substr".data msSubstrMk 100 r7
    let r9 := runScan true (sysdateNumM '-'
      (fun d => "DATEADD(DAY, -".data ++ d ++ ", GETDATE())".data)) r8
    let r10 := runScan true (sysdateNumM '+'
      (fun d => "DATEADD(DAY, ".data ++ d ++ ", GETDATE())".data)) r9
    let r11 := runScan true (sysdateSuffVarM
      (fun v => "DATEDIFF(DAY, ".data ++ v ++ ", GETDATE())".data)) r10
    let r12 := runScan true (sysdateDobM
      (fun v => "DATEDIFF(DAY, ".data ++ v ++ ", GETDATE())".data)) r11
    let r13 := runScan true (sysdateIdentM
      (fun v => "DATEDIFF(DAY, ".data ++ v ++ ", GETDATE())".data)) r12
    let r14 := runScan true (wordM "sysdate".data "GETDATE()".data) r13
    let r15 := runScan false (castDateM '-'
      (fun c d => "DATEADD(DAY, -".data ++ d ++ ", ".data ++ c ++ [')'])) r14
    let r16 := runScan false (castDateM '+'
      (fun c d => "DATEADD(DAY, ".data ++ d ++ ", ".data ++ c ++ [')'])) r15
    let r17 := runScan true (dateVarDateVarM
      (fun v1 v2 => "DATEDIFF(DAY, ".data ++ v2 ++ ", ".data ++ v1 ++ [')'])) r16
    let r18 := runScan true (dateVarNumM '-'
      (fun v d => "DATEADD(DAY, -".data ++ d ++ ", ".data ++ v ++ [')'])) r17
    let r19 := runScan true (dateVarNumM '+'
      (fun v d => "DATEADD(DAY, ".data ++ d ++ ", ".data ++ v ++ [')'])) r18
    let r20 := replaceBalanced "least_date".data msLeastDateMk 100 r19
    let r21 := replaceBalanced "greatest_date".data msGreatestDateMk 100 r20
    let r22 := replaceBalanced "least".data msLeastMk 100 r21
    let r23 := replaceBalanced "greatest".data msGreatestMk 100 r22
    let r24 := runScan true (wordM "lower__bound__dt".data
      ("CAST(".data ++ [quoteC] ++ "0001-01-01".data ++ [quoteC] ++ " AS DATE)".data)) r23
    runScan true (wordM "upper__bound__dt".data
      ("CAST(".data ++ [quoteC] ++ "9999-12-31".data ++ [quoteC] ++ " AS DATE)".data)) r24

def msTranslateOperators (e : List Char) : List Char :=
  if e.isEmpty then e
  else if trimC e = ['.'] then "1=1".data
  else
    let r1 := msTranslateFunctions e
    let r2 := runScan false (parenNullM true ") IS NOT NULL".data) r1
    let r3 := runScan false (wordNullM true true " IS NOT NULL".data) r2
    let r4 := runScan false (parenNullM false ") IS NULL".data) r3
    runScan false (wordNullM false true " IS NULL".data) r4

def msTranslatePredicate (p : List Char) : List Char :=
  if p.isEmpty then p else msTranslateFunctions p

/-! ## SQL templates (src/sql/templates) -/

/-- JavaScript `String.prototype.trim` on the template literals. -/
def jsTrim (s : String) : String := ⟨trimC s.data⟩

structure FetchCtx where
  assignedVariable : String
  table : String
  attributeList : List String
  property : String
  functionName : String
  functionParams : Option (List String) := none
  predicate : Option String := none
  previousVariables : Option (List String) := none
deriving DecidableEq, Repr

structure ComputeCtx where
  assignedVariable : String
  conditions : List Condition
  previousVariables : Option (List String) := none
deriving DecidableEq, Repr

structure BindCtx where
  assignedVariable : String
  sourceRuleblock : String
  sourceVariable : String
  property : String
deriving DecidableEq, Repr

structure VarMeta where
  name : String
  isDvFunction : Bool
deriving DecidableEq, Repr

/-- The Oracle / PostgreSQL attribute filter (`buildAttributeFilter`); the
source throws on an empty list, which the generator models as an error
before the template is rendered (the parser never produces an empty list). -/
def attrFilter (attrs : List String) : String :=
  let conds := attrs.map (fun attr =>
    if strHasSub attr "%" then "att LIKE '" ++ attr ++ "'"
    else "att = '" ++ attr ++ "'")
  match conds with
  | [c] => c
  | cs => "(" ++ strJoin " OR " cs ++ ")"

/-- The T-SQL attribute filter: upper-case `ATT`, escaped underscores in
LIKE patterns, and the whole disjunction parenthesised even when single.
The `useEscape` parameter is accepted and ignored, as in the source (both
branches of its conditional produce the same string). -/
def msAttrFilter (attrs : List String) (_useEscape : Bool) : String :=
  let conds := attrs.map (fun attr =>
    if strHasSub attr "%" then
      let escaped : String := ⟨attr.data.flatMap (fun c => if c = '_' then ['\\', '_'] else [c])⟩
      "ATT LIKE '" ++ escaped ++ "' ESCAPE '\\'"
    else "ATT = '" ++ attr ++ "'")
  match conds with
  | [c] => "(" ++ c ++ ")"
  | cs => "(" ++ strJoin " OR " cs ++ ")"

inductive CastKind where
  | numeric
  | varchar
deriving DecidableEq, Repr

/-- PostgreSQL `resolveProperty`: `_` means `val`, column names fold to
lowercase, and `dt` is never cast to numeric. -/
def pgResolveProperty (property : String) (cast : Option CastKind) : String :=
  let resolved := if property = "_" then "val" else property
  let columnName := strToLower resolved
  match cast with
  | some .numeric => if columnName ≠ "dt" then columnName ++ "::numeric" else columnName
  | some .varchar => columnName ++ "::varchar"
  | none => columnName

/-- T-SQL `resolveProperty`. -/
def msResolveProperty (property : String) (cast : Option CastKind) : String :=
  let resolved := if property = "_" then "val" else property
  match cast with
  | some .numeric => "CAST(" ++ resolved ++ " AS FLOAT)"
  | some .varchar => "CAST(" ++ resolved ++ " AS VARCHAR(1000))"
  | none => resolved

def oraOps (s : String) : String := ⟨oracleTranslateOperators s.data⟩
def oraFns (s : String) : String := ⟨oracleTranslateFunctions s.data⟩
def pgOps (s : String) : String := ⟨pgTranslateOperators s.data⟩
def pgFns (s : String) : String := ⟨pgTranslateFunctions s.data⟩
def pgPred (s : String) : String := ⟨pgTranslatePredicate s.data⟩
def msOps (s : String) : String := ⟨msTranslateOperators s.data⟩
def msFns (s : String) : String := ⟨msTranslateFunctions s.data⟩
def msPred (s : String) : String := ⟨msTranslatePredicate s.data⟩

/-! ### Oracle templates -/

def oracleFetchLast (ctx : FetchCtx) : String :=
  jsTrim ("\n  SQ_" ++ (strToUpper ctx.assignedVariable) ++ " AS (\n    SELECT eid, " ++
    ctx.property ++ " AS " ++ ctx.assignedVariable ++ "\n    FROM (\n      SELECT eid, " ++
    ctx.property ++ ",\n             ROW_NUMBER() OVER (PARTITION BY eid ORDER BY dt DESC) AS rn\n      FROM " ++
    ctx.table ++ "\n      WHERE " ++ attrFilter ctx.attributeList ++ "\n      " ++
    (match ctx.predicate with
     | some p => "AND " ++ p
     | none => "") ++ "\n    )\n    WHERE rn = 1\n  )")

def oracleFetchFirst (ctx : FetchCtx) : String :=
  jsTrim ("\n  SQ_" ++ (strToUpper ctx.assignedVariable) ++ " AS (\n    SELECT eid, " ++
    ctx.property ++ " AS " ++ ctx.assignedVariable ++ "\n    FROM (\n      SELECT eid, " ++
    ctx.property ++ ",\n             ROW_NUMBER() OVER (PARTITION BY eid ORDER BY dt ASC) AS rn\n      FROM " ++
    ctx.table ++ "\n      WHERE " ++ attrFilter ctx.attributeList ++ "\n      " ++
    (match ctx.predicate with
     | some p => "AND " ++ p
     | none => "") ++ "\n    )\n    WHERE rn = 1\n  )")

/-- The shared aggregate shape of the Oracle `count`/`sum`/`avg`/`min`/`max`/
`median`/`distinct_count` templates; `selExpr` is the rendered aggregate
expression. -/
def oracleFetchAggCte (ctx : FetchCtx) (selExpr : String) : String :=
  jsTrim ("\n  SQ_" ++ (strToUpper ctx.assignedVariable) ++ " AS (\n    SELECT eid, " ++
    selExpr ++ " AS " ++ ctx.assignedVariable ++ "\n    FROM " ++ ctx.table ++
    "\n    WHERE " ++ attrFilter ctx.attributeList ++ "\n    " ++
    (match ctx.predicate with
     | some p => "AND " ++ p
     | none => "") ++ "\n    GROUP BY eid\n  )")

def oracleCompute (ctx : ComputeCtx) : String :=
  let condLines := strJoin "\n" (ctx.conditions.map (fun c =>
    match c.predicate with
    | some p => "           WHEN " ++ oraOps p ++ " THEN " ++ oraFns c.returnValue
    | none => "           ELSE " ++ oraFns c.returnValue))
  jsTrim ("\n  SQ_" ++ (strToUpper ctx.assignedVariable) ++
    " AS (\n    SELECT eid,\n           CASE\n" ++ condLines ++
    "\n           END AS " ++ ctx.assignedVariable ++ "\n    FROM UEADV\n  )")

def oracleBind (ctx : BindCtx) : String :=
  jsTrim ("\n  SQ_" ++ (strToUpper ctx.assignedVariable) ++ " AS (\n    SELECT eid, " ++
    ctx.sourceVariable ++ " AS " ++ ctx.assignedVariable ++ "\n    FROM ROUT_" ++
    (strToUpper ctx.sourceRuleblock) ++ "\n  )")

def oracleRuleblock (name : String) (ctes : List String) (vmeta : List VarMeta) : String :=
  let columnList := strJoin ",\n       " (vmeta.map (fun v =>
    if v.isDvFunction then v.name ++ "_val,\n       " ++ v.name ++ "_dt" else v.name))
  let joinList := strJoin "\n" (vmeta.map (fun v =>
    "LEFT JOIN SQ_" ++ (strToUpper v.name) ++ " USING (eid)"))
  jsTrim ("\n--================================================\n-- SQL Dialect: Oracle (PL/SQL)\n-- Ruleblock: " ++
    name ++ "\n--================================================\nCREATE TABLE ROUT_" ++
    (strToUpper name) ++ " AS\nWITH\n  UEADV AS (\n    SELECT DISTINCT eid FROM eadv\n  ),\n" ++
    strJoin ",\n" ctes ++ "\nSELECT eid" ++
    (if vmeta.length > 0 then ",\n       " ++ columnList else "") ++
    "\nFROM UEADV\n" ++ joinList ++ "\n")

/-! ### PostgreSQL templates -/

def pgFetchLast (ctx : FetchCtx) : String :=
  jsTrim ("\n  SQ_" ++ (strToUpper ctx.assignedVariable) ++ " AS (\n    SELECT eid, " ++
    pgResolveProperty ctx.property none ++ " AS " ++ ctx.assignedVariable ++
    "\n    FROM (\n      SELECT eid, " ++ pgResolveProperty ctx.property none ++
    ",\n             ROW_NUMBER() OVER (PARTITION BY eid ORDER BY dt DESC) AS rn\n      FROM " ++
    ctx.table ++ "\n      WHERE " ++ attrFilter ctx.attributeList ++ "\n      " ++
    (match ctx.predicate with
     | some p => "AND " ++ pgPred p
     | none => "") ++ "\n    ) ranked\n    WHERE rn = 1\n  )")

def pgFetchFirst (ctx : FetchCtx) : String :=
  jsTrim ("\n  SQ_" ++ (strToUpper ctx.assignedVariable) ++ " AS (\n    SELECT eid, " ++
    pgResolveProperty ctx.property none ++ " AS " ++ ctx.assignedVariable ++
    "\n    FROM (\n      SELECT eid, " ++ pgResolveProperty ctx.property none ++
    ",\n             ROW_NUMBER() OVER (PARTITION BY eid ORDER BY dt ASC) AS rn\n      FROM " ++
    ctx.table ++ "\n      WHERE " ++ attrFilter ctx.attributeList ++ "\n      " ++
    (match ctx.predicate with
     | some p => "AND " ++ pgPred p
     | none => "") ++ "\n    ) ranked\n    WHERE rn = 1\n  )")

def pgCompute (ctx : ComputeCtx) : String :=
  let prevVars := ctx.previousVariables.getD []
  let fromClause :=
    if prevVars.length > 0 then
      "FROM UEADV" ++ "\n" ++ strJoin "\n" (prevVars.map (fun v =>
        "    LEFT JOIN SQ_" ++ (strToUpper v) ++ " USING (eid)"))
    else "FROM UEADV"
  let condLines := strJoin "\n" (ctx.conditions.map (fun c =>
    match c.predicate with
    | some p => "           WHEN " ++ pgOps p ++ " THEN " ++ pgFns c.returnValue
    | none => "           ELSE " ++ pgFns c.returnValue))
  jsTrim ("\n  SQ_" ++ (strToUpper ctx.assignedVariable) ++
    " AS (\n    SELECT eid,\n           CASE\n" ++ condLines ++
    "\n           END AS " ++ ctx.assignedVariable ++ "\n    " ++ fromClause ++ "\n  )")

def pgBind (ctx : BindCtx) : String :=
  jsTrim ("\n  SQ_" ++ (strToUpper ctx.assignedVariable) ++ " AS (\n    SELECT eid, " ++
    ctx.sourceVariable ++ " AS " ++ ctx.assignedVariable ++ "\n    FROM ROUT_" ++
    (strToUpper ctx.sourceRuleblock) ++ "\n  )")

/-- The PostgreSQL per-ruleblock envelope.  Note that the `CREATE TABLE`
statement spells the table name `ROUT_` + upper-cased ruleblock name, while
the manifest's `getTargetTableName` reports `rout_` + lower-cased name. -/
def pgRuleblock (name : String) (ctes : List String) (vmeta : List VarMeta) : String :=
  let columnList := strJoin ",\n       " (vmeta.map (fun v =>
    if v.isDvFunction then v.name ++ "_val,\n       " ++ v.name ++ "_dt" else v.name))
  let joinList := strJoin "\n" (vmeta.map (fun v =>
    "LEFT JOIN SQ_" ++ (strToUpper v.name) ++ " USING (eid)"))
  jsTrim ("\n--================================================\n-- SQL Dialect: PostgreSQL\n-- Ruleblock: " ++
    name ++ "\n--================================================\nCREATE TABLE ROUT_" ++
    (strToUpper name) ++ " AS\nWITH\n  UEADV AS (\n    SELECT DISTINCT eid FROM eadv\n  ),\n" ++
    strJoin ",\n" ctes ++ "\nSELECT eid" ++
    (if vmeta.length > 0 then ",\n       " ++ columnList else "") ++
    "\nFROM UEADV\n" ++ joinList ++ "\n")

/-! ### T-SQL templates -/

def msDependencyJoins (prevVars : List String) : String :=
  strJoin "\n" (prevVars.map (fun v =>
    "    LEFT OUTER JOIN #SQ_" ++ v ++ " ON #SQ_" ++ v ++ ".eid = #UEADV.eid"))

/-- `fetchWindowTempTable` (the T-SQL `last`/`first` shape), with its two
branches for predicates that reference previously assigned variables. -/
def msFetchWindow (ctx : FetchCtx) (orderDir : String) : String :=
  let tableName := "#SQ_" ++ ctx.assignedVariable
  let prop := msResolveProperty ctx.property none
  let prevVars := ctx.previousVariables.getD []
  let predPart := match ctx.predicate with
    | some p => "AND (" ++ msPred p ++ ")"
    | none => ""
  if prevVars.length > 0 then
    jsTrim ("\nDROP TABLE IF EXISTS " ++ tableName ++ ";\n\nSELECT\n    eid,\n    " ++
      prop ++ " AS " ++ ctx.assignedVariable ++ "\nINTO\n    " ++ tableName ++
      "\nFROM\n    (\n    SELECT\n        #UEADV.eid,\n        " ++ prop ++
      ",\n        ROW_NUMBER()\n    OVER\n        (\n        PARTITION BY\n            #UEADV.eid\n        ORDER BY\n            dt " ++
      orderDir ++ ", att ASC, val ASC\n        ) AS RANK\n    FROM\n            #UEADV\n" ++
      msDependencyJoins prevVars ++
      "\n            LEFT OUTER JOIN eadv ON eadv.eid = #UEADV.eid\n    WHERE (1=1)\n        AND " ++
      msAttrFilter ctx.attributeList true ++ "\n        " ++ predPart ++
      "\n    ) SQ_" ++ ctx.assignedVariable ++ "_WINDOW\nWHERE\n    RANK = 1\n;\n\nALTER TABLE " ++
      tableName ++ " ADD PRIMARY KEY (eid);")
  else
    jsTrim ("\nDROP TABLE IF EXISTS " ++ tableName ++ ";\n\nSELECT\n    eid,\n    " ++
      prop ++ " AS " ++ ctx.assignedVariable ++ "\nINTO\n    " ++ tableName ++
      "\nFROM\n    (\n    SELECT\n        eadv.eid,\n        " ++ prop ++
      ",\n        ROW_NUMBER()\n    OVER\n        (\n        PARTITION BY\n            eadv.eid\n        ORDER BY\n            dt " ++
      orderDir ++ ", att ASC, val ASC\n        ) AS RANK\n    FROM\n            eadv\n    WHERE (1=1)\n        AND " ++
      msAttrFilter ctx.attributeList true ++ "\n        " ++ predPart ++
      "\n    ) SQ_" ++ ctx.assignedVariable ++ "_WINDOW\nWHERE\n    RANK = 1\n;\n\nALTER TABLE " ++
      tableName ++ " ADD PRIMARY KEY (eid);")

def msCompute (ctx : ComputeCtx) : String :=
  let tableName := "#SQ_" ++ ctx.assignedVariable
  let prevVars := ctx.previousVariables.getD []
  let caseExpr := strJoin "\n" (ctx.conditions.map (fun c =>
    match c.predicate with
    | some p => "        WHEN " ++ msOps p ++ "\n            THEN " ++ msFns c.returnValue
    | none => "        ELSE " ++ msFns c.returnValue))
  jsTrim ("\nDROP TABLE IF EXISTS " ++ tableName ++
    ";\n\nSELECT\n    #UEADV.eid,\n    CASE\n" ++ caseExpr ++ "\n    END AS " ++
    ctx.assignedVariable ++ "\nINTO\n    " ++ tableName ++ "\nFROM\n    #UEADV\n" ++
    msDependencyJoins prevVars ++ "\nWHERE (1=1)\n;\n\nALTER TABLE " ++ tableName ++
    " ADD PRIMARY KEY (eid);")

def msBind (ctx : BindCtx) : String :=
  let tableName := "#SQ_" ++ ctx.assignedVariable
  jsTrim ("\nDROP TABLE IF EXISTS " ++ tableName ++ ";\n\nSELECT\n    SROUT_" ++
    ctx.sourceRuleblock ++ ".eid,\n    SROUT_" ++ ctx.sourceRuleblock ++ "." ++
    ctx.sourceVariable ++ " AS " ++ ctx.assignedVariable ++ "\nINTO\n    " ++
    tableName ++ "\nFROM\n    SROUT_" ++ ctx.sourceRuleblock ++
    "\n;\n\nALTER TABLE " ++ tableName ++ " ADD PRIMARY KEY (eid);")

def msRuleblock (name : String) (ctes : List String) (vmeta : List VarMeta) : String :=
  let columnList := strJoin ",\n" (vmeta.map (fun v =>
    if v.isDvFunction then
      "    #SQ_" ++ v.name ++ "." ++ v.name ++ "_val,\n    #SQ_" ++ v.name ++ "." ++ v.name ++ "_dt"
    else "    #SQ_" ++ v.name ++ "." ++ v.name))
  let finalJoins := strJoin "\n" (vmeta.map (fun v =>
    "    LEFT OUTER JOIN #SQ_" ++ v.name ++ " ON #SQ_" ++ v.name ++ ".eid = #UEADV.eid"))
  jsTrim ("--------------------------------------------------\n-- ruleblock:   " ++
    name ++ "\n--------------------------------------------------\n\nDROP TABLE IF EXISTS SROUT_" ++
    name ++ ";\n\nDROP TABLE IF EXISTS #UEADV;\n\nSELECT\n    eadv.eid\nINTO\n    #UEADV\nFROM\n    eadv\nGROUP BY\n    eadv.eid\n;\n\n" ++
    strJoin "\n\n" ctes ++ "\n\nDROP TABLE IF EXISTS SROUT_" ++ name ++
    ";\n\nSELECT\n    #UEADV.eid" ++
    (if vmeta.length > 0 then ",\n" ++ columnList else "") ++
    "\nINTO\n    SROUT_" ++ name ++ "\nFROM\n    #UEADV\n" ++ finalJoins ++
    "\n;\n\nALTER TABLE SROUT_" ++ name ++ " ADD PRIMARY KEY (eid);")

/-! ## SQL generation (src/sql/sql-generator.ts) -/

/-- The keys of the generator's `functionMap` (identical across dialects). -/
def supportedFunctions : List String :=
  ["last", "first", "count", "sum", "avg", "min", "max", "median",
   "distinct_count", "nth", "lastdv", "firstdv", "maxldv", "minldv",
   "serialize", "serializedv", "serializedv2", "regr_slope",
   "regr_intercept", "regr_r2", "exists", "stats_mode", "minfdv",
   "serialize2", "max_neg_delta_dv", "temporal_regularity"]

/-- Operators whose fragment produces `_val` and `_dt` columns
(`DV_FUNCTIONS`). -/
def dvFunctions : List String :=
  ["lastdv", "firstdv", "maxldv", "minldv", "minfdv", "max_neg_delta_dv"]

/-- Stands for the fragment text of the operator templates not transcribed
individually (`nth`, the dv family, the serialize family, the statistical
operators, …).  The supported-name set and the error behaviour of the
generator mirror the source exactly; the text of these fragments is not
inspected by any claim or theorem in this development and is abbreviated to
the dialect's fragment-naming skeleton. -/
def otherFetchCte (d : Dialect) (ctx : FetchCtx) : String :=
  match d with
  | .mssql =>
    jsTrim ("\nDROP TABLE IF EXISTS #SQ_" ++ ctx.assignedVariable ++
      ";\n\nSELECT\n    eid\nINTO\n    #SQ_" ++ ctx.assignedVariable ++
      "\nFROM\n    " ++ ctx.table ++ "\n    WHERE (1=1)\n        AND " ++
      msAttrFilter ctx.attributeList true ++
      "\n;\n\nALTER TABLE #SQ_" ++ ctx.assignedVariable ++ " ADD PRIMARY KEY (eid);")
  | _ =>
    jsTrim ("\n  SQ_" ++ (strToUpper ctx.assignedVariable) ++
      " AS (\n    SELECT eid FROM " ++ ctx.table ++ "\n    WHERE " ++
      attrFilter ctx.attributeList ++ "\n  )")

def generateFetchCte (d : Dialect) (fname : String) (ctx : FetchCtx) : String :=
  match d with
  | .oracle =>
    if fname = "last" then oracleFetchLast ctx
    else if fname = "first" then oracleFetchFirst ctx
    else if fname = "count" then oracleFetchAggCte ctx ("COUNT(" ++ ctx.property ++ ")")
    else if fname = "sum" then oracleFetchAggCte ctx ("SUM(" ++ ctx.property ++ ")")
    else if fname = "avg" then oracleFetchAggCte ctx ("AVG(" ++ ctx.property ++ ")")
    else if fname = "min" then oracleFetchAggCte ctx ("MIN(" ++ ctx.property ++ ")")
    else if fname = "max" then oracleFetchAggCte ctx ("MAX(" ++ ctx.property ++ ")")
    else if fname = "median" then oracleFetchAggCte ctx ("MEDIAN(" ++ ctx.property ++ ")")
    else if fname = "distinct_count" then
      oracleFetchAggCte ctx ("COUNT(DISTINCT " ++ ctx.property ++ ")")
    else otherFetchCte d ctx
  | .postgresql =>
    if fname = "last" then pgFetchLast ctx
    else if fname = "first" then pgFetchFirst ctx
    else otherFetchCte d ctx
  | .mssql =>
    if fname = "last" then msFetchWindow ctx "DESC"
    else if fname = "first" then msFetchWindow ctx "ASC"
    else otherFetchCte d ctx

def computeCte (d : Dialect) (ctx : ComputeCtx) : String :=
  match d with
  | .oracle => oracleCompute ctx
  | .postgresql => pgCompute ctx
  | .mssql => msCompute ctx

def bindCte (d : Dialect) (ctx : BindCtx) : String :=
  match d with
  | .oracle => oracleBind ctx
  | .postgresql => pgBind ctx
  | .mssql => msBind ctx

def ruleblockEnvelope (d : Dialect) (name : String) (ctes : List String)
    (vmeta : List VarMeta) : String :=
  match d with
  | .oracle => oracleRuleblock name ctes vmeta
  | .postgresql => pgRuleblock name ctes vmeta
  | .mssql => msRuleblock name ctes vmeta

/-- The rule loop of `generateSqlForRuleblock`: fragments and variable
metadata accumulate in source-rule order; an unsupported function name or an
empty attribute list throws. -/
def genRules (d : Dialect) : List Rule → List String → List VarMeta →
    Except String (List String × List VarMeta)
  | [], ctes, vars => .ok (ctes, vars)
  | r :: rs, ctes, vars =>
    match r with
    | .fetch av tbl attrs prop fn fps pred refs =>
      let hasDeps := refs.length > 0
      let ctx : FetchCtx :=
        { assignedVariable := av, table := tbl, attributeList := attrs,
          property := prop, functionName := fn, functionParams := fps,
          predicate := pred,
          previousVariables := if hasDeps then some (vars.map (fun v => v.name)) else none }
      let fnLower := strToLower fn
      if fnLower ∈ supportedFunctions then
        if attrs.isEmpty then .error "attributeList cannot be empty"
        else
          genRules d rs (ctes ++ [generateFetchCte d fnLower ctx])
            (vars ++ [{ name := av, isDvFunction := fnLower ∈ dvFunctions }])
      else .error ("Unsupported function: " ++ fn)
    | .compute av conds _ =>
      let ctx : ComputeCtx :=
        { assignedVariable := av, conditions := conds,
          previousVariables := some (vars.map (fun v => v.name)) }
      genRules d rs (ctes ++ [computeCte d ctx])
        (vars ++ [{ name := av, isDvFunction := false }])
    | .bind av srb sv p _ =>
      let ctx : BindCtx :=
        { assignedVariable := av, sourceRuleblock := srb,
          sourceVariable := sv, property := p }
      genRules d rs (ctes ++ [bindCte d ctx])
        (vars ++ [{ name := av, isDvFunction := false }])

def generateSqlForRuleblock (rb : ParsedRuleblock) (d : Dialect) : Except String String :=
  (genRules d rb.rules [] []).map (fun p => ruleblockEnvelope d rb.name p.1 p.2)

def generateSql (rbs : List ParsedRuleblock) (d : Dialect) : Except String (List String) :=
  rbs.mapM (fun rb => generateSqlForRuleblock rb d)

/-! ## Manifest (src/manifest/manifest-generator.ts) -/

structure ManifestEntry where
  ruleblockId : String
  executionOrder : Nat
  targetTable : String
  dependencies : List String
  outputVariables : List String
  sqlIndex : Nat
deriving DecidableEq, Repr

structure Manifest where
  version : String
  dialect : Dialect
  compiledAt : String
  totalRuleblocks : Nat
  entries : List ManifestEntry
  dependencyGraph : List (String × List String)
deriving DecidableEq, Repr

def getTargetTableName (name : String) (d : Dialect) : String :=
  match d with
  | .mssql => "SROUT_" ++ name
  | .oracle => "ROUT_" ++ (strToUpper name)
  | .postgresql => "rout_" ++ (strToLower name)

def Rule.assignedVar : Rule → String
  | .fetch v .. => v
  | .compute v .. => v
  | .bind v .. => v

/-- `extractOutputVariables`: assigned variables in source-rule order (an
empty name is falsy in the source's truthiness test and is skipped). -/
def extractOutputVariables (rb : ParsedRuleblock) : List String :=
  rb.rules.foldl (fun acc r =>
    if r.assignedVar ≠ "" then acc ++ [r.assignedVar] else acc) []

/-- The wall-clock `new Date().toISOString()` is outside the model. -/
def compiledAtModel : String := ""

def manifestVersion : String := "1.0.0"

def mkEntries (graph : DepGraph) (d : Dialect) : List ParsedRuleblock → Nat → List ManifestEntry
  | [], _ => []
  | rb :: rest, i =>
    { ruleblockId := rb.name, executionOrder := i,
      targetTable := getTargetTableName rb.name d,
      dependencies := edgesGet graph.edges rb.name,
      outputVariables := extractOutputVariables rb,
      sqlIndex := i } :: mkEntries graph d rest (i + 1)

def generateManifest (ordered : List ParsedRuleblock) (graph : DepGraph)
    (d : Dialect) : Manifest :=
  { version := manifestVersion, dialect := d, compiledAt := compiledAtModel,
    totalRuleblocks := ordered.length,
    entries := mkEntries graph d ordered 0,
    dependencyGraph := graph.edges }

/-! ## The compile entry point (src/compile.ts) -/

structure CompileError where
  message : String
deriving DecidableEq, Repr

structure CompilationResult where
  success : Bool
  sql : List String
  errors : List CompileError
  warnings : List CompileError
  manifest : Option Manifest
deriving DecidableEq, Repr

/-- The try-block of `compile`: validation, parse, link, transform,
generation, manifest.  The `metrics` record (wall-clock timings) is outside
the model; the deprecated `manifestPath` option only triggers a console
warning in the source and is absent from the validated options. -/
def compileE (rbs : List RuleblockInput) (opts : CompilerOptions) :
    Except String (List String × Manifest) := do
  let validated ← rbs.mapM validateRuleblock
  let vopts := validateOptions opts
  let parsed ← parse validated
  let linked ← link parsed
  let transformed := transform linked vopts
  let sql ← generateSql transformed vopts.dialect
  let graph := buildDependencyGraph transformed
  let manifest := generateManifest transformed graph vopts.dialect
  return (sql, manifest)

def compile (rbs : List RuleblockInput) (opts : CompilerOptions) : CompilationResult :=
  match compileE rbs opts with
  | .ok (sql, m) =>
    { success := true, sql := sql, errors := [], warnings := [], manifest := some m }
  | .error msg =>
    { success := false, sql := [], errors := [{ message := msg }], warnings := [],
      manifest := none }

/-! ## Inhabitants used as `getD` defaults in the theorems below -/

def entryD : ManifestEntry :=
  { ruleblockId := "", executionOrder := 0, targetTable := "",
    dependencies := [], outputVariables := [], sqlIndex := 0 }

def rbD : ParsedRuleblock :=
  { name := "", text := "", isActive := true, rules := [] }

def mD : Manifest :=
  { version := "", dialect := .oracle, compiledAt := "", totalRuleblocks := 0,
    entries := [], dependencyGraph := [] }

/-- Projection of a known-successful `Except` value (used to name the
components of concrete compilations in witnesses). -/
def exOk {ε α : Type} (d : α) (e : Except ε α) : α :=
  match e with
  | .ok a => a
  | .error _ => d

/-- Classification of a segment that the statement dispatcher drops
silently: it does not start with `#`, and contains neither `=>` nor `:`. -/
def segPlain (seg : List Char) : Bool :=
  !(decide (seg.head? = some '#')) && !hasSub seg "=>".data && !hasSub seg ":".data

/-- Edge relation of a dependency-edge map: `a` depends on `b`. -/
def edgeRel (es : List (String × List String)) (a b : String) : Prop :=
  b ∈ edgesGet es a

/-- A finish-order certificate: every listed node's successors appear
strictly earlier in the list. -/
def EdgesBackP (es : List (String × List String)) (F : List String) : Prop :=
  ∀ a ∈ F, ∀ b, b ∈ edgesGet es a → b ∈ F ∧ posOf F b < posOf F a

/-- Invariant tying the DFS colouring to a finish-order list: `F` holds
exactly the black nodes (visited and off the recursion stack), in the order
they finished, with every edge pointing backwards in `F`. -/
def FinInv (es : List (String × List String)) (st : DetectSt) (F : List String) : Prop :=
  (∀ x, x ∈ F ↔ (x ∈ st.visited ∧ x ∉ st.stack)) ∧ EdgesBackP es F

/-! ## Erasure of activity flags (used to state non-interference) -/

/-- Forget the optional `isActive` flag of a raw input. -/
def stripInput (rb : RuleblockInput) : RuleblockInput :=
  { name := rb.name, text := rb.text, isActive := none }

/-- Forget the `includeInactive` option. -/
def stripOpts (o : CompilerOptions) : CompilerOptions :=
  { o with includeInactive := none }

/-- Normalise a validated ruleblock's activity flag. -/
def eraseV (v : ValidRuleblock) : ValidRuleblock := { v with isActive := true }

/-- Normalise a parsed ruleblock's activity flag. -/
def eraseP (rb : ParsedRuleblock) : ParsedRuleblock := { rb with isActive := true }

/-- Value-wise erasure of a name-to-ruleblock table. -/
def mapErase (m : List (String × ParsedRuleblock)) : List (String × ParsedRuleblock) :=
  m.map (fun p => (p.1, eraseP p.2))

/-- Erasure of a topological-sort state. -/
def eraseSt (st : SortSt) : SortSt :=
  { visited := st.visited, sorted := st.sorted.map eraseP }

/-! ## Topological-sort ordering invariants -/

/-- The names already emitted by the sort, in emission order. -/
def placedNames (st : SortSt) : List String :=
  st.sorted.map (fun rb => rb.name)

/-- Invariant of the `visit` recursion: emitted names are distinct, each
emitted ruleblock is the lookup table's entry for its name, emission implies
marking, and every dependency of an emitted ruleblock was either emitted
strictly earlier or is absent from the table. -/
def SortInv (edges : List (String × List String))
    (rbMap : List (String × ParsedRuleblock)) (st : SortSt) : Prop :=
  (placedNames st).Nodup ∧
  (∀ rb ∈ st.sorted, mapGet rbMap rb.name = some rb) ∧
  (∀ n ∈ placedNames st, n ∈ st.visited) ∧
  (∀ l1 a l2, st.sorted = l1 ++ a :: l2 → ∀ b ∈ edgesGet edges a.name,
    b ∈ l1.map (fun rb => rb.name) ∨ mapGet rbMap b = none)

/-- Every marked-but-unemitted name either lacks a table entry or can reach
`name` along graph edges (it is an ancestor on the recursion path). -/
def GreyReach (edges : List (String × List String))
    (rbMap : List (String × ParsedRuleblock)) (st : SortSt) (name : String) : Prop :=
  ∀ g ∈ st.visited, g ∉ placedNames st →
    mapGet rbMap g = none ∨ Relation.ReflTransGen (edgeRel edges) g name

/-- The number of universe names the sort has not marked yet. -/
def unvisitedCount (U vis : List String) : Nat :=
  (U.filter (fun x => decide (x ∉ vis))).length

/-! ## Pruning closures -/

/-- One case-insensitive bind-dependency step of the pruning maps:
`b` is among `a`'s recorded dependencies. -/
def depStep (m : List (String × List String)) (a b : String) : Prop :=
  b ∈ depMapGet m a

/-- `rb` is a transitive ancestor (inclusive) of one of `names`: some
lowered name reaches `rb`'s lowered name along dependency edges. -/
def AncP (rbs : List ParsedRuleblock) (names : List String)
    (rb : ParsedRuleblock) : Prop :=
  ∃ s ∈ names.map strToLower,
    Relation.ReflTransGen (depStep (buildDependencyMap rbs)) s (strToLower rb.name)

/-- `rb` is a transitive descendant (inclusive) of one of `names`: some
lowered name reaches `rb`'s lowered name along reversed dependency edges. -/
def DescP (rbs : List ParsedRuleblock) (names : List String)
    (rb : ParsedRuleblock) : Prop :=
  ∃ s ∈ names.map strToLower,
    Relation.ReflTransGen (fun a b => depStep (buildDependencyMap rbs) b a) s
      (strToLower rb.name)

/-- Concrete batch for the ordering theorems: `a` binds `c`; `b` and `c`
are independent fetches. -/
def inBindsC : RuleblockInput := { name := "a", text := "x => rout_c.v.val.bind();" }

/-- An independent fetch ruleblock named `b`. -/
def inPlainB : RuleblockInput := { name := "b", text := "v => eadv.att1.val.last();" }

/-- An independent fetch ruleblock named `c`. -/
def inPlainC : RuleblockInput := { name := "c", text := "v => eadv.att1.val.last();" }

/-- A concrete input whose ruleblock is flagged inactive. -/
def inFlagged : RuleblockInput :=
  { name := "g", text := "v => eadv.att1.val.last();", isActive := some false }

/-- The same input with the activity flag left unset. -/
def inUnflagged : RuleblockInput :=
  { name := "g", text := "v => eadv.att1.val.last();", isActive := none }

/-! ## Toolbox: substring, prefix and trimming lemmas -/

theorem startsWithL_iff : ∀ (l p : List Char), startsWithL l p = true ↔ p <+: l := by
  intro l p
  induction p generalizing l with
  | nil => cases l <;> simp [startsWithL]
  | cons c cs ih =>
    cases l with
    | nil => simp [startsWithL]
    | cons d ds =>
      rw [startsWithL]
      simp only [Bool.and_eq_true, decide_eq_true_eq, ih, List.cons_prefix_cons]
      constructor
      · rintro ⟨h1, h2⟩; exact ⟨h1.symm, h2⟩
      · rintro ⟨h1, h2⟩; exact ⟨h1.symm, h2⟩

theorem hasSub_iff : ∀ (l pat : List Char), hasSub l pat = true ↔ pat <:+: l := by
  intro l pat
  induction l with
  | nil =>
    rw [hasSub, startsWithL_iff]
    constructor
    · intro h; exact h.isInfix
    · intro h; exact (List.infix_nil.mp h) ▸ List.nil_prefix
  | cons c cs ih =>
    rw [hasSub]
    simp only [Bool.or_eq_true, startsWithL_iff, ih, List.infix_cons_iff]

theorem hasSub_self (l : List Char) : hasSub l l = true :=
  (hasSub_iff l l).mpr (List.infix_refl l)

theorem dropWhile_mid (p : Char → Bool) (x : List Char) (c : Char) (rest : List Char)
    (hc : p c = false) : ∃ a, (x ++ c :: rest).dropWhile p = a ++ c :: rest := by
  rw [List.dropWhile_append]
  by_cases h : (x.dropWhile p).isEmpty
  · rw [if_pos h, List.dropWhile_cons_of_neg (by simp [hc])]
    exact ⟨[], rfl⟩
  · rw [if_neg h]
    exact ⟨x.dropWhile p, rfl⟩

theorem trimC_mid (x y m : List Char) (c d : Char) (cs ds : List Char)
    (h1 : m = c :: cs) (h2 : m = ds ++ [d])
    (hc : isWsC c = false) (hd : isWsC d = false) :
    ∃ a b, trimC (x ++ m ++ y) = a ++ m ++ b := by
  unfold trimC
  obtain ⟨a, ha⟩ : ∃ a, (x ++ m ++ y).dropWhile isWsC = a ++ m ++ y := by
    have hx : x ++ m ++ y = x ++ c :: (cs ++ y) := by rw [h1]; simp
    rw [hx]
    obtain ⟨a, ha⟩ := dropWhile_mid isWsC x c (cs ++ y) hc
    exact ⟨a, by rw [ha, h1]; simp⟩
  rw [ha]
  obtain ⟨b, hb⟩ : ∃ b, (a ++ m ++ y).reverse.dropWhile isWsC =
      b ++ d :: (ds.reverse ++ a.reverse) := by
    have hr : (a ++ m ++ y).reverse = y.reverse ++ d :: (ds.reverse ++ a.reverse) := by
      rw [h2]; simp
    rw [hr]
    exact dropWhile_mid isWsC y.reverse d _ hd
  rw [hb]
  refine ⟨a, b.reverse, ?_⟩
  rw [h2]; simp

theorem hasSub_trimC_of (l x y m pat : List Char) (c d : Char) (cs ds : List Char)
    (hl : l = x ++ m ++ y) (h1 : m = c :: cs) (h2 : m = ds ++ [d])
    (hc : isWsC c = false) (hd : isWsC d = false)
    (hp : hasSub m pat = true) : hasSub (trimC l) pat = true := by
  subst hl
  obtain ⟨a, b, hab⟩ := trimC_mid x y m c d cs ds h1 h2 hc hd
  rw [hab, hasSub_iff]
  exact ((hasSub_iff m pat).mp hp).trans ⟨a, b, by simp⟩

/-- Driver for containment claims about `jsTrim`-wrapped template strings:
if the template's text decomposes as `x ++ m ++ y` with `m` starting and
ending in non-whitespace, every substring of `m` is a substring of the
trimmed template. -/
theorem strHasSub_jsTrim_of (S : String) (x y m pat : List Char) (c d : Char)
    (cs ds : List Char)
    (hl : S.data = x ++ m ++ y) (h1 : m = c :: cs) (h2 : m = ds ++ [d])
    (hc : isWsC c = false) (hd : isWsC d = false)
    (hp : hasSub m pat = true) : strHasSub (jsTrim S) ⟨pat⟩ = true := by
  show hasSub (trimC S.data) pat = true
  rw [hl]
  exact hasSub_trimC_of _ x y m pat c d cs ds rfl h1 h2 hc hd hp

/-! ## C9: PostgreSQL target-table naming -/

set_option maxRecDepth 1000000 in
/-- C9 counterexample: for the PostgreSQL compilation of a ruleblock named
`g`, the manifest's targetTable is `rout_g`, yet the emitted SQL's CREATE
TABLE statement spells the table `ROUT_G` — the lower-case name `rout_g`
does not occur anywhere in the emitted SQL, so the claim that the CREATE
TABLE statement uses the same `rout_n` name is false. -/
theorem C9_counterexample :
    ((compile [{ name := "g", text := "v => eadv.att1.val.last();" }]
        { dialect := .postgresql }).manifest.map
      (fun m => m.entries.map (fun e => e.targetTable))) = some ["rout_g"] ∧
    ((compile [{ name := "g", text := "v => eadv.att1.val.last();" }]
        { dialect := .postgresql }).sql.map
      (fun s => strHasSub s "rout_g")) = [false] ∧
    ((compile [{ name := "g", text := "v => eadv.att1.val.last();" }]
        { dialect := .postgresql }).sql.map
      (fun s => strHasSub s "CREATE TABLE ROUT_G AS")) = [true] := by
  refine ⟨by decide, by decide, by decide⟩

set_option maxHeartbeats 4000000 in
/-- C9 (amended): for the postgresql dialect and every ruleblock named `n`,
the manifest entry's targetTable is the lower-case `rout_n`, while the
emitted CREATE TABLE statement spells the table name `ROUT_` followed by the
upper-cased name. -/
theorem C9_target_tables (name : String) (ctes : List String) (vmeta : List VarMeta) :
    getTargetTableName name .postgresql = "rout_" ++ strToLower name ∧
    strHasSub (pgRuleblock name ctes vmeta)
      ("CREATE TABLE ROUT_" ++ strToUpper name ++ " AS") = true := by
  refine ⟨rfl, ?_⟩
  refine strHasSub_jsTrim_of _
    (("\n--================================================\n-- SQL Dialect: PostgreSQL\n-- Ruleblock: " ++ name ++ "\n--================================================\n" : String).data)
    (("\nWITH\n  UEADV AS (\n    SELECT DISTINCT eid FROM eadv\n  ),\n" ++
      strJoin ",\n" ctes ++ "\nSELECT eid" ++
      (if vmeta.length > 0 then ",\n       " ++
        strJoin ",\n       " (vmeta.map (fun v =>
          if v.isDvFunction then v.name ++ "_val,\n       " ++ v.name ++ "_dt" else v.name))
       else "") ++
      "\nFROM UEADV\n" ++
      strJoin "\n" (vmeta.map (fun v =>
        "LEFT JOIN SQ_" ++ (strToUpper v.name) ++ " USING (eid)")) ++ "\n" : String).data)
    (("CREATE TABLE ROUT_" ++ strToUpper name ++ " AS" : String).data)
    _ 'C' 'S'
    (("REATE TABLE ROUT_" ++ strToUpper name ++ " AS" : String).data)
    (("CREATE TABLE ROUT_" ++ strToUpper name ++ " A" : String).data)
    ?_ ?_ ?_ rfl rfl (hasSub_self _)
  · simp only [String.data_append, List.append_assoc]
    rfl
  · simp only [String.data_append]
    rfl
  · simp only [String.data_append, List.append_assoc]
    rfl

/-! ## C7: ordering of the `last` window -/

set_option maxRecDepth 1000000 in
/-- C7 counterexample: compiling the same `last` fetch for all three
dialects, the T-SQL output ranks by `dt DESC, att ASC, val ASC`, but the
Oracle and PostgreSQL outputs order by `dt DESC` alone — the text
`att ASC` occurs nowhere in them, so the claimed tie-break on `att` and
`val` is absent for those two dialects. -/
theorem C7_counterexample :
    ((compile [{ name := "g", text := "v => eadv.att1.val.last();" }]
        { dialect := .oracle }).sql.map
      (fun s => strHasSub s "att ASC")) = [false] ∧
    ((compile [{ name := "g", text := "v => eadv.att1.val.last();" }]
        { dialect := .postgresql }).sql.map
      (fun s => strHasSub s "att ASC")) = [false] ∧
    ((compile [{ name := "g", text := "v => eadv.att1.val.last();" }]
        { dialect := .oracle }).sql.map
      (fun s => strHasSub s "ORDER BY dt DESC")) = [true] ∧
    ((compile [{ name := "g", text := "v => eadv.att1.val.last();" }]
        { dialect := .mssql }).sql.map
      (fun s => strHasSub s "dt DESC, att ASC, val ASC")) = [true] := by
  refine ⟨by decide, by decide, by decide, by decide⟩

set_option maxHeartbeats 4000000 in
/-- C7 (amended): for every fetch rule using the `last` operator, only the
T-SQL window ranks by `dt DESC, att ASC, val ASC`; the Oracle and
PostgreSQL windows rank by `dt DESC` with no tie-break columns. -/
theorem C7_last_ordering (ctx : FetchCtx) :
    strHasSub (generateFetchCte .mssql "last" ctx) "dt DESC, att ASC, val ASC" = true ∧
    strHasSub (generateFetchCte .oracle "last" ctx) "ORDER BY dt DESC" = true ∧
    strHasSub (generateFetchCte .postgresql "last" ctx) "ORDER BY dt DESC" = true := by
  refine ⟨?_, ?_, ?_⟩
  · show strHasSub (msFetchWindow ctx "DESC") _ = true
    simp only [msFetchWindow]
    by_cases h : (ctx.previousVariables.getD []).length > 0
    · rw [if_pos h]
      refine strHasSub_jsTrim_of _
        (("\nDROP TABLE IF EXISTS " ++ ("#SQ_" ++ ctx.assignedVariable) ++ ";\n\nSELECT\n    eid,\n    " ++
          msResolveProperty ctx.property none ++ " AS " ++ ctx.assignedVariable ++ "\nINTO\n    " ++
          ("#SQ_" ++ ctx.assignedVariable) ++
          "\nFROM\n    (\n    SELECT\n        #UEADV.eid,\n        " ++ msResolveProperty ctx.property none ++
          ",\n        ROW_NUMBER()\n    OVER\n        (\n        PARTITION BY\n            #UEADV.eid\n        ORDER BY\n            " : String).data)
        (("\n        ) AS RANK\n    FROM\n            #UEADV\n" ++
          msDependencyJoins (ctx.previousVariables.getD []) ++
          "\n            LEFT OUTER JOIN eadv ON eadv.eid = #UEADV.eid\n    WHERE (1=1)\n        AND " ++
          msAttrFilter ctx.attributeList true ++ "\n        " ++
          (match ctx.predicate with
           | some p => "AND (" ++ msPred p ++ ")"
           | none => "") ++
          "\n    ) SQ_" ++ ctx.assignedVariable ++ "_WINDOW\nWHERE\n    RANK = 1\n;\n\nALTER TABLE " ++
          ("#SQ_" ++ ctx.assignedVariable) ++ " ADD PRIMARY KEY (eid);" : String).data)
        ("dt DESC, att ASC, val ASC" : String).data
        _ 'd' 'C' ("t DESC, att ASC, val ASC" : String).data
        ("dt DESC, att ASC, val AS" : String).data
        ?_ rfl rfl rfl rfl (hasSub_self _)
      simp only [String.data_append, List.append_assoc]
      rfl
    · rw [if_neg h]
      refine strHasSub_jsTrim_of _
        (("\nDROP TABLE IF EXISTS " ++ ("#SQ_" ++ ctx.assignedVariable) ++ ";\n\nSELECT\n    eid,\n    " ++
          msResolveProperty ctx.property none ++ " AS " ++ ctx.assignedVariable ++ "\nINTO\n    " ++
          ("#SQ_" ++ ctx.assignedVariable) ++
          "\nFROM\n    (\n    SELECT\n        eadv.eid,\n        " ++ msResolveProperty ctx.property none ++
          ",\n        ROW_NUMBER()\n    OVER\n        (\n        PARTITION BY\n            eadv.eid\n        ORDER BY\n            " : String).data)
        (("\n        ) AS RANK\n    FROM\n            eadv\n    WHERE (1=1)\n        AND " ++
          msAttrFilter ctx.attributeList true ++ "\n        " ++
          (match ctx.predicate with
           | some p => "AND (" ++ msPred p ++ ")"
           | none => "") ++
          "\n    ) SQ_" ++ ctx.assignedVariable ++ "_WINDOW\nWHERE\n    RANK = 1\n;\n\nALTER TABLE " ++
          ("#SQ_" ++ ctx.assignedVariable) ++ " ADD PRIMARY KEY (eid);" : String).data)
        ("dt DESC, att ASC, val ASC" : String).data
        _ 'd' 'C' ("t DESC, att ASC, val ASC" : String).data
        ("dt DESC, att ASC, val AS" : String).data
        ?_ rfl rfl rfl rfl (hasSub_self _)
      simp only [String.data_append, List.append_assoc]
      rfl
  · refine strHasSub_jsTrim_of _
      (("\n  SQ_" ++ (strToUpper ctx.assignedVariable) ++ " AS (\n    SELECT eid, " ++
        ctx.property ++ " AS " ++ ctx.assignedVariable ++ "\n    FROM (\n      SELECT eid, " ++
        ctx.property ++ ",\n             ROW_NUMBER() OVER (PARTITION BY eid " : String).data)
      ((" AS rn\n      FROM " ++ ctx.table ++ "\n      WHERE " ++ attrFilter ctx.attributeList ++
        "\n      " ++
        (match ctx.predicate with
         | some p => "AND " ++ p
         | none => "") ++ "\n    )\n    WHERE rn = 1\n  )" : String).data)
      ("ORDER BY dt DESC)" : String).data
      _ 'O' ')' ("RDER BY dt DESC)" : String).data ("ORDER BY dt DESC" : String).data
      ?_ rfl rfl rfl rfl ?_
    · simp only [String.data_append, List.append_assoc]
      rfl
    · decide
  · refine strHasSub_jsTrim_of _
      (("\n  SQ_" ++ (strToUpper ctx.assignedVariable) ++ " AS (\n    SELECT eid, " ++
        pgResolveProperty ctx.property none ++ " AS " ++ ctx.assignedVariable ++
        "\n    FROM (\n      SELECT eid, " ++ pgResolveProperty ctx.property none ++
        ",\n             ROW_NUMBER() OVER (PARTITION BY eid " : String).data)
      ((" AS rn\n      FROM " ++ ctx.table ++ "\n      WHERE " ++ attrFilter ctx.attributeList ++
        "\n      " ++
        (match ctx.predicate with
         | some p => "AND " ++ pgPred p
         | none => "") ++ "\n    ) ranked\n    WHERE rn = 1\n  )" : String).data)
      ("ORDER BY dt DESC)" : String).data
      _ 'O' ')' ("RDER BY dt DESC)" : String).data ("ORDER BY dt DESC" : String).data
      ?_ rfl rfl rfl rfl ?_
    · simp only [String.data_append, List.append_assoc]
      rfl
    · decide

/-! ## C8: the compute fragment's FROM clause -/

theorem strJoin_foldl_data (sep : String) : ∀ (xs : List String) (acc : String),
    ∃ t, (xs.foldl (fun a y => a ++ sep ++ y) acc).data = acc.data ++ t := by
  intro xs
  induction xs with
  | nil => intro acc; exact ⟨[], by simp⟩
  | cons z rest ih =>
    intro acc
    obtain ⟨t, ht⟩ := ih (acc ++ sep ++ z)
    exact ⟨sep.data ++ (z.data ++ t), by
      simp only [List.foldl_cons, ht, String.data_append, List.append_assoc]⟩

theorem strJoin_foldl_mem (sep : String) : ∀ (rest : List String) (acc x : String),
    x ∈ rest →
    ∃ a b, (rest.foldl (fun a y => a ++ sep ++ y) acc).data = a ++ x.data ++ b := by
  intro rest
  induction rest with
  | nil => intro acc x hx; cases hx
  | cons z rest ih =>
    intro acc x hx
    rcases List.mem_cons.mp hx with h | h
    · subst h
      obtain ⟨t, ht⟩ := strJoin_foldl_data sep rest (acc ++ sep ++ x)
      exact ⟨acc.data ++ sep.data, t, by
        simp only [List.foldl_cons, ht, String.data_append, List.append_assoc]⟩
    · exact ih (acc ++ sep ++ z) x h

/-- Every member of a joined list occurs contiguously in the join. -/
theorem strJoin_mem_data (sep : String) (xs : List String) (x : String) (hx : x ∈ xs) :
    ∃ a b, (strJoin sep xs).data = a ++ x.data ++ b := by
  cases xs with
  | nil => cases hx
  | cons z rest =>
    rcases List.mem_cons.mp hx with h | h
    · subst h
      obtain ⟨t, ht⟩ := strJoin_foldl_data sep rest x
      exact ⟨[], t, by simpa [strJoin] using ht⟩
    · obtain ⟨a, b, hab⟩ := strJoin_foldl_mem sep rest z x h
      exact ⟨a, b, by simpa [strJoin] using hab⟩

set_option maxRecDepth 1000000 in
/-- C8 counterexample: an Oracle compute fragment whose context carries a
previously assigned variable `v` contains no JOIN at all (its FROM clause is
`FROM UEADV` alone), while the PostgreSQL fragment for the same context
joins `SQ_V`; so the claim that every dialect joins the fragments of all
previously assigned variables is false for Oracle. -/
theorem C8_counterexample :
    strHasSub (computeCte .oracle
      { assignedVariable := "w",
        conditions := [{ predicate := some "v > 1", returnValue := "1" },
                       { predicate := none, returnValue := "0" }],
        previousVariables := some ["v"] }) "JOIN" = false ∧
    strHasSub (computeCte .postgresql
      { assignedVariable := "w",
        conditions := [{ predicate := some "v > 1", returnValue := "1" },
                       { predicate := none, returnValue := "0" }],
        previousVariables := some ["v"] }) "LEFT JOIN SQ_V USING (eid)" = true := by
  refine ⟨by decide, by decide⟩

set_option maxHeartbeats 4000000 in
/-- C8 (amended): the Oracle compute fragment ignores the previously
assigned variables entirely — it reads `FROM UEADV` with no joins — while
the PostgreSQL and T-SQL fragments join the fragment of every previously
assigned variable of the same ruleblock. -/
theorem C8_compute_from (ctx : ComputeCtx) :
    computeCte .oracle ctx = computeCte .oracle { ctx with previousVariables := none } ∧
    strHasSub (computeCte .oracle ctx) "FROM UEADV" = true ∧
    ((ctx.previousVariables.getD []).all (fun v =>
      strHasSub (computeCte .postgresql ctx)
        ("LEFT JOIN SQ_" ++ strToUpper v ++ " USING (eid)"))) = true ∧
    ((ctx.previousVariables.getD []).all (fun v =>
      strHasSub (computeCte .mssql ctx)
        ("LEFT OUTER JOIN #SQ_" ++ v ++ " ON #SQ_" ++ v ++ ".eid = #UEADV.eid"))) = true := by
  refine ⟨rfl, ?_, ?_, ?_⟩
  · refine strHasSub_jsTrim_of _
      (("\n  SQ_" ++ (strToUpper ctx.assignedVariable) ++
        " AS (\n    SELECT eid,\n           CASE\n" ++
        strJoin "\n" (ctx.conditions.map (fun c =>
          match c.predicate with
          | some p => "           WHEN " ++ oraOps p ++ " THEN " ++ oraFns c.returnValue
          | none => "           ELSE " ++ oraFns c.returnValue)) ++
        "\n           END AS " ++ ctx.assignedVariable ++ "\n    " : String).data)
      (("\n  )" : String).data)
      (("FROM UEADV" : String).data)
      _ 'F' 'V' ("ROM UEADV" : String).data ("FROM UEAD" : String).data
      ?_ rfl rfl rfl rfl (hasSub_self _)
    simp only [String.data_append, List.append_assoc]
    rfl
  · rw [List.all_eq_true]
    intro v hv
    simp only [computeCte, pgCompute]
    rw [if_pos (List.length_pos_of_mem hv)]
    obtain ⟨a, b, hj⟩ := strJoin_mem_data "\n"
      ((ctx.previousVariables.getD []).map (fun w =>
        "    LEFT JOIN SQ_" ++ (strToUpper w) ++ " USING (eid)"))
      ("    LEFT JOIN SQ_" ++ (strToUpper v) ++ " USING (eid)")
      (List.mem_map_of_mem _ hv)
    refine strHasSub_jsTrim_of _
      ((("\n  SQ_" ++ (strToUpper ctx.assignedVariable) ++
        " AS (\n    SELECT eid,\n           CASE\n" ++
        strJoin "\n" (ctx.conditions.map (fun c =>
          match c.predicate with
          | some p => "           WHEN " ++ pgOps p ++ " THEN " ++ pgFns c.returnValue
          | none => "           ELSE " ++ pgFns c.returnValue)) ++
        "\n           END AS " ++ ctx.assignedVariable ++ "\n    " ++
        "FROM UEADV" ++ "\n" : String).data ++ a) ++ ("    " : String).data)
      (b ++ ("\n  )" : String).data)
      (("LEFT JOIN SQ_" ++ strToUpper v ++ " USING (eid)" : String).data)
      _ 'L' ')'
      (("EFT JOIN SQ_" ++ strToUpper v ++ " USING (eid)" : String).data)
      (("LEFT JOIN SQ_" ++ strToUpper v ++ " USING (eid" : String).data)
      ?_ ?_ ?_ rfl rfl (hasSub_self _)
    · simp only [String.data_append, List.append_assoc, hj]
      rfl
    · simp only [String.data_append]
      rfl
    · simp only [String.data_append, List.append_assoc]
      rfl
  · rw [List.all_eq_true]
    intro v hv
    simp only [computeCte, msCompute, msDependencyJoins]
    obtain ⟨a, b, hj⟩ := strJoin_mem_data "\n"
      ((ctx.previousVariables.getD []).map (fun w =>
        "    LEFT OUTER JOIN #SQ_" ++ w ++ " ON #SQ_" ++ w ++ ".eid = #UEADV.eid"))
      ("    LEFT OUTER JOIN #SQ_" ++ v ++ " ON #SQ_" ++ v ++ ".eid = #UEADV.eid")
      (List.mem_map_of_mem _ hv)
    refine strHasSub_jsTrim_of _
      ((("\nDROP TABLE IF EXISTS " ++ ("#SQ_" ++ ctx.assignedVariable) ++
        ";\n\nSELECT\n    #UEADV.eid,\n    CASE\n" ++
        strJoin "\n" (ctx.conditions.map (fun c =>
          match c.predicate with
          | some p => "        WHEN " ++ msOps p ++ "\n            THEN " ++ msFns c.returnValue
          | none => "        ELSE " ++ msFns c.returnValue)) ++
        "\n    END AS " ++ ctx.assignedVariable ++ "\nINTO\n    " ++
        ("#SQ_" ++ ctx.assignedVariable) ++ "\nFROM\n    #UEADV\n" : String).data ++ a) ++
        ("    " : String).data)
      (b ++ (("\nWHERE (1=1)\n;\n\nALTER TABLE " ++ ("#SQ_" ++ ctx.assignedVariable) ++
        " ADD PRIMARY KEY (eid);" : String).data))
      (("LEFT OUTER JOIN #SQ_" ++ v ++ " ON #SQ_" ++ v ++ ".eid = #UEADV.eid" : String).data)
      _ 'L' 'd'
      (("EFT OUTER JOIN #SQ_" ++ v ++ " ON #SQ_" ++ v ++ ".eid = #UEADV.eid" : String).data)
      (("LEFT OUTER JOIN #SQ_" ++ v ++ " ON #SQ_" ++ v ++ ".eid = #UEADV.ei" : String).data)
      ?_ ?_ ?_ rfl rfl (hasSub_self _)
    · simp only [String.data_append, List.append_assoc, hj]
      rfl
    · simp only [String.data_append]
      rfl
    · simp only [String.data_append, List.append_assoc]
      rfl

/-! ## C4: dependency-graph edges and absent bind targets -/

theorem foldl_setAdd_eq : ∀ (xs : List String) (acc : List String),
    (∀ x ∈ xs, x ∉ acc) → xs.Nodup →
    xs.foldl setAdd acc = acc ++ xs := by
  intro xs
  induction xs with
  | nil => intro acc _ _; simp
  | cons x rest ih =>
    intro acc hdisj hnd
    rw [List.nodup_cons] at hnd
    rw [List.foldl_cons]
    have hx : setAdd acc x = acc ++ [x] := by
      unfold setAdd
      rw [if_neg (hdisj x (by simp))]
    rw [hx, ih (acc ++ [x])
      (by
        intro z hz
        simp only [List.mem_append, List.mem_singleton]
        rintro (h | h)
        · exact hdisj z (by simp [hz]) h
        · exact hnd.1 (h ▸ hz))
      hnd.2]
    simp

theorem foldl_mapSet_nil_eq {α : Type} (v : α) : ∀ (xs : List String) (acc : List (String × α)),
    (∀ x ∈ xs, ∀ p ∈ acc, p.1 ≠ x) → xs.Nodup →
    xs.foldl (fun es x => mapSet es x v) acc = acc ++ xs.map (fun x => (x, v)) := by
  intro xs
  induction xs with
  | nil => intro acc _ _; simp
  | cons x rest ih =>
    intro acc hdisj hnd
    rw [List.nodup_cons] at hnd
    rw [List.foldl_cons]
    have hx : mapSet acc x v = acc ++ [(x, v)] := by
      unfold mapSet
      rw [if_neg (by
        simp only [List.any_eq_true, decide_eq_true_eq, not_exists]
        intro p hp
        exact hdisj x (by simp) p hp.1 hp.2)]
    rw [hx, ih (acc ++ [(x, v)])
      (by
        intro z hz p hp
        rcases List.mem_append.mp hp with h | h
        · exact hdisj z (by simp [hz]) p h
        · simp only [List.mem_singleton] at h
          subst h
          show x ≠ z
          intro he
          exact hnd.1 (he ▸ hz))
      hnd.2]
    simp

theorem foldl_edges_eq : ∀ (rbs : List ParsedRuleblock) (pre : List (String × List String)),
    (rbs.map (fun rb => rb.name)).Nodup →
    (∀ p ∈ pre, ∀ rb ∈ rbs, p.1 ≠ rb.name) →
    rbs.foldl (fun es rb =>
        if (bindTargets rb).length > 0 then mapSet es rb.name (bindTargets rb) else es)
      (pre ++ rbs.map (fun rb => (rb.name, ([] : List String)))) =
    pre ++ rbs.map (fun rb => (rb.name, bindTargets rb)) := by
  intro rbs
  induction rbs with
  | nil => intro pre _ _; simp
  | cons rb rest ih =>
    intro pre hnd hdisj
    rw [List.map_cons, List.nodup_cons] at hnd
    have hreplpre : pre.map (fun p => if p.1 = rb.name then (rb.name, bindTargets rb) else p) =
        pre := by
      conv_rhs => rw [← List.map_id pre]
      apply List.map_congr_left
      intro p hp
      rw [if_neg (by simpa using (hdisj p hp rb (by simp)))]
      rfl
    have hreplrest :
        (rest.map (fun rb => (rb.name, ([] : List String)))).map
          (fun p => if p.1 = rb.name then (rb.name, bindTargets rb) else p) =
        rest.map (fun rb => (rb.name, ([] : List String))) := by
      conv_rhs => rw [← List.map_id (rest.map (fun rb => (rb.name, ([] : List String))))]
      apply List.map_congr_left
      intro q hq
      simp only [List.mem_map] at hq
      obtain ⟨rb2, hrb2, hq⟩ := hq
      subst hq
      rw [if_neg (by
        simp only [decide_eq_true_eq]
        intro he
        exact hnd.1 (he ▸ List.mem_map_of_mem (fun rb => rb.name) hrb2))]
      rfl
    have hstep :
        (if (bindTargets rb).length > 0 then
          mapSet (pre ++ (rb.name, ([] : List String)) ::
            rest.map (fun rb => (rb.name, ([] : List String)))) rb.name (bindTargets rb)
         else (pre ++ (rb.name, ([] : List String)) ::
            rest.map (fun rb => (rb.name, ([] : List String))))) =
        (pre ++ [(rb.name, bindTargets rb)]) ++
          rest.map (fun rb => (rb.name, ([] : List String))) := by
      by_cases hbt : (bindTargets rb).length > 0
      · rw [if_pos hbt]
        unfold mapSet
        rw [if_pos (by
          simp only [List.any_eq_true, decide_eq_true_eq]
          exact ⟨(rb.name, []), by simp, rfl⟩)]
        rw [List.map_append, List.map_cons, hreplpre, hreplrest, if_pos (by simp)]
        simp
      · rw [if_neg hbt]
        have hbt0 : bindTargets rb = [] := by
          cases hb : bindTargets rb with
          | nil => rfl
          | cons a l => rw [hb] at hbt; simp at hbt
        rw [hbt0]
        simp
    rw [List.map_cons, List.foldl_cons]
    show List.foldl _ (if (bindTargets rb).length > 0 then
        mapSet (pre ++ (rb.name, ([] : List String)) ::
          rest.map (fun rb => (rb.name, ([] : List String)))) rb.name (bindTargets rb)
       else (pre ++ (rb.name, ([] : List String)) ::
          rest.map (fun rb => (rb.name, ([] : List String))))) rest = _
    rw [hstep, ih (pre ++ [(rb.name, bindTargets rb)]) hnd.2
      (by
        intro p hp rb2 hrb2
        rcases List.mem_append.mp hp with h | h
        · exact hdisj p h rb2 (by simp [hrb2])
        · simp only [List.mem_singleton] at h
          subst h
          show rb.name ≠ rb2.name
          intro he
          exact hnd.1 (he ▸ List.mem_map_of_mem (fun rb => rb.name) hrb2))]
    simp

/-- With distinct ruleblock names the edge map is exactly one row per
ruleblock carrying its deduplicated bind-target list — absent targets
included. -/
theorem edges_eq_of_nodup (rbs : List ParsedRuleblock)
    (hnd : (rbs.map (fun rb => rb.name)).Nodup) :
    (buildDependencyGraph rbs).edges = rbs.map (fun rb => (rb.name, bindTargets rb)) := by
  show rbs.foldl (fun es rb =>
      if (bindTargets rb).length > 0 then mapSet es rb.name (bindTargets rb) else es)
    (rbs.foldl (fun es rb => mapSet es rb.name []) []) = _
  have h0 : rbs.foldl (fun es rb => mapSet es rb.name ([] : List String)) [] =
      rbs.map (fun rb => (rb.name, ([] : List String))) := by
    have := foldl_mapSet_nil_eq ([] : List String) (rbs.map (fun rb => rb.name)) []
      (by intro x _ p hp; cases hp) hnd
    rw [List.foldl_map] at this
    simpa using this
  rw [h0]
  have := foldl_edges_eq rbs [] hnd (by intro p hp; cases hp)
  simpa using this

theorem edgesGet_map_name (g : ParsedRuleblock → List String) :
    ∀ (rbs : List ParsedRuleblock),
    (rbs.map (fun rb => rb.name)).Nodup →
    ∀ rb ∈ rbs,
    edgesGet (rbs.map (fun rb => (rb.name, g rb))) rb.name = g rb := by
  intro rbs
  induction rbs with
  | nil => intro _ rb h; cases h
  | cons rb0 rest ih =>
    intro hnd rb hrb
    rw [List.map_cons, List.nodup_cons] at hnd
    rcases List.mem_cons.mp hrb with h | h
    · subst h
      unfold edgesGet mapGet
      simp
    · have hne : rb.name ≠ rb0.name := by
        intro he
        exact hnd.1 (he ▸ List.mem_map_of_mem (fun rb => rb.name) h)
      unfold edgesGet mapGet
      rw [List.map_cons, List.find?_cons_of_neg _ (by simpa using hne.symm)]
      exact ih hnd.2 rb h

theorem mkEntries_map_deps (g : DepGraph) (d : Dialect) :
    ∀ (rbs : List ParsedRuleblock) (i : Nat),
    (mkEntries g d rbs i).map (fun e => e.dependencies) =
      rbs.map (fun rb => edgesGet g.edges rb.name) := by
  intro rbs
  induction rbs with
  | nil => intro i; rfl
  | cons rb rest ih => intro i; simp [mkEntries, ih]

set_option maxRecDepth 1000000 in
/-- C4 counterexample: a single ruleblock whose only rule binds the absent
ruleblock `zzz` nevertheless gets the edge: its manifest entry's
dependencies list is `["zzz"]` and the manifest's adjacency row for `a` is
`["zzz"]`, refuting the claim that binds to absent ruleblocks contribute no
edge. -/
theorem C4_counterexample :
    ((compile [{ name := "a", text := "x => rout_zzz.v.val.bind();" }]
        { dialect := .oracle }).manifest.map
      (fun m => m.entries.map (fun e => e.dependencies))) = some [["zzz"]] ∧
    ((compile [{ name := "a", text := "x => rout_zzz.v.val.bind();" }]
        { dialect := .oracle }).manifest.map
      (fun m => m.dependencyGraph)) = some [("a", ["zzz"])] := by
  refine ⟨by decide, by decide⟩

/-- C4 (amended): the dependency graph records an edge for every bind rule's
sourceRuleblock whether or not that ruleblock is present in the batch: with
distinct ruleblock names, every ruleblock's adjacency row and manifest
dependencies equal its deduplicated list of bind sourceRuleblock names. -/
theorem C4_graph_edges (rbs : List ParsedRuleblock) (d : Dialect)
    (hnd : (rbs.map (fun rb => rb.name)).Nodup) :
    (buildDependencyGraph rbs).edges = rbs.map (fun rb => (rb.name, bindTargets rb)) ∧
    ((generateManifest rbs (buildDependencyGraph rbs) d).entries.map
      (fun e => e.dependencies)) = rbs.map bindTargets := by
  refine ⟨edges_eq_of_nodup rbs hnd, ?_⟩
  show (mkEntries (buildDependencyGraph rbs) d rbs 0).map (fun e => e.dependencies) = _
  rw [mkEntries_map_deps]
  apply List.map_congr_left
  intro rb hrb
  rw [edges_eq_of_nodup rbs hnd]
  exact edgesGet_map_name bindTargets rbs hnd rb hrb

/-- C4 witness: the amended theorem applied to a concrete two-ruleblock
batch, one binding the absent `zzz`. -/
theorem C4_graph_edges_witness :
    (([({ name := "a", text := "", isActive := true,
          rules := [.bind "x" "zzz" "v" "val" ["v"]] } : ParsedRuleblock),
        { name := "b", text := "", isActive := true, rules := [] }].map
        (fun rb => rb.name)).Nodup) ∧
    ((buildDependencyGraph
        [({ name := "a", text := "", isActive := true,
            rules := [.bind "x" "zzz" "v" "val" ["v"]] } : ParsedRuleblock),
          { name := "b", text := "", isActive := true, rules := [] }]).edges =
      [({ name := "a", text := "", isActive := true,
          rules := [.bind "x" "zzz" "v" "val" ["v"]] } : ParsedRuleblock),
        { name := "b", text := "", isActive := true, rules := [] }].map
        (fun rb => (rb.name, bindTargets rb)) ∧
     ((generateManifest
          [({ name := "a", text := "", isActive := true,
              rules := [.bind "x" "zzz" "v" "val" ["v"]] } : ParsedRuleblock),
            { name := "b", text := "", isActive := true, rules := [] }]
          (buildDependencyGraph
            [({ name := "a", text := "", isActive := true,
                rules := [.bind "x" "zzz" "v" "val" ["v"]] } : ParsedRuleblock),
              { name := "b", text := "", isActive := true, rules := [] }])
          .oracle).entries.map (fun e => e.dependencies)) =
       [({ name := "a", text := "", isActive := true,
           rules := [.bind "x" "zzz" "v" "val" ["v"]] } : ParsedRuleblock),
         { name := "b", text := "", isActive := true, rules := [] }].map bindTargets) :=
  ⟨by decide,
   C4_graph_edges
     [({ name := "a", text := "", isActive := true,
         rules := [.bind "x" "zzz" "v" "val" ["v"]] } : ParsedRuleblock),
       { name := "b", text := "", isActive := true, rules := [] }]
     .oracle (by decide)⟩

/-! ## C2: lengths and indices of sql and manifest entries -/

theorem mapM_ok_length {α β : Type} (f : α → Except String β) :
    ∀ (l : List α) (r : List β), l.mapM f = .ok r → r.length = l.length := by
  intro l
  induction l with
  | nil =>
    intro r h
    simp only [List.mapM_nil, pure, Except.pure] at h
    injection h with h
    rw [← h]
    rfl
  | cons a as ih =>
    intro r h
    rw [List.mapM_cons] at h
    cases hfa : f a with
    | error e => rw [hfa] at h; simp [Bind.bind, Except.bind] at h
    | ok b =>
      rw [hfa] at h
      cases hrest : as.mapM f with
      | error e =>
        rw [hrest] at h
        simp [Bind.bind, Except.bind, pure, Except.pure] at h
      | ok bs =>
        rw [hrest] at h
        simp only [Bind.bind, Except.bind, pure, Except.pure] at h
        injection h with h
        rw [← h]
        simp [ih bs hrest]

theorem mkEntries_length (g : DepGraph) (d : Dialect) :
    ∀ (rbs : List ParsedRuleblock) (i : Nat), (mkEntries g d rbs i).length = rbs.length := by
  intro rbs
  induction rbs with
  | nil => intro i; rfl
  | cons rb rest ih => intro i; simp [mkEntries, ih]

theorem mkEntries_getD (g : DepGraph) (d : Dialect) :
    ∀ (rbs : List ParsedRuleblock) (i j : Nat), j < rbs.length →
    (mkEntries g d rbs i).getD j entryD =
      { ruleblockId := (rbs.getD j rbD).name, executionOrder := i + j,
        targetTable := getTargetTableName (rbs.getD j rbD).name d,
        dependencies := edgesGet g.edges (rbs.getD j rbD).name,
        outputVariables := extractOutputVariables (rbs.getD j rbD),
        sqlIndex := i + j } := by
  intro rbs
  induction rbs with
  | nil => intro i j hj; cases hj
  | cons rb rest ih =>
    intro i j hj
    cases j with
    | zero => simp [mkEntries]
    | succ j' =>
      have := ih (i + 1) j' (by simpa using Nat.lt_of_succ_lt_succ hj)
      simp only [mkEntries, List.getD_cons_succ, this]
      congr 1 <;> omega

theorem bind_ok_elim {ε α β : Type} (e : Except ε α) (f : α → Except ε β) (b : β)
    (h : (e >>= f) = .ok b) : ∃ a, e = .ok a ∧ f a = .ok b := by
  cases e with
  | error err => simp [Bind.bind, Except.bind] at h
  | ok a => exact ⟨a, rfl, by simpa [Bind.bind, Except.bind] using h⟩

/-- Dissection of a successful `compileE` run into its pipeline stages. -/
theorem compileE_ok_elim (rbs : List RuleblockInput) (opts : CompilerOptions)
    (sql : List String) (m : Manifest) (h : compileE rbs opts = .ok (sql, m)) :
    ∃ validated parsed linked,
      rbs.mapM validateRuleblock = .ok validated ∧
      parse validated = .ok parsed ∧
      link parsed = .ok linked ∧
      generateSql (transform linked (validateOptions opts))
        (validateOptions opts).dialect = .ok sql ∧
      m = generateManifest (transform linked (validateOptions opts))
            (buildDependencyGraph (transform linked (validateOptions opts)))
            (validateOptions opts).dialect := by
  unfold compileE at h
  obtain ⟨validated, hv, h⟩ := bind_ok_elim _ _ _ h
  obtain ⟨parsed, hp, h⟩ := bind_ok_elim _ _ _ h
  obtain ⟨linked, hl, h⟩ := bind_ok_elim _ _ _ h
  obtain ⟨sql2, hs, h⟩ := bind_ok_elim _ _ _ h
  simp only [pure, Except.pure] at h
  injection h with h
  injection h with h1 h2
  exact ⟨validated, parsed, linked, hv, hp, hl, h1 ▸ hs, h2.symm⟩

/-- C2: for every successful compilation the sql list, the manifest entry
list and the post-transform ruleblock count agree in length, and every
manifest entry's sqlIndex and executionOrder equal its position. -/
theorem C2_lengths_indices (rbs : List RuleblockInput) (opts : CompilerOptions)
    (sql : List String) (m : Manifest) (j : Nat)
    (h : compileE rbs opts = .ok (sql, m)) (hj : j < m.entries.length) :
    sql.length = m.entries.length ∧ m.entries.length = m.totalRuleblocks ∧
    (m.entries.getD j entryD).sqlIndex = j ∧
    (m.entries.getD j entryD).executionOrder = j := by
  obtain ⟨validated, parsed, linked, hv, hp, hl, hs, hm⟩ :=
    compileE_ok_elim rbs opts sql m h
  subst hm
  have hme : (generateManifest (transform linked (validateOptions opts))
      (buildDependencyGraph (transform linked (validateOptions opts)))
      (validateOptions opts).dialect).entries =
      mkEntries (buildDependencyGraph (transform linked (validateOptions opts)))
        (validateOptions opts).dialect (transform linked (validateOptions opts)) 0 := rfl
  rw [hme] at hj ⊢
  rw [mkEntries_length] at hj ⊢
  refine ⟨?_, ?_, ?_, ?_⟩
  · rw [mapM_ok_length _ _ sql hs]
  · rfl
  · rw [mkEntries_getD _ _ _ 0 j hj]
    simp
  · rw [mkEntries_getD _ _ _ 0 j hj]
    simp

set_option maxRecDepth 1000000 in
/-- C2 witness: the theorem applied to a concrete one-ruleblock Oracle
compilation at index 0. -/
theorem C2_lengths_indices_witness :
    (compileE [{ name := "g", text := "v => eadv.att1.val.last();" }]
        { dialect := .oracle } =
      .ok (exOk ([], mD) (compileE [{ name := "g", text := "v => eadv.att1.val.last();" }]
        { dialect := .oracle }))) ∧
    0 < (exOk ([], mD) (compileE [{ name := "g", text := "v => eadv.att1.val.last();" }]
        { dialect := .oracle })).2.entries.length ∧
    ((exOk ([], mD) (compileE [{ name := "g", text := "v => eadv.att1.val.last();" }]
        { dialect := .oracle })).1.length =
      (exOk ([], mD) (compileE [{ name := "g", text := "v => eadv.att1.val.last();" }]
        { dialect := .oracle })).2.entries.length ∧
     (exOk ([], mD) (compileE [{ name := "g", text := "v => eadv.att1.val.last();" }]
        { dialect := .oracle })).2.entries.length =
      (exOk ([], mD) (compileE [{ name := "g", text := "v => eadv.att1.val.last();" }]
        { dialect := .oracle })).2.totalRuleblocks ∧
     ((exOk ([], mD) (compileE [{ name := "g", text := "v => eadv.att1.val.last();" }]
        { dialect := .oracle })).2.entries.getD 0 entryD).sqlIndex = 0 ∧
     ((exOk ([], mD) (compileE [{ name := "g", text := "v => eadv.att1.val.last();" }]
        { dialect := .oracle })).2.entries.getD 0 entryD).executionOrder = 0) :=
  ⟨rfl, by decide,
   C2_lengths_indices [{ name := "g", text := "v => eadv.att1.val.last();" }]
     { dialect := .oracle }
     (exOk ([], mD) (compileE [{ name := "g", text := "v => eadv.att1.val.last();" }]
       { dialect := .oracle })).1
     (exOk ([], mD) (compileE [{ name := "g", text := "v => eadv.att1.val.last();" }]
       { dialect := .oracle })).2
     0 rfl (by decide)⟩

/-! ## C6: silent dropping of plain segments -/

theorem parseStatements_plain : ∀ (segs : List (List Char)),
    segs.all segPlain = true → parseStatements segs = .ok [] := by
  intro segs
  induction segs with
  | nil => intro _; rfl
  | cons seg rest ih =>
    intro h
    rw [List.all_cons, Bool.and_eq_true] at h
    obtain ⟨hseg, hrest⟩ := h
    unfold segPlain at hseg
    simp only [Bool.and_eq_true, Bool.not_eq_true', decide_eq_false_iff_not] at hseg
    rw [parseStatements, if_neg hseg.1.1, if_neg (by
        simp only [Bool.and_eq_true, Bool.not_eq_true]
        intro hc
        exact absurd hc.1 (by simp [hseg.1.2])),
      if_neg (by simp [hseg.2])]
    exact ih hrest

theorem mapM_ok_of_all {α β : Type} (f : α → Except String β) :
    ∀ (l : List α), (∀ a ∈ l, ∃ b, f a = .ok b) → ∃ r, l.mapM f = .ok r := by
  intro l
  induction l with
  | nil => intro _; exact ⟨[], rfl⟩
  | cons a as ih =>
    intro h
    obtain ⟨b, hb⟩ := h a (by simp)
    obtain ⟨r, hr⟩ := ih (fun a ha => h a (by simp [ha]))
    refine ⟨b :: r, ?_⟩
    rw [List.mapM_cons, hb, hr]
    rfl

theorem bindTargets_nil (rb : ParsedRuleblock) (h : rb.rules = []) :
    bindTargets rb = [] := by
  unfold bindTargets
  rw [h]
  rfl

theorem edges_values_nil (rbs : List ParsedRuleblock)
    (h : ∀ rb ∈ rbs, rb.rules = []) :
    ∀ p ∈ (buildDependencyGraph rbs).edges, p.2 = [] := by
  have hstep : ∀ (acc : List (String × List String)) (n : String),
      (∀ p ∈ acc, p.2 = []) → ∀ p ∈ mapSet acc n ([] : List String), p.2 = [] := by
    intro acc n hacc p hp
    unfold mapSet at hp
    split at hp
    · rcases List.mem_map.mp hp with ⟨q, hq, hqe⟩
      by_cases hqn : q.1 = n
      · rw [if_pos hqn] at hqe; rw [← hqe]
      · rw [if_neg hqn] at hqe; rw [← hqe]; exact hacc q hq
    · rcases List.mem_append.mp hp with hq | hq
      · exact hacc p hq
      · simp only [List.mem_singleton] at hq; rw [hq]
  have h0 : ∀ (rbs' : List ParsedRuleblock) (acc : List (String × List String)),
      (∀ p ∈ acc, p.2 = []) →
      ∀ p ∈ rbs'.foldl (fun es rb => mapSet es rb.name []) acc, p.2 = [] := by
    intro rbs'
    induction rbs' with
    | nil => intro acc hacc; exact hacc
    | cons rb rest ih => intro acc hacc; exact ih _ (hstep acc rb.name hacc)
  have h1 : ∀ (rbs' : List ParsedRuleblock) (acc : List (String × List String)),
      (∀ rb ∈ rbs', rb.rules = []) →
      rbs'.foldl (fun es rb =>
        if (bindTargets rb).length > 0 then mapSet es rb.name (bindTargets rb) else es)
        acc = acc := by
    intro rbs'
    induction rbs' with
    | nil => intro acc _; rfl
    | cons rb rest ih =>
      intro acc hacc
      rw [List.foldl_cons]
      have : bindTargets rb = [] := bindTargets_nil rb (hacc rb (by simp))
      rw [show (if (bindTargets rb).length > 0 then mapSet acc rb.name (bindTargets rb)
          else acc) = acc by rw [this]; simp]
      exact ih acc (fun rb' h' => hacc rb' (by simp [h']))
  show ∀ p ∈ (buildDependencyGraph rbs).edges, p.2 = []
  simp only [buildDependencyGraph]
  rw [h1 rbs _ h]
  exact h0 rbs [] (by intro p hp; cases hp)

theorem edgesGet_nil (es : List (String × List String))
    (h : ∀ p ∈ es, p.2 = []) (n : String) : edgesGet es n = [] := by
  unfold edgesGet mapGet
  cases hf : es.find? (fun p => p.1 = n) with
  | none => rfl
  | some p =>
    have := h p (List.mem_of_find?_eq_some hf)
    simp [this]

theorem dfsD_nildeps (edges : List (String × List String))
    (hed : ∀ n, edgesGet edges n = []) (f : Nat) (n : String) (st : DetectSt) :
    dfsD (f + 1) edges n st [] =
      .ok { visited := setAdd st.visited n, stack := (setAdd st.stack n).erase n } := by
  rw [dfsD, hed n]
  rfl

theorem detectLoop_nildeps (edges : List (String × List String))
    (hed : ∀ n, edgesGet edges n = []) (f : Nat) :
    ∀ (ns : List String) (st : DetectSt), st.stack = [] →
    detectLoop edges (f + 1) ns st = none := by
  intro ns
  induction ns with
  | nil => intro st _; rfl
  | cons n rest ih =>
    intro st hstack
    rw [detectLoop]
    by_cases hv : n ∈ st.visited
    · rw [if_pos hv]; exact ih st hstack
    · rw [if_neg hv, dfsD_nildeps edges hed f n st]
      show detectLoop edges (f + 1) rest _ = none
      refine ih _ ?_
      show (setAdd st.stack n).erase n = []
      rw [hstack]
      show (setAdd [] n).erase n = []
      unfold setAdd
      simp

theorem detect_none_of_nildeps (g : DepGraph)
    (hed : ∀ n, edgesGet g.edges n = []) :
    detectCircularDependencies g = none := by
  unfold detectCircularDependencies graphFuel
  exact detectLoop_nildeps g.edges hed _ g.nodes _ rfl

theorem visit_sorted_P (P : ParsedRuleblock → Prop) (edges : List (String × List String))
    (rbMap : List (String × ParsedRuleblock))
    (hmap : ∀ n rb, mapGet rbMap n = some rb → P rb) :
    ∀ (fuel : Nat) (name : String) (st : SortSt), (∀ rb ∈ st.sorted, P rb) →
      ∀ rb ∈ (visit fuel edges rbMap name st).sorted, P rb := by
  intro fuel
  induction fuel with
  | zero => intro name st hst rb hrb; exact hst rb hrb
  | succ f ih =>
    intro name st hst
    rw [visit]
    by_cases hv : name ∈ st.visited
    · rw [if_pos hv]; exact hst
    · rw [if_neg hv]
      have hfold : ∀ (ds : List String) (st' : SortSt), (∀ rb ∈ st'.sorted, P rb) →
          ∀ rb ∈ (ds.foldl (fun s d => visit f edges rbMap d s) st').sorted, P rb := by
        intro ds
        induction ds with
        | nil => intro st' h'; exact h'
        | cons d ds ihd => intro st' h'; exact ihd _ (ih d st' h')
      cases hmg : mapGet rbMap name with
      | some rb0 =>
        dsimp only
        intro rb hrb
        simp only [List.mem_append, List.mem_singleton] at hrb
        rcases hrb with hrb | hrb
        · exact hfold (edgesGet edges name)
            { visited := setAdd st.visited name, sorted := st.sorted } hst rb hrb
        · rw [hrb]; exact hmap name rb0 hmg
      | none =>
        dsimp only
        exact hfold _ _ hst

theorem rbMapOf_values_P (P : ParsedRuleblock → Prop) :
    ∀ (rbs : List ParsedRuleblock), (∀ rb ∈ rbs, P rb) →
    ∀ n rb, mapGet (rbMapOf rbs) n = some rb → P rb := by
  have hstep : ∀ (acc : List (String × ParsedRuleblock)) (rb0 : ParsedRuleblock),
      (∀ p ∈ acc, P p.2) → P rb0 → ∀ p ∈ mapSet acc rb0.name rb0, P p.2 := by
    intro acc rb0 hacc hrb0 p hp
    unfold mapSet at hp
    split at hp
    · rcases List.mem_map.mp hp with ⟨q, hq, hqe⟩
      by_cases hqn : q.1 = rb0.name
      · rw [if_pos hqn] at hqe; rw [← hqe]; exact hrb0
      · rw [if_neg hqn] at hqe; rw [← hqe]; exact hacc q hq
    · rcases List.mem_append.mp hp with hq | hq
      · exact hacc p hq
      · simp only [List.mem_singleton] at hq; rw [hq]; exact hrb0
  have hfold : ∀ (rbs : List ParsedRuleblock) (acc : List (String × ParsedRuleblock)),
      (∀ rb ∈ rbs, P rb) → (∀ p ∈ acc, P p.2) →
      ∀ p ∈ rbs.foldl (fun m rb => mapSet m rb.name rb) acc, P p.2 := by
    intro rbs
    induction rbs with
    | nil => intro acc _ hacc; exact hacc
    | cons rb rest ih =>
      intro acc hrbs hacc
      exact ih _ (fun rb' h' => hrbs rb' (by simp [h']))
        (hstep acc rb hacc (hrbs rb (by simp)))
  intro rbs hrbs n rb hmg
  have hmem : ∀ p ∈ rbMapOf rbs, P p.2 :=
    hfold rbs [] hrbs (by intro p hp; cases hp)
  unfold mapGet at hmg
  cases hf : (rbMapOf rbs).find? (fun p => p.1 = n) with
  | none => rw [hf] at hmg; simp at hmg
  | some p =>
    rw [hf] at hmg
    injection hmg with hmg
    rw [← hmg]
    exact hmem p (List.mem_of_find?_eq_some hf)

theorem topologicalSort_ok_of_norules (rbs : List ParsedRuleblock)
    (h : ∀ rb ∈ rbs, rb.rules = []) :
    ∃ sorted, topologicalSort rbs = .ok sorted ∧ ∀ rb ∈ sorted, rb.rules = [] := by
  have hed := edgesGet_nil _ (edges_values_nil rbs h)
  have hdet := detect_none_of_nildeps (buildDependencyGraph rbs) hed
  simp only [topologicalSort, hdet]
  refine ⟨_, rfl, ?_⟩
  have hmap := rbMapOf_values_P (fun rb => rb.rules = []) rbs h
  have hfold : ∀ (rbs' : List ParsedRuleblock) (st : SortSt),
      (∀ rb ∈ st.sorted, rb.rules = []) →
      ∀ rb ∈ (rbs'.foldl (fun s rb => visit (graphFuel (buildDependencyGraph rbs))
          (buildDependencyGraph rbs).edges (rbMapOf rbs) rb.name s) st).sorted,
        rb.rules = [] := by
    intro rbs'
    induction rbs' with
    | nil => intro st hst; exact hst
    | cons rb rest ih =>
      intro st hst
      exact ih _ (visit_sorted_P _ _ _ hmap _ _ _ hst)
  exact hfold rbs { visited := [], sorted := [] } (by intro rb hrb; cases hrb)

theorem transform_eq_filter (rbs : List ParsedRuleblock) (opts : ValidOptions) :
    ∃ q, transform rbs opts = rbs.filter q := by
  have hprune : ∀ (l : List ParsedRuleblock) (pi po : Option (List String)),
      ∃ q2, pruneRuleblocks l pi po = l.filter q2 := by
    intro l pi po
    unfold pruneRuleblocks
    by_cases hc : (pi.getD []).isEmpty && (po.getD []).isEmpty
    · rw [if_pos hc]; exact ⟨fun _ => true, by simp⟩
    · rw [if_neg hc]; exact ⟨_, rfl⟩
  unfold transform
  obtain ⟨q1, hq1⟩ : ∃ q1, (match opts.subset with
      | some s => selectSubset rbs s
      | none => rbs) = rbs.filter q1 := by
    cases opts.subset with
    | none => exact ⟨fun _ => true, by simp⟩
    | some s =>
      dsimp only
      unfold selectSubset
      by_cases hs : s.isEmpty
      · rw [if_pos hs]; exact ⟨fun _ => true, by simp⟩
      · rw [if_neg hs]; exact ⟨_, rfl⟩
  rw [hq1]
  cases opts.pruneInputs with
  | none =>
    cases opts.pruneOutputs with
    | none =>
      show ∃ q, rbs.filter q1 = rbs.filter q
      exact ⟨q1, rfl⟩
    | some po =>
      show ∃ q, pruneRuleblocks (rbs.filter q1) none (some po) = rbs.filter q
      obtain ⟨q2, hq2⟩ := hprune (rbs.filter q1) none (some po)
      rw [hq2, List.filter_filter]
      exact ⟨_, rfl⟩
  | some pi =>
    cases opts.pruneOutputs with
    | none =>
      show ∃ q, pruneRuleblocks (rbs.filter q1) (some pi) none = rbs.filter q
      obtain ⟨q2, hq2⟩ := hprune (rbs.filter q1) (some pi) none
      rw [hq2, List.filter_filter]
      exact ⟨_, rfl⟩
    | some po =>
      show ∃ q, pruneRuleblocks (rbs.filter q1) (some pi) (some po) = rbs.filter q
      obtain ⟨q2, hq2⟩ := hprune (rbs.filter q1) (some pi) (some po)
      rw [hq2, List.filter_filter]
      exact ⟨_, rfl⟩

theorem generateSql_ok_of_norules (rbs : List ParsedRuleblock) (d : Dialect)
    (h : ∀ rb ∈ rbs, rb.rules = []) :
    ∃ out, generateSql rbs d = .ok out := by
  apply mapM_ok_of_all
  intro rb hrb
  refine ⟨ruleblockEnvelope d rb.name [] [], ?_⟩
  unfold generateSqlForRuleblock
  rw [h rb hrb]
  rfl

/-- C6: a semicolon-separated segment containing neither `=>` nor `:` and
not starting with `#` yields no rule and no error, and a batch made only of
such segments (with valid names and sizes) still compiles with
`success = true` and empty error and warning lists. -/
theorem C6_skip_segments (segs : List (List Char)) (rbs : List RuleblockInput)
    (opts : CompilerOptions)
    (hsegs : segs.all segPlain = true)
    (hrbs : rbs.all (fun rb => validName rb.name &&
      decide (rb.text.data.length ≤ 1000000) &&
      (segmentsOf rb.name rb.text).all segPlain) = true) :
    parseStatements segs = .ok [] ∧
    (compile rbs opts).success = true ∧
    (compile rbs opts).errors = [] ∧ (compile rbs opts).warnings = [] := by
  rw [List.all_eq_true] at hrbs
  have hval : ∀ rb ∈ rbs, validateRuleblock rb =
      .ok { name := rb.name, text := rb.text, isActive := rb.isActive.getD true } := by
    intro rb hrb
    have := hrbs rb hrb
    simp only [Bool.and_eq_true, decide_eq_true_eq] at this
    unfold validateRuleblock
    rw [if_pos this.1.1, if_pos this.1.2]
  have hvmapM : ∀ (l : List RuleblockInput), (∀ rb ∈ l, validateRuleblock rb =
      .ok { name := rb.name, text := rb.text, isActive := rb.isActive.getD true }) →
      l.mapM validateRuleblock =
        .ok (l.map (fun rb =>
          ({ name := rb.name, text := rb.text,
             isActive := rb.isActive.getD true } : ValidRuleblock))) := by
    intro l
    induction l with
    | nil => intro _; rfl
    | cons a as ih =>
      intro hl
      rw [List.mapM_cons, hl a (by simp), ih (fun rb hrb => hl rb (by simp [hrb]))]
      rfl
  have hv := hvmapM rbs hval
  have hparse : ∀ v ∈ rbs.map (fun rb =>
      ({ name := rb.name, text := rb.text,
         isActive := rb.isActive.getD true } : ValidRuleblock)),
      parseRuleblock v =
        .ok ({ name := v.name, text := v.text, isActive := v.isActive, rules := [] } : ParsedRuleblock) := by
    intro v hvm
    rcases List.mem_map.mp hvm with ⟨rb, hrb, hve⟩
    have hsp : (segmentsOf v.name v.text).all segPlain = true := by
      have := hrbs rb hrb
      simp only [Bool.and_eq_true] at this
      rw [← hve]
      exact this.2
    unfold parseRuleblock
    rw [parseStatements_plain _ hsp]
    rfl
  have hpmapM : ∀ (l : List ValidRuleblock), (∀ v ∈ l, parseRuleblock v =
      .ok ({ name := v.name, text := v.text, isActive := v.isActive, rules := [] } :
        ParsedRuleblock)) →
      parse l = .ok (l.map (fun v =>
        ({ name := v.name, text := v.text, isActive := v.isActive,
           rules := [] } : ParsedRuleblock))) := by
    intro l
    induction l with
    | nil => intro _; rfl
    | cons a as ih =>
      intro hl
      unfold parse
      rw [List.mapM_cons, hl a (by simp)]
      have := ih (fun v hv => hl v (by simp [hv]))
      unfold parse at this
      rw [this]
      rfl
  have hp := hpmapM _ hparse
  set parsed := (rbs.map (fun rb =>
    ({ name := rb.name, text := rb.text,
       isActive := rb.isActive.getD true } : ValidRuleblock))).map (fun v =>
    ({ name := v.name, text := v.text, isActive := v.isActive,
       rules := [] } : ParsedRuleblock)) with hparsed
  have hnorules : ∀ rb ∈ parsed.map resolveReferences, rb.rules = [] := by
    intro rb hrb
    rcases List.mem_map.mp hrb with ⟨rb0, hrb0, hre⟩
    rcases List.mem_map.mp hrb0 with ⟨v, _, hv0⟩
    rw [← hre, ← hv0]
    rfl
  obtain ⟨sorted, hsort, hsorted⟩ :=
    topologicalSort_ok_of_norules (parsed.map resolveReferences) hnorules
  have hlink : link parsed = .ok sorted := hsort
  obtain ⟨q, hq⟩ := transform_eq_filter sorted (validateOptions opts)
  have htrans : ∀ rb ∈ transform sorted (validateOptions opts), rb.rules = [] := by
    intro rb hrb
    rw [hq] at hrb
    exact hsorted rb (List.mem_of_mem_filter hrb)
  obtain ⟨out, hout⟩ :=
    generateSql_ok_of_norules (transform sorted (validateOptions opts))
      (validateOptions opts).dialect htrans
  have hok : compileE rbs opts = .ok (out,
      generateManifest (transform sorted (validateOptions opts))
        (buildDependencyGraph (transform sorted (validateOptions opts)))
        (validateOptions opts).dialect) := by
    unfold compileE
    rw [hv]
    show (parse _ >>= fun parsed => _) = _
    rw [hp]
    show (link _ >>= fun linked => _) = _
    rw [hlink]
    show (generateSql _ _ >>= fun sql => _) = _
    rw [hout]
    rfl
  refine ⟨parseStatements_plain segs hsegs, ?_, ?_, ?_⟩ <;>
    · unfold compile
      rw [hok]

set_option maxRecDepth 1000000 in
/-- C6 witness: the theorem applied to a concrete plain segment and a
one-ruleblock batch whose text holds only plain segments. -/
theorem C6_skip_segments_witness :
    (["hello world".data].all segPlain = true) ∧
    (([({ name := "a", text := "hello world; stray, commentary" } : RuleblockInput)].all
      (fun rb => validName rb.name && decide (rb.text.data.length ≤ 1000000) &&
        (segmentsOf rb.name rb.text).all segPlain)) = true) ∧
    (parseStatements ["hello world".data] = .ok [] ∧
     (compile [({ name := "a", text := "hello world; stray, commentary" } : RuleblockInput)]
       { dialect := .oracle }).success = true ∧
     (compile [({ name := "a", text := "hello world; stray, commentary" } : RuleblockInput)]
       { dialect := .oracle }).errors = [] ∧
     (compile [({ name := "a", text := "hello world; stray, commentary" } : RuleblockInput)]
       { dialect := .oracle }).warnings = []) :=
  ⟨by decide, by decide,
   C6_skip_segments ["hello world".data]
     [({ name := "a", text := "hello world; stray, commentary" } : RuleblockInput)]
     { dialect := .oracle } (by decide) (by decide)⟩

/-! ## C3: cycle detection and the circular-dependency error -/

theorem mem_setAdd (s : List String) (y x : String) :
    x ∈ setAdd s y ↔ x ∈ s ∨ x = y := by
  unfold setAdd
  by_cases hy : y ∈ s
  · rw [if_pos hy]
    constructor
    · exact Or.inl
    · rintro (h | h)
      · exact h
      · rw [h]; exact hy
  · rw [if_neg hy]
    simp

theorem posOf_append_left (F G : List String) (x : String) (hx : x ∈ F) :
    posOf (F ++ G) x = posOf F x := by
  induction F with
  | nil => cases hx
  | cons y F ih =>
    rw [List.cons_append, posOf, posOf]
    by_cases hyx : y = x
    · rw [if_pos hyx, if_pos hyx]
    · rw [if_neg hyx, if_neg hyx, ih (by
        rcases List.mem_cons.mp hx with h | h
        · exact absurd h.symm hyx
        · exact h)]

theorem posOf_append_right (F G : List String) (x : String) (hx : x ∉ F) :
    posOf (F ++ G) x = F.length + posOf G x := by
  induction F with
  | nil => simp [posOf]
  | cons y F ih =>
    rw [List.cons_append, posOf]
    rw [if_neg (by intro h; exact hx (by rw [h]; simp))]
    rw [ih (fun h => hx (by simp [h]))]
    simp only [List.length_cons]
    omega

theorem posOf_lt_length (F : List String) (x : String) (hx : x ∈ F) :
    posOf F x < F.length := by
  induction F with
  | nil => cases hx
  | cons y F ih =>
    rw [posOf]
    by_cases hyx : y = x
    · rw [if_pos hyx]; simp
    · rw [if_neg hyx]
      simp only [List.length_cons]
      have := ih (by
        rcases List.mem_cons.mp hx with h | h
        · exact absurd h.symm hyx
        · exact h)
      omega

theorem erase_append_self (l : List String) (x : String) (hx : x ∉ l) :
    (l ++ [x]).erase x = l := by
  induction l with
  | nil => simp
  | cons y l ih =>
    rw [List.cons_append, List.erase_cons]
    rw [if_neg (by
      simp only [beq_iff_eq]
      intro h
      exact hx (by rw [h]; simp))]
    rw [ih (fun h => hx (by simp [h]))]

theorem foldl_dfsStep_error
    (dfs : String → DetectSt → List String → Except (List String) DetectSt)
    (p : List String) (cyc : List String) :
    ∀ ds : List String, List.foldl (dfsStep dfs p) (.error cyc) ds = .error cyc := by
  intro ds
  induction ds with
  | nil => rfl
  | cons d ds ih => exact ih

theorem dfsD_ok_spec (edges : List (String × List String)) :
    ∀ (f : Nat) (name : String) (st : DetectSt) (path : List String) (st' : DetectSt),
    dfsD f edges name st path = .ok st' →
    name ∉ st.visited →
    (∀ x ∈ st.stack, x ∈ st.visited) →
    ∀ F, FinInv edges st F →
    ∃ F', FinInv edges st' F' ∧ (∀ x ∈ F, x ∈ F') ∧
      st'.stack = st.stack ∧ (∀ x ∈ st.visited, x ∈ st'.visited) ∧
      name ∈ st'.visited := by
  intro f
  induction f with
  | zero =>
    intro name st path st' h
    rw [dfsD] at h
    exact absurd h (by simp)
  | succ f ih =>
    intro name st path st' h hnv hsv F hF
    have hfold : ∀ (ds : List String) (st0 : DetectSt) (p : List String) (st2 : DetectSt),
        List.foldl (dfsStep (dfsD f edges) p) (.ok st0) ds = .ok st2 →
        (∀ x ∈ st0.stack, x ∈ st0.visited) →
        ∀ F0, FinInv edges st0 F0 →
        ∃ F2, FinInv edges st2 F2 ∧ (∀ x ∈ F0, x ∈ F2) ∧
          st2.stack = st0.stack ∧ (∀ x ∈ st0.visited, x ∈ st2.visited) ∧
          (∀ d ∈ ds, d ∈ F2) := by
      intro ds
      induction ds with
      | nil =>
        intro st0 p st2 h0 hs0 F0 hF0
        injection h0 with h0
        subst h0
        exact ⟨F0, hF0, fun x hx => hx, rfl, fun x hx => hx, by intro d hd; cases hd⟩
      | cons d ds ihd =>
        intro st0 p st2 h0 hs0 F0 hF0
        rw [List.foldl_cons] at h0
        by_cases hdv : d ∈ st0.visited
        · by_cases hds : d ∈ st0.stack
          · rw [show dfsStep (dfsD f edges) p (.ok st0) d = .error (pathCycle p d) by
                simp only [dfsStep]
                rw [if_pos hdv, if_pos hds]] at h0
            rw [foldl_dfsStep_error] at h0
            exact absurd h0 (by simp)
          · rw [show dfsStep (dfsD f edges) p (.ok st0) d = .ok st0 by
                simp only [dfsStep]
                rw [if_pos hdv, if_neg hds]] at h0
            obtain ⟨F2, hF2, hsub, hstk, hvis, hall⟩ := ihd st0 p st2 h0 hs0 F0 hF0
            refine ⟨F2, hF2, hsub, hstk, hvis, ?_⟩
            intro e he
            rcases List.mem_cons.mp he with he | he
            · rw [he]
              exact hsub d ((hF0.1 d).mpr ⟨hdv, hds⟩)
            · exact hall e he
        · rw [show dfsStep (dfsD f edges) p (.ok st0) d = dfsD f edges d st0 p by
              simp only [dfsStep]
              rw [if_neg hdv]] at h0
          cases hcall : dfsD f edges d st0 p with
          | error cyc =>
            rw [hcall, foldl_dfsStep_error] at h0
            exact absurd h0 (by simp)
          | ok std =>
            rw [hcall] at h0
            obtain ⟨Fd, hFd, hsubd, hstkd, hvisd, hdmem⟩ :=
              ih d st0 p std hcall hdv hs0 F0 hF0
            obtain ⟨F2, hF2, hsub2, hstk2, hvis2, hall2⟩ := ihd std p st2 h0
              (by rw [hstkd]; intro x hx; exact hvisd x (hs0 x hx)) Fd hFd
            refine ⟨F2, hF2, fun x hx => hsub2 x (hsubd x hx),
              by rw [hstk2, hstkd], fun x hx => hvis2 x (hvisd x hx), ?_⟩
            intro e he
            rcases List.mem_cons.mp he with he | he
            · rw [he]
              refine hsub2 d ((hFd.1 d).mpr ⟨hdmem, ?_⟩)
              rw [hstkd]
              intro he2
              exact hdv (hs0 d he2)
            · exact hall2 e he
    simp only [dfsD] at h
    cases hfa : List.foldl (dfsStep (dfsD f edges) (path ++ [name]))
        (Except.ok { visited := setAdd st.visited name, stack := setAdd st.stack name })
        (edgesGet edges name) with
    | error cyc =>
      rw [hfa] at h
      exact absurd h (by simp)
    | ok st2 =>
      rw [hfa] at h
      injection h with h
      have hst1s : ∀ x ∈ (setAdd st.stack name), x ∈ setAdd st.visited name := by
        intro x hx
        rcases (mem_setAdd st.stack name x).mp hx with hx | hx
        · exact (mem_setAdd st.visited name x).mpr (Or.inl (hsv x hx))
        · exact (mem_setAdd st.visited name x).mpr (Or.inr hx)
      have hns : name ∉ st.stack := fun hc => hnv (hsv name hc)
      have hF1 : FinInv edges
          { visited := setAdd st.visited name, stack := setAdd st.stack name } F := by
        refine ⟨?_, hF.2⟩
        intro x
        rw [hF.1 x]
        show _ ↔ x ∈ setAdd st.visited name ∧ x ∉ setAdd st.stack name
        rw [mem_setAdd, mem_setAdd]
        constructor
        · rintro ⟨h1, h2⟩
          refine ⟨Or.inl h1, ?_⟩
          rintro (h3 | h3)
          · exact h2 h3
          · exact hnv (h3 ▸ h1)
        · rintro ⟨h1, h2⟩
          rcases h1 with h1 | h1
          · exact ⟨h1, fun h3 => h2 (Or.inl h3)⟩
          · exact absurd (Or.inr h1) h2
      obtain ⟨F2, hF2, hsub, hstk, hvis, hall⟩ :=
        hfold (edgesGet edges name) _ (path ++ [name]) st2 hfa hst1s F hF1
      have hnamestk : name ∈ st2.stack := by
        rw [hstk]
        exact (mem_setAdd st.stack name name).mpr (Or.inr rfl)
      have hnameF2 : name ∉ F2 := fun hc => ((hF2.1 name).mp hc).2 hnamestk
      have hnamevis : name ∈ st2.visited :=
        hvis name ((mem_setAdd st.visited name name).mpr (Or.inr rfl))
      have hstkerase : st2.stack.erase name = st.stack := by
        rw [hstk]
        show (setAdd st.stack name).erase name = st.stack
        unfold setAdd
        rw [if_neg hns]
        exact erase_append_self st.stack name hns
      refine ⟨F2 ++ [name], ⟨?_, ?_⟩, ?_, ?_, ?_, ?_⟩
      · intro x
        rw [← h]
        show x ∈ F2 ++ [name] ↔ x ∈ st2.visited ∧ x ∉ st2.stack.erase name
        rw [hstkerase]
        by_cases hxn : x = name
        · subst hxn
          simp only [List.mem_append, List.mem_singleton]
          constructor
          · intro _; exact ⟨hnamevis, hns⟩
          · intro _; exact Or.inr trivial
        · simp only [List.mem_append, List.mem_singleton]
          rw [hF2.1 x, hstk]
          constructor
          · rintro (hx | hx)
            · refine ⟨hx.1, fun hc => hx.2 ((mem_setAdd st.stack name x).mpr (Or.inl hc))⟩
            · exact absurd hx hxn
          · rintro ⟨h1, h2⟩
            refine Or.inl ⟨h1, fun hc => ?_⟩
            rcases (mem_setAdd st.stack name x).mp hc with hc | hc
            · exact h2 hc
            · exact hxn hc
      · intro a ha b hb
        rcases List.mem_append.mp ha with ha | ha
        · obtain ⟨hbF, hpos⟩ := hF2.2 a ha b hb
          refine ⟨List.mem_append.mpr (Or.inl hbF), ?_⟩
          rw [posOf_append_left F2 [name] a ha, posOf_append_left F2 [name] b hbF]
          exact hpos
        · simp only [List.mem_singleton] at ha
          rw [ha] at hb ⊢
          have hbF : b ∈ F2 := hall b hb
          refine ⟨List.mem_append.mpr (Or.inl hbF), ?_⟩
          rw [posOf_append_left F2 [name] b hbF,
            posOf_append_right F2 [name] name hnameF2]
          have := posOf_lt_length F2 b hbF
          omega
      · intro x hx
        exact List.mem_append.mpr (Or.inl (hsub x hx))
      · rw [← h]
        exact hstkerase
      · intro x hx
        rw [← h]
        exact hvis x ((mem_setAdd st.visited name x).mpr (Or.inl hx))
      · rw [← h]
        exact hnamevis

theorem detectLoop_none_spec (edges : List (String × List String)) (fuel : Nat) :
    ∀ (ns : List String) (st : DetectSt) (F : List String),
    detectLoop edges fuel ns st = none →
    st.stack = [] → FinInv edges st F →
    ∃ st2 F', FinInv edges st2 F' ∧ (∀ x ∈ F, x ∈ F') ∧ (∀ n ∈ ns, n ∈ F') := by
  intro ns
  induction ns with
  | nil =>
    intro st F _ _ hF
    exact ⟨st, F, hF, fun x hx => hx, by intro n hn; cases hn⟩
  | cons n rest ih =>
    intro st F h hstk hF
    rw [detectLoop] at h
    by_cases hv : n ∈ st.visited
    · rw [if_pos hv] at h
      obtain ⟨st2, F', hF', hsub, hall⟩ := ih st F h hstk hF
      refine ⟨st2, F', hF', hsub, ?_⟩
      intro m hm
      rcases List.mem_cons.mp hm with hm | hm
      · subst hm
        exact hsub m ((hF.1 m).mpr ⟨hv, by rw [hstk]; intro hc; cases hc⟩)
      · exact hall m hm
    · rw [if_neg hv] at h
      cases hcall : dfsD fuel edges n st [] with
      | error cyc => rw [hcall] at h; exact absurd h (by simp)
      | ok st1 =>
        rw [hcall] at h
        obtain ⟨F1, hF1, hsub1, hstk1, _, hvisn⟩ :=
          dfsD_ok_spec edges fuel n st [] st1 hcall hv
            (by rw [hstk]; intro x hx; cases hx) F hF
        obtain ⟨st2, F', hF', hsub2, hall2⟩ := ih st1 F1 h (by rw [hstk1, hstk]) hF1
        refine ⟨st2, F', hF', fun x hx => hsub2 x (hsub1 x hx), ?_⟩
        intro m hm
        rcases List.mem_cons.mp hm with hm | hm
        · subst hm
          refine hsub2 m ((hF1.1 m).mpr ⟨hvisn, ?_⟩)
          rw [hstk1, hstk]
          intro hc
          cases hc
        · exact hall2 m hm

theorem detect_none_edgesBack (g : DepGraph)
    (h : detectCircularDependencies g = none) :
    ∃ F, EdgesBackP g.edges F ∧ ∀ n ∈ g.nodes, n ∈ F := by
  have hFinit : FinInv g.edges { visited := [], stack := [] } [] := by
    constructor
    · intro x
      constructor
      · intro hc; cases hc
      · intro hc; cases hc.1
    · intro a ha; cases ha
  obtain ⟨st2, F', hF', _, hall⟩ :=
    detectLoop_none_spec g.edges (graphFuel g) g.nodes
      { visited := [], stack := [] } [] h rfl hFinit
  exact ⟨F', hF'.2, hall⟩

theorem mem_of_edgesGet_ne_nil (es : List (String × List String)) (a : String)
    (h : edgesGet es a ≠ []) : ∃ p ∈ es, p.1 = a := by
  unfold edgesGet mapGet at h
  cases hf : es.find? (fun p => p.1 = a) with
  | none => rw [hf] at h; simp at h
  | some p =>
    have hm := List.mem_of_find?_eq_some hf
    have hp := List.find?_some hf
    exact ⟨p, hm, by simpa using hp⟩

theorem foldl_setAdd_mem_mono : ∀ (xs acc : List String) (x : String),
    x ∈ acc → x ∈ xs.foldl setAdd acc := by
  intro xs
  induction xs with
  | nil => intro acc x hx; exact hx
  | cons y ys ih =>
    intro acc x hx
    exact ih (setAdd acc y) x ((mem_setAdd acc y x).mpr (Or.inl hx))

theorem foldl_setAdd_mem : ∀ (xs acc : List String) (x : String),
    x ∈ xs → x ∈ xs.foldl setAdd acc := by
  intro xs
  induction xs with
  | nil => intro acc x hx; cases hx
  | cons y ys ih =>
    intro acc x hx
    rcases List.mem_cons.mp hx with hx | hx
    · rw [hx]
      exact foldl_setAdd_mem_mono ys (setAdd acc y) y
        ((mem_setAdd acc y y).mpr (Or.inr rfl))
    · exact ih (setAdd acc y) x hx

theorem foldl_setAddName_mono (rbs : List ParsedRuleblock) :
    ∀ (acc : List String) (x : String), x ∈ acc →
    x ∈ rbs.foldl (fun ns rb => setAdd ns rb.name) acc := by
  induction rbs with
  | nil => intro acc x hx; exact hx
  | cons rb rest ih =>
    intro acc x hx
    exact ih _ x ((mem_setAdd acc rb.name x).mpr (Or.inl hx))

theorem foldl_setAddName_mem (rbs : List ParsedRuleblock) :
    ∀ (acc : List String) (rb : ParsedRuleblock), rb ∈ rbs →
    rb.name ∈ rbs.foldl (fun ns rb => setAdd ns rb.name) acc := by
  induction rbs with
  | nil => intro acc rb hrb; cases hrb
  | cons rb0 rest ih =>
    intro acc rb hrb
    rcases List.mem_cons.mp hrb with hrb | hrb
    · rw [hrb]
      exact foldl_setAddName_mono rest _ rb0.name
        ((mem_setAdd acc rb0.name rb0.name).mpr (Or.inr rfl))
    · exact ih _ rb hrb

theorem mapSet_keys {α : Type} (Q : String → Prop) (m : List (String × α))
    (k : String) (v : α) (hm : ∀ q ∈ m, Q q.1) (hk : Q k) :
    ∀ p ∈ mapSet m k v, Q p.1 := by
  intro p hp
  unfold mapSet at hp
  split at hp
  · rcases List.mem_map.mp hp with ⟨q, hq, hqe⟩
    by_cases hqk : q.1 = k
    · rw [if_pos hqk] at hqe; rw [← hqe]; exact hk
    · rw [if_neg hqk] at hqe; rw [← hqe]; exact hm q hq
  · rcases List.mem_append.mp hp with hq | hq
    · exact hm p hq
    · simp only [List.mem_singleton] at hq; rw [hq]; exact hk

theorem keys_mem_nodes (rbs : List ParsedRuleblock) :
    ∀ p ∈ (buildDependencyGraph rbs).edges, p.1 ∈ (buildDependencyGraph rbs).nodes := by
  have hnodes : ∀ rb ∈ rbs, rb.name ∈ (buildDependencyGraph rbs).nodes := by
    intro rb hrb
    show rb.name ∈ rbs.foldl (fun ns rb => setAdd ns rb.name) []
    exact foldl_setAddName_mem rbs [] rb hrb
  set Q : String → Prop := fun n => n ∈ (buildDependencyGraph rbs).nodes with hQ
  have h0 : ∀ (rbs' : List ParsedRuleblock) (acc : List (String × List String)),
      (∀ q ∈ acc, Q q.1) → (∀ rb ∈ rbs', Q rb.name) →
      ∀ p ∈ rbs'.foldl (fun es rb => mapSet es rb.name []) acc, Q p.1 := by
    intro rbs'
    induction rbs' with
    | nil => intro acc hacc _; exact hacc
    | cons rb rest ih =>
      intro acc hacc hall
      exact ih _ (mapSet_keys Q acc rb.name [] hacc (hall rb (by simp)))
        (fun rb' h' => hall rb' (by simp [h']))
  have h1 : ∀ (rbs' : List ParsedRuleblock) (acc : List (String × List String)),
      (∀ q ∈ acc, Q q.1) → (∀ rb ∈ rbs', Q rb.name) →
      ∀ p ∈ rbs'.foldl (fun es rb =>
        if (bindTargets rb).length > 0 then mapSet es rb.name (bindTargets rb) else es)
        acc, Q p.1 := by
    intro rbs'
    induction rbs' with
    | nil => intro acc hacc _; exact hacc
    | cons rb rest ih =>
      intro acc hacc hall
      refine ih _ ?_ (fun rb' h' => hall rb' (by simp [h']))
      show ∀ q ∈ (if (bindTargets rb).length > 0 then
        mapSet acc rb.name (bindTargets rb) else acc), Q q.1
      by_cases hbt : (bindTargets rb).length > 0
      · rw [if_pos hbt]
        exact mapSet_keys Q acc rb.name (bindTargets rb) hacc (hall rb (by simp))
      · rw [if_neg hbt]
        exact hacc
  intro p hp
  show Q p.1
  exact h1 rbs _ (h0 rbs [] (by intro q hq; cases hq)
    (fun rb hrb => hnodes rb hrb)) (fun rb hrb => hnodes rb hrb) p hp

/-- Soundness of the cycle detector: whenever the edge relation of a built
dependency graph has a closed walk, `detectCircularDependencies` reports a
cycle. -/
theorem cycle_detected (rbs : List ParsedRuleblock)
    (hcyc : ∃ n, Relation.TransGen (edgeRel (buildDependencyGraph rbs).edges) n n) :
    detectCircularDependencies (buildDependencyGraph rbs) ≠ none := by
  intro hnone
  obtain ⟨F, hEB, hnodes⟩ := detect_none_edgesBack _ hnone
  obtain ⟨n, hn⟩ := hcyc
  have hnF : n ∈ F := by
    obtain ⟨b, hb, -⟩ := (Relation.TransGen.head'_iff).mp hn
    have hne : edgesGet (buildDependencyGraph rbs).edges n ≠ [] := by
      intro hz
      unfold edgeRel at hb
      rw [hz] at hb
      cases hb
    obtain ⟨p, hp, hpa⟩ := mem_of_edgesGet_ne_nil _ n hne
    exact hnodes n (hpa ▸ keys_mem_nodes rbs p hp)
  have hdec : ∀ a c, Relation.TransGen (edgeRel (buildDependencyGraph rbs).edges) a c →
      a ∈ F → c ∈ F ∧ posOf F c < posOf F a := by
    intro a c h
    induction h with
    | single hr => intro ha; exact hEB a ha _ hr
    | tail hab hbc ihab =>
      intro ha
      obtain ⟨hbF, hpos⟩ := ihab ha
      obtain ⟨hcF, hpos2⟩ := hEB _ hbF _ hbc
      exact ⟨hcF, by omega⟩
  have := hdec n n hn hnF
  omega

set_option maxRecDepth 1000000 in
/-- C3 counterexample: a batch whose two ruleblocks bind each other (a
genuine bind cycle) but whose first ruleblock also contains a malformed
compute segment fails with the parse error, not with a message starting
`Circular dependency` — the parse stage preempts cycle detection. -/
theorem C3_counterexample :
    (compile [{ name := "a", text := "x => rout_b.v.val.bind(); y :" },
              { name := "b", text := "y => rout_a.w.val.bind();" }]
      { dialect := .oracle }).success = false ∧
    ((compile [{ name := "a", text := "x => rout_b.v.val.bind(); y :" },
               { name := "b", text := "y => rout_a.w.val.bind();" }]
       { dialect := .oracle }).errors.map
      (fun e => startsWithL e.message.data "Circular dependency".data)) = [false] := by
  refine ⟨by decide, by decide⟩

/-- C3 (amended): when validation and parsing succeed and the parsed
batch's dependency graph has a bind cycle, compilation fails with an empty
sql array and exactly one error whose message starts with
`Circular dependency`. -/
theorem C3_cycle_error (rbs : List RuleblockInput) (opts : CompilerOptions)
    (validated : List ValidRuleblock) (parsed : List ParsedRuleblock)
    (hv : rbs.mapM validateRuleblock = .ok validated)
    (hp : parse validated = .ok parsed)
    (hcyc : ∃ n, Relation.TransGen
      (edgeRel (buildDependencyGraph (parsed.map resolveReferences)).edges) n n) :
    (compile rbs opts).success = false ∧ (compile rbs opts).sql = [] ∧
    ((compile rbs opts).errors.map
      (fun e => startsWithL e.message.data "Circular dependency".data)) = [true] := by
  have hdet := cycle_detected _ hcyc
  cases hd : detectCircularDependencies
      (buildDependencyGraph (parsed.map resolveReferences)) with
  | none => exact absurd hd hdet
  | some cyc =>
    have hlink : link parsed =
        .error ("Circular dependency detected: " ++ strJoin " -> " cyc) := by
      unfold link
      simp only [topologicalSort, hd]
    have hcomp : compileE rbs opts =
        .error ("Circular dependency detected: " ++ strJoin " -> " cyc) := by
      unfold compileE
      rw [hv]
      show (parse validated >>= _) = _
      rw [hp]
      show (link parsed >>= _) = _
      rw [hlink]
      rfl
    have hstart : startsWithL
        ("Circular dependency detected: " ++ strJoin " -> " cyc).data
        "Circular dependency".data = true := by
      rw [startsWithL_iff]
      refine ⟨" detected: ".data ++ (strJoin " -> " cyc).data, ?_⟩
      simp only [String.data_append, List.append_assoc]
      rfl
    unfold compile
    rw [hcomp]
    exact ⟨rfl, rfl, by simp only [List.map_cons, List.map_nil, hstart]⟩

set_option maxRecDepth 1000000 in
/-- C3 witness: the amended theorem applied to a two-ruleblock batch whose
bind statements form the cycle a → b → a. -/
theorem C3_cycle_error_witness :
    ([({ name := "a", text := "x => rout_b.v.val.bind();" } : RuleblockInput),
      { name := "b", text := "y => rout_a.w.val.bind();" }].mapM validateRuleblock =
      .ok [({ name := "a", text := "x => rout_b.v.val.bind();",
              isActive := true } : ValidRuleblock),
           { name := "b", text := "y => rout_a.w.val.bind();", isActive := true }]) ∧
    (parse [({ name := "a", text := "x => rout_b.v.val.bind();",
               isActive := true } : ValidRuleblock),
            { name := "b", text := "y => rout_a.w.val.bind();", isActive := true }] =
      .ok [({ name := "a", text := "x => rout_b.v.val.bind();", isActive := true,
              rules := [.bind "x" "b" "v" "val" ["v"]] } : ParsedRuleblock),
           { name := "b", text := "y => rout_a.w.val.bind();", isActive := true,
             rules := [.bind "y" "a" "w" "val" ["w"]] }]) ∧
    ((compile [({ name := "a", text := "x => rout_b.v.val.bind();" } : RuleblockInput),
               { name := "b", text := "y => rout_a.w.val.bind();" }]
        { dialect := .oracle }).success = false ∧
     (compile [({ name := "a", text := "x => rout_b.v.val.bind();" } : RuleblockInput),
               { name := "b", text := "y => rout_a.w.val.bind();" }]
        { dialect := .oracle }).sql = [] ∧
     ((compile [({ name := "a", text := "x => rout_b.v.val.bind();" } : RuleblockInput),
                { name := "b", text := "y => rout_a.w.val.bind();" }]
        { dialect := .oracle }).errors.map
       (fun e => startsWithL e.message.data "Circular dependency".data)) = [true]) :=
  ⟨rfl, rfl,
   C3_cycle_error
     [({ name := "a", text := "x => rout_b.v.val.bind();" } : RuleblockInput),
      { name := "b", text := "y => rout_a.w.val.bind();" }]
     { dialect := .oracle }
     [({ name := "a", text := "x => rout_b.v.val.bind();",
         isActive := true } : ValidRuleblock),
      { name := "b", text := "y => rout_a.w.val.bind();", isActive := true }]
     [({ name := "a", text := "x => rout_b.v.val.bind();", isActive := true,
         rules := [.bind "x" "b" "v" "val" ["v"]] } : ParsedRuleblock),
      { name := "b", text := "y => rout_a.w.val.bind();", isActive := true,
        rules := [.bind "y" "a" "w" "val" ["w"]] }]
     rfl rfl
     ⟨"a", by
       refine Relation.TransGen.head (show edgeRel _ "a" "b" from ?_)
         (Relation.TransGen.single ?_)
       · unfold edgeRel
         decide
       · unfold edgeRel
         decide⟩⟩

/-! ## C10: non-interference of isActive and includeInactive -/

theorem validate_strip (rb : RuleblockInput) :
    validateRuleblock (stripInput rb) = (validateRuleblock rb).map eraseV := by
  unfold validateRuleblock stripInput
  by_cases h1 : validName rb.name
  · rw [if_pos h1, if_pos h1]
    by_cases h2 : rb.text.data.length ≤ 1000000
    · rw [if_pos h2, if_pos h2]; rfl
    · rw [if_neg h2, if_neg h2]; rfl
  · rw [if_neg h1, if_neg h1]; rfl

theorem mapM_map_comm {α β : Type} (f : α → Except String β) (g : α → α) (h : β → β)
    (hcomm : ∀ a, f (g a) = (f a).map h) :
    ∀ l : List α, (l.map g).mapM f = (l.mapM f).map (List.map h) := by
  intro l
  induction l with
  | nil => rfl
  | cons a as ih =>
    rw [List.map_cons, List.mapM_cons, List.mapM_cons, hcomm a, ih]
    cases f a with
    | error e => rfl
    | ok b =>
      cases as.mapM f with
      | error e => rfl
      | ok bs => rfl

theorem parse_erase_rb (v : ValidRuleblock) :
    parseRuleblock (eraseV v) = (parseRuleblock v).map eraseP := by
  unfold parseRuleblock eraseV
  cases parseStatements (segmentsOf v.name v.text) with
  | error e => rfl
  | ok rules => rfl

theorem parse_erase (l : List ValidRuleblock) :
    parse (l.map eraseV) = (parse l).map (List.map eraseP) :=
  mapM_map_comm parseRuleblock eraseV eraseP parse_erase_rb l

theorem bDG_erase (l : List ParsedRuleblock) :
    buildDependencyGraph (l.map eraseP) = buildDependencyGraph l := by
  simp only [buildDependencyGraph, List.foldl_map]
  rfl

theorem mapSet_erase (m : List (String × ParsedRuleblock)) (k : String)
    (v : ParsedRuleblock) :
    mapErase (mapSet m k v) = mapSet (mapErase m) k (eraseP v) := by
  unfold mapSet mapErase
  have hany : (List.map (fun p : String × ParsedRuleblock => (p.1, eraseP p.2)) m).any
      (fun p => p.1 = k) = m.any (fun p => p.1 = k) := by
    rw [List.any_map]
    rfl
  rw [hany]
  by_cases hc : m.any (fun p => p.1 = k)
  · rw [if_pos hc, if_pos hc]
    rw [List.map_map, List.map_map]
    apply List.map_congr_left
    intro p _
    by_cases hpk : p.1 = k
    · simp [Function.comp, hpk]
    · simp [Function.comp, hpk]
  · rw [if_neg hc, if_neg hc]
    rw [List.map_append]
    rfl

theorem rbMapOf_erase (l : List ParsedRuleblock) :
    rbMapOf (l.map eraseP) = mapErase (rbMapOf l) := by
  unfold rbMapOf
  rw [List.foldl_map]
  have : ∀ (l' : List ParsedRuleblock) (acc : List (String × ParsedRuleblock)),
      l'.foldl (fun m rb => mapSet m (eraseP rb).name (eraseP rb)) (mapErase acc) =
      mapErase (l'.foldl (fun m rb => mapSet m rb.name rb) acc) := by
    intro l'
    induction l' with
    | nil => intro acc; rfl
    | cons rb rest ih =>
      intro acc
      rw [List.foldl_cons, List.foldl_cons, ← ih (mapSet acc rb.name rb), mapSet_erase]
      rfl
  exact this l []

theorem mapGet_erase (m : List (String × ParsedRuleblock)) (n : String) :
    mapGet (mapErase m) n = (mapGet m n).map eraseP := by
  unfold mapGet mapErase
  rw [List.find?_map]
  rw [show ((fun p : String × ParsedRuleblock => decide (p.1 = n)) ∘
      fun p : String × ParsedRuleblock => (p.1, eraseP p.2)) =
    (fun p : String × ParsedRuleblock => decide (p.1 = n)) from rfl]
  cases m.find? (fun p => p.1 = n) with
  | none => rfl
  | some p => rfl

theorem visit_erase (edges : List (String × List String))
    (rbMap : List (String × ParsedRuleblock)) :
    ∀ (fuel : Nat) (name : String) (st : SortSt),
    visit fuel edges (mapErase rbMap) name (eraseSt st) =
      eraseSt (visit fuel edges rbMap name st) := by
  intro fuel
  induction fuel with
  | zero => intro name st; rfl
  | succ f ih =>
    intro name st
    rw [visit, visit]
    by_cases hv : name ∈ st.visited
    · rw [if_pos (show name ∈ (eraseSt st).visited from hv), if_pos hv]
    · rw [if_neg (show name ∉ (eraseSt st).visited from hv), if_neg hv]
      have hfold : ∀ (ds : List String) (st0 : SortSt),
          ds.foldl (fun s d => visit f edges (mapErase rbMap) d s) (eraseSt st0) =
          eraseSt (ds.foldl (fun s d => visit f edges rbMap d s) st0) := by
        intro ds
        induction ds with
        | nil => intro st0; rfl
        | cons d ds ihd =>
          intro st0
          rw [List.foldl_cons, List.foldl_cons, ih d st0, ihd]
      dsimp only
      have hrec : ({ visited := setAdd (eraseSt st).visited name, sorted := (eraseSt st).sorted } : SortSt) = eraseSt { visited := setAdd st.visited name, sorted := st.sorted } := rfl
      rw [hrec]
      rw [hfold (edgesGet edges name) { visited := setAdd st.visited name, sorted := st.sorted }]
      rw [mapGet_erase]
      cases mapGet rbMap name with
      | none => rfl
      | some rb => simp [eraseSt]

theorem topologicalSort_erase (l : List ParsedRuleblock) :
    topologicalSort (l.map eraseP) = (topologicalSort l).map (List.map eraseP) := by
  simp only [topologicalSort]
  rw [bDG_erase, rbMapOf_erase]
  cases hd : detectCircularDependencies (buildDependencyGraph l) with
  | some cyc => rfl
  | none =>
    show Except.ok _ = Except.ok _
    congr 1
    rw [List.foldl_map]
    have hfold : ∀ (l' : List ParsedRuleblock) (st : SortSt),
        l'.foldl (fun s rb =>
          visit (graphFuel (buildDependencyGraph l)) (buildDependencyGraph l).edges
            (mapErase (rbMapOf l)) (eraseP rb).name s) (eraseSt st) =
        eraseSt (l'.foldl (fun s rb =>
          visit (graphFuel (buildDependencyGraph l)) (buildDependencyGraph l).edges
            (rbMapOf l) rb.name s) st) := by
      intro l'
      induction l' with
      | nil => intro st; rfl
      | cons rb rest ihr =>
        intro st
        rw [List.foldl_cons, List.foldl_cons]
        rw [show visit (graphFuel (buildDependencyGraph l)) (buildDependencyGraph l).edges
            (mapErase (rbMapOf l)) (eraseP rb).name (eraseSt st) =
          eraseSt (visit (graphFuel (buildDependencyGraph l)) (buildDependencyGraph l).edges
            (rbMapOf l) rb.name st) from visit_erase _ _ _ _ _]
        exact ihr _
    exact congrArg SortSt.sorted (hfold l { visited := [], sorted := [] })

theorem link_erase (l : List ParsedRuleblock) :
    link (l.map eraseP) = (link l).map (List.map eraseP) := by
  unfold link
  rw [List.map_map]
  rw [show (resolveReferences ∘ eraseP) = (eraseP ∘ resolveReferences) from rfl]
  rw [← List.map_map]
  exact topologicalSort_erase (l.map resolveReferences)

theorem buildDependencyMap_erase (l : List ParsedRuleblock) :
    buildDependencyMap (l.map eraseP) = buildDependencyMap l := by
  unfold buildDependencyMap
  rw [List.foldl_map]
  rfl

theorem selectSubset_erase (l : List ParsedRuleblock) (s : List String) :
    selectSubset (l.map eraseP) s = (selectSubset l s).map eraseP := by
  unfold selectSubset
  by_cases hs : s.isEmpty
  · rw [if_pos hs, if_pos hs]
  · rw [if_neg hs, if_neg hs]
    exact List.filter_map eraseP l

theorem pruneRuleblocks_erase (l : List ParsedRuleblock)
    (pi po : Option (List String)) :
    pruneRuleblocks (l.map eraseP) pi po = (pruneRuleblocks l pi po).map eraseP := by
  unfold pruneRuleblocks
  rw [buildDependencyMap_erase]
  by_cases hc : (pi.getD []).isEmpty && (po.getD []).isEmpty
  · rw [if_pos hc, if_pos hc]
  · rw [if_neg hc, if_neg hc]
    exact List.filter_map eraseP l

theorem transform_erase (l : List ParsedRuleblock) (opts : ValidOptions) :
    transform (l.map eraseP) opts = (transform l opts).map eraseP := by
  unfold transform
  cases opts.subset with
  | none =>
    dsimp only
    cases opts.pruneInputs with
    | none =>
      cases opts.pruneOutputs with
      | none => rfl
      | some po =>
        show pruneRuleblocks (l.map eraseP) none (some po) =
          (pruneRuleblocks l none (some po)).map eraseP
        exact pruneRuleblocks_erase l none (some po)
    | some pi =>
      cases opts.pruneOutputs with
      | none =>
        show pruneRuleblocks (l.map eraseP) (some pi) none =
          (pruneRuleblocks l (some pi) none).map eraseP
        exact pruneRuleblocks_erase l (some pi) none
      | some po =>
        show pruneRuleblocks (l.map eraseP) (some pi) (some po) =
          (pruneRuleblocks l (some pi) (some po)).map eraseP
        exact pruneRuleblocks_erase l (some pi) (some po)
  | some s =>
    dsimp only
    rw [selectSubset_erase]
    cases opts.pruneInputs with
    | none =>
      cases opts.pruneOutputs with
      | none => rfl
      | some po =>
        show pruneRuleblocks ((selectSubset l s).map eraseP) none (some po) =
          (pruneRuleblocks (selectSubset l s) none (some po)).map eraseP
        exact pruneRuleblocks_erase _ none (some po)
    | some pi =>
      cases opts.pruneOutputs with
      | none =>
        show pruneRuleblocks ((selectSubset l s).map eraseP) (some pi) none =
          (pruneRuleblocks (selectSubset l s) (some pi) none).map eraseP
        exact pruneRuleblocks_erase _ (some pi) none
      | some po =>
        show pruneRuleblocks ((selectSubset l s).map eraseP) (some pi) (some po) =
          (pruneRuleblocks (selectSubset l s) (some pi) (some po)).map eraseP
        exact pruneRuleblocks_erase _ (some pi) (some po)

theorem generateSql_erase (l : List ParsedRuleblock) (d : Dialect) :
    generateSql (l.map eraseP) d = generateSql l d := by
  unfold generateSql
  have : ∀ (l' : List ParsedRuleblock),
      (l'.map eraseP).mapM (fun rb => generateSqlForRuleblock rb d) =
      l'.mapM (fun rb => generateSqlForRuleblock rb d) := by
    intro l'
    induction l' with
    | nil => rfl
    | cons rb rest ih =>
      rw [List.map_cons, List.mapM_cons, List.mapM_cons, ih]
      rfl
  exact this l

theorem mkEntries_erase (g : DepGraph) (d : Dialect) :
    ∀ (l : List ParsedRuleblock) (i : Nat),
    mkEntries g d (l.map eraseP) i = mkEntries g d l i := by
  intro l
  induction l with
  | nil => intro i; rfl
  | cons rb rest ih =>
    intro i
    rw [List.map_cons]
    show mkEntries g d (eraseP rb :: rest.map eraseP) i = _
    rw [mkEntries, mkEntries, ih]
    rfl

theorem generateManifest_erase (l : List ParsedRuleblock) (g : DepGraph) (d : Dialect) :
    generateManifest (l.map eraseP) g d = generateManifest l g d := by
  unfold generateManifest
  rw [mkEntries_erase]
  simp

theorem compileE_strip (rbs : List RuleblockInput) (opts : CompilerOptions) :
    compileE (rbs.map stripInput) (stripOpts opts) = compileE rbs opts := by
  unfold compileE
  rw [mapM_map_comm validateRuleblock stripInput eraseV validate_strip rbs]
  cases hv : rbs.mapM validateRuleblock with
  | error e => rfl
  | ok validated =>
    show (parse (validated.map eraseV) >>= _) = (parse validated >>= _)
    rw [parse_erase validated]
    cases hp : parse validated with
    | error e => rfl
    | ok parsed =>
      show (link (parsed.map eraseP) >>= _) = (link parsed >>= _)
      rw [link_erase parsed]
      cases hl : link parsed with
      | error e => rfl
      | ok linked =>
        show (generateSql (transform (linked.map eraseP) (validateOptions opts))
            opts.dialect >>= _) =
          (generateSql (transform linked (validateOptions opts)) opts.dialect >>= _)
        rw [transform_erase, generateSql_erase]
        cases generateSql (transform linked (validateOptions opts)) opts.dialect with
        | error e => rfl
        | ok sql =>
          show Except.ok (sql, generateManifest
              (transform (linked.map eraseP) (validateOptions (stripOpts opts)))
              (buildDependencyGraph
                (transform (linked.map eraseP) (validateOptions (stripOpts opts))))
              (validateOptions (stripOpts opts)).dialect) =
            Except.ok (sql, generateManifest (transform linked (validateOptions opts))
              (buildDependencyGraph (transform linked (validateOptions opts)))
              (validateOptions opts).dialect)
          have ht : transform (linked.map eraseP) (validateOptions (stripOpts opts)) =
              (transform linked (validateOptions opts)).map eraseP := by
            show transform (linked.map eraseP) (validateOptions opts) = _
            exact transform_erase linked (validateOptions opts)
          rw [ht, bDG_erase, generateManifest_erase]
          rfl

/-- C10: two compilations whose inputs differ only in the isActive flags
and/or the includeInactive option return identical results — success flag,
sql array, errors, warnings and manifest all agree. -/
theorem C10_inactive_noninterference (rbs rbs' : List RuleblockInput)
    (opts opts' : CompilerOptions)
    (h1 : rbs.map stripInput = rbs'.map stripInput)
    (h2 : stripOpts opts = stripOpts opts') :
    compile rbs opts = compile rbs' opts' := by
  unfold compile
  rw [← compileE_strip rbs opts, ← compileE_strip rbs' opts', h1, h2]

set_option maxRecDepth 1000000 in
/-- C10 witness: the theorem applied to two concrete batches differing only
in isActive and includeInactive. -/
theorem C10_inactive_noninterference_witness :
    ([inFlagged].map stripInput = [inUnflagged].map stripInput) ∧
    (stripOpts { dialect := .oracle, includeInactive := some true } =
      stripOpts { dialect := .oracle }) ∧
    compile [inFlagged] { dialect := .oracle, includeInactive := some true } =
      compile [inUnflagged] { dialect := .oracle } :=
  ⟨rfl, rfl,
   C10_inactive_noninterference [inFlagged] [inUnflagged]
     { dialect := .oracle, includeInactive := some true }
     { dialect := .oracle } rfl rfl⟩

/-! ## C1: dependency ordering of the emitted ruleblocks -/

theorem find?_map_replace_eq {α : Type} (k : String) (v : α) :
    ∀ (m : List (String × α)), (∃ p ∈ m, p.1 = k) →
    (m.map (fun p => if p.1 = k then (k, v) else p)).find? (fun p => p.1 = k) =
      some (k, v) := by
  intro m
  induction m with
  | nil => rintro ⟨p, hp, -⟩; cases hp
  | cons p m ih =>
    rintro ⟨p0, hp0, hp0k⟩
    rw [List.map_cons]
    by_cases hpk : p.1 = k
    · rw [if_pos hpk]
      rw [List.find?_cons_of_pos _ (by simp)]
    · rw [if_neg hpk]
      rw [List.find?_cons_of_neg _ (by simpa using hpk)]
      apply ih
      rcases List.mem_cons.mp hp0 with h | h
      · exact absurd (h ▸ hp0k) hpk
      · exact ⟨p0, h, hp0k⟩

theorem find?_map_replace_ne {α : Type} (k : String) (v : α) (n : String) (hn : n ≠ k) :
    ∀ (m : List (String × α)),
    (m.map (fun p => if p.1 = k then (k, v) else p)).find? (fun p => p.1 = n) =
      m.find? (fun p => p.1 = n) := by
  intro m
  induction m with
  | nil => rfl
  | cons p m ih =>
    rw [List.map_cons]
    by_cases hpk : p.1 = k
    · rw [if_pos hpk]
      rw [List.find?_cons_of_neg _ (by simpa using fun h : k = n => hn h.symm)]
      rw [List.find?_cons_of_neg _ (by
        simp only [decide_eq_true_eq]
        intro h
        exact hn (by rw [← h]; exact hpk))]
      exact ih
    · rw [if_neg hpk]
      by_cases hpn : p.1 = n
      · rw [List.find?_cons_of_pos _ (by simpa using hpn),
          List.find?_cons_of_pos _ (by simpa using hpn)]
      · rw [List.find?_cons_of_neg _ (by simpa using hpn),
          List.find?_cons_of_neg _ (by simpa using hpn)]
        exact ih

theorem mapGet_mapSet {α : Type} (m : List (String × α)) (k : String) (v : α) (n : String) :
    mapGet (mapSet m k v) n = if n = k then some v else mapGet m n := by
  unfold mapSet
  by_cases ha : m.any (fun p => p.1 = k)
  · rw [if_pos ha]
    by_cases hn : n = k
    · subst hn
      unfold mapGet
      rw [find?_map_replace_eq n v m (by simpa using List.any_eq_true.mp ha)]
      rw [if_pos rfl]
      rfl
    · unfold mapGet
      rw [find?_map_replace_ne k v n hn m, if_neg hn]
  · rw [if_neg ha]
    unfold mapGet
    rw [List.find?_append]
    by_cases hn : n = k
    · subst hn
      have hnone : m.find? (fun p => p.1 = n) = none := by
        rw [List.find?_eq_none]
        intro p hp hdec
        exact absurd (List.any_eq_true.mpr ⟨p, hp, hdec⟩) ha
      rw [hnone, if_pos rfl, Option.none_or]
      have h2 : ([(n, v)].find? (fun p => p.1 = n)) = some (n, v) := by simp [List.find?]
      rw [h2]
      rfl
    · rw [if_neg hn]
      have h1 : ([(k, v)].find? (fun p => p.1 = n)) = none := by
        simp only [List.find?]
        rw [show (decide (k = n)) = false from by
          simp only [decide_eq_false_iff_not]; exact fun h => hn h.symm]
      rw [h1, Option.or_none]

theorem foldl_rbIns_rev_none (n : String) :
    ∀ (L : List ParsedRuleblock) (acc : List (String × ParsedRuleblock)),
    L.reverse.find? (fun rb => rb.name = n) = none →
    mapGet (L.foldl (fun m rb => mapSet m rb.name rb) acc) n = mapGet acc n := by
  intro L
  induction L with
  | nil => intro acc _; rfl
  | cons rb0 rest ih =>
    intro acc h
    rw [List.reverse_cons, List.find?_append] at h
    cases hfr : rest.reverse.find? (fun rb => rb.name = n) with
    | some rb' =>
      rw [hfr] at h
      simp only [Option.or_some] at h
      exact absurd h (by simp)
    | none =>
      rw [hfr, Option.none_or] at h
      have h0 : ¬ (rb0.name = n) := by
        intro he
        rw [show ([rb0].find? (fun rb => rb.name = n)) = some rb0 from by
          simp [List.find?, he]] at h
        exact absurd h (by simp)
      rw [List.foldl_cons, ih _ hfr, mapGet_mapSet]
      rw [if_neg (fun he => h0 he.symm)]

theorem foldl_rbIns_rev_some (n : String) :
    ∀ (L : List ParsedRuleblock) (acc : List (String × ParsedRuleblock))
      (rb : ParsedRuleblock),
    L.reverse.find? (fun rb => rb.name = n) = some rb →
    mapGet (L.foldl (fun m rb => mapSet m rb.name rb) acc) n = some rb := by
  intro L
  induction L with
  | nil => intro acc rb h; simp at h
  | cons rb0 rest ih =>
    intro acc rb h
    rw [List.reverse_cons, List.find?_append] at h
    rw [List.foldl_cons]
    cases hfr : rest.reverse.find? (fun rb => rb.name = n) with
    | some rb' =>
      rw [hfr] at h
      simp only [Option.or_some] at h
      injection h with h
      subst h
      exact ih _ rb' hfr
    | none =>
      rw [hfr, Option.none_or] at h
      by_cases h0 : rb0.name = n
      · rw [show ([rb0].find? (fun rb => rb.name = n)) = some rb0 from by
          simp [List.find?, h0]] at h
        injection h with h
        subst h
        rw [foldl_rbIns_rev_none n rest _ hfr, mapGet_mapSet, if_pos h0.symm]
      · rw [show ([rb0].find? (fun rb => rb.name = n)) = none from by
          simp [List.find?, h0]] at h
        exact absurd h (by simp)

theorem foldl_edges_rev_none (n : String) :
    ∀ (L : List ParsedRuleblock) (acc : List (String × List String)),
    L.reverse.find? (fun rb => rb.name = n ∧ 0 < (bindTargets rb).length) = none →
    edgesGet (L.foldl (fun es rb =>
      if (bindTargets rb).length > 0 then mapSet es rb.name (bindTargets rb) else es)
      acc) n = edgesGet acc n := by
  intro L
  induction L with
  | nil => intro acc _; rfl
  | cons rb0 rest ih =>
    intro acc h
    rw [List.reverse_cons, List.find?_append] at h
    cases hfr : rest.reverse.find?
        (fun rb => rb.name = n ∧ 0 < (bindTargets rb).length) with
    | some rb' =>
      rw [hfr] at h
      simp only [Option.or_some] at h
      exact absurd h (by simp)
    | none =>
      rw [hfr, Option.none_or] at h
      have h0 : ¬ (rb0.name = n ∧ 0 < (bindTargets rb0).length) := by
        intro he
        rw [show ([rb0].find? (fun rb => rb.name = n ∧ 0 < (bindTargets rb).length)) =
            some rb0 from by simp [List.find?, he.1, he.2]] at h
        exact absurd h (by simp)
      rw [List.foldl_cons, ih _ hfr]
      by_cases hbt : (bindTargets rb0).length > 0
      · rw [if_pos hbt]
        unfold edgesGet
        rw [mapGet_mapSet]
        rw [if_neg (fun he : n = rb0.name => h0 ⟨he.symm, hbt⟩)]
      · rw [if_neg hbt]

theorem foldl_edges_rev_some (n : String) :
    ∀ (L : List ParsedRuleblock) (acc : List (String × List String))
      (rb : ParsedRuleblock),
    L.reverse.find? (fun rb => rb.name = n ∧ 0 < (bindTargets rb).length) = some rb →
    edgesGet (L.foldl (fun es rb =>
      if (bindTargets rb).length > 0 then mapSet es rb.name (bindTargets rb) else es)
      acc) n = bindTargets rb := by
  intro L
  induction L with
  | nil => intro acc rb h; simp at h
  | cons rb0 rest ih =>
    intro acc rb h
    rw [List.reverse_cons, List.find?_append] at h
    rw [List.foldl_cons]
    cases hfr : rest.reverse.find?
        (fun rb => rb.name = n ∧ 0 < (bindTargets rb).length) with
    | some rb' =>
      rw [hfr] at h
      simp only [Option.or_some] at h
      injection h with h
      subst h
      exact ih _ rb' hfr
    | none =>
      rw [hfr, Option.none_or] at h
      by_cases h0 : rb0.name = n ∧ 0 < (bindTargets rb0).length
      · rw [show ([rb0].find? (fun rb => rb.name = n ∧ 0 < (bindTargets rb).length)) =
            some rb0 from by simp [List.find?, h0.1, h0.2]] at h
        injection h with h
        subst h
        rw [foldl_edges_rev_none n rest _ hfr, if_pos h0.2]
        unfold edgesGet
        rw [mapGet_mapSet, if_pos h0.1.symm]
        rfl
      · rw [show ([rb0].find? (fun rb => rb.name = n ∧ 0 < (bindTargets rb).length)) =
            none from by
          simp only [List.find?]
          have hb : (decide (rb0.name = n ∧ 0 < (bindTargets rb0).length)) = false := by
            simp only [decide_eq_false_iff_not]
            exact h0
          rw [hb]] at h
        exact absurd h (by simp)

theorem find?_strengthen {α : Type} (p q : α → Bool) (himp : ∀ x, q x = true → p x = true) :
    ∀ (l : List α) (x : α), l.find? p = some x → q x = true → l.find? q = some x := by
  intro l
  induction l with
  | nil => intro x h; simp at h
  | cons y l ih =>
    intro x h hqx
    by_cases hpy : p y = true
    · rw [List.find?_cons_of_pos _ hpy] at h
      injection h with h
      subst h
      rw [List.find?_cons_of_pos _ hqx]
    · rw [List.find?_cons_of_neg _ hpy] at h
      have hqy : ¬ (q y = true) := fun hq => hpy (himp y hq)
      rw [List.find?_cons_of_neg _ hqy]
      exact ih x h hqx

theorem rbMapOf_rev_find (L : List ParsedRuleblock) (n : String) (rb : ParsedRuleblock)
    (hm : mapGet (rbMapOf L) n = some rb) :
    L.reverse.find? (fun rb => rb.name = n) = some rb := by
  cases hf : L.reverse.find? (fun rb => rb.name = n) with
  | none =>
    have hc := foldl_rbIns_rev_none n L [] hf
    rw [show mapGet (rbMapOf L) n =
      mapGet (L.foldl (fun m rb => mapSet m rb.name rb) []) n from rfl] at hm
    rw [hc] at hm
    exact absurd hm (by simp [mapGet])
  | some rb' =>
    have hc := foldl_rbIns_rev_some n L [] rb' hf
    rw [show mapGet (rbMapOf L) n =
      mapGet (L.foldl (fun m rb => mapSet m rb.name rb) []) n from rfl] at hm
    rw [hc] at hm
    injection hm with hm
    rw [hm]

theorem edgesGet_of_rbMap (L : List ParsedRuleblock) (n : String) (rb : ParsedRuleblock)
    (hm : mapGet (rbMapOf L) n = some rb) (hbt : bindTargets rb ≠ []) :
    edgesGet (buildDependencyGraph L).edges n = bindTargets rb := by
  have hf := rbMapOf_rev_find L n rb hm
  have hname : rb.name = n := by simpa using List.find?_some hf
  have hbt' : 0 < (bindTargets rb).length := by
    cases hb : bindTargets rb with
    | nil => exact absurd hb hbt
    | cons a l => simp
  have hpe : L.reverse.find? (fun rb => rb.name = n ∧ 0 < (bindTargets rb).length) =
      some rb := by
    refine find?_strengthen _ _ ?_ L.reverse rb hf ?_
    · intro x hx
      simp only [decide_eq_true_eq] at hx ⊢
      exact hx.1
    · simp only [decide_eq_true_eq]
      exact ⟨hname, hbt'⟩
  exact foldl_edges_rev_some n L (L.foldl (fun es rb => mapSet es rb.name []) []) rb hpe

theorem filter_length_mono {α : Type} (p q : α → Bool) (himp : ∀ x, q x = true → p x = true) :
    ∀ l : List α, (l.filter q).length ≤ (l.filter p).length := by
  intro l
  induction l with
  | nil => exact Nat.le_refl 0
  | cons x l ih =>
    cases hq : q x with
    | true =>
      simp only [List.filter_cons, hq, himp x hq, if_pos, List.length_cons]
      exact Nat.succ_le_succ ih
    | false =>
      simp only [List.filter_cons, hq]
      cases hp : p x with
      | true =>
        simp only [if_pos, if_neg, Bool.false_eq_true, List.length_cons]
        exact Nat.le_succ_of_le ih
      | false =>
        simp only [Bool.false_eq_true, if_neg]
        exact ih

theorem filter_length_lt {α : Type} (p q : α → Bool) (himp : ∀ x, q x = true → p x = true)
    (n : α) (hpn : p n = true) (hqn : q n = false) :
    ∀ l : List α, n ∈ l → (l.filter q).length < (l.filter p).length := by
  intro l
  induction l with
  | nil => intro h; cases h
  | cons x l ih =>
    intro hn
    rcases List.mem_cons.mp hn with h | h
    · subst h
      simp only [List.filter_cons, hqn, hpn, Bool.false_eq_true, if_neg, if_pos,
        List.length_cons]
      exact Nat.lt_succ_of_le (filter_length_mono p q himp l)
    · cases hq : q x with
      | true =>
        simp only [List.filter_cons, hq, himp x hq, if_pos, List.length_cons]
        exact Nat.succ_lt_succ (ih h)
      | false =>
        simp only [List.filter_cons, hq, Bool.false_eq_true, if_neg]
        cases hp : p x with
        | true =>
          simp only [if_pos, List.length_cons]
          exact Nat.lt_succ_of_lt (ih h)
        | false =>
          simp only [Bool.false_eq_true, if_neg]
          exact ih h

theorem unvisitedCount_mono (U : List String) (v1 v2 : List String)
    (h : ∀ x ∈ v1, x ∈ v2) : unvisitedCount U v2 ≤ unvisitedCount U v1 :=
  filter_length_mono _ _ (by
    intro x hx
    simp only [decide_eq_true_eq] at hx ⊢
    exact fun hc => hx (h x hc)) U

theorem unvisitedCount_mark (U : List String) (vis : List String) (name : String)
    (hU : name ∈ U) (hv : name ∉ vis) :
    unvisitedCount U (setAdd vis name) < unvisitedCount U vis := by
  refine filter_length_lt _ _ ?_ name ?_ ?_ U hU
  · intro x hx
    simp only [decide_eq_true_eq] at hx ⊢
    exact fun hc => hx ((mem_setAdd vis name x).mpr (Or.inl hc))
  · simp only [decide_eq_true_eq]
    exact hv
  · simp only [decide_eq_false_iff_not]
    exact fun hc => hc ((mem_setAdd vis name name).mpr (Or.inr rfl))

theorem unvisitedCount_le (U vis : List String) : unvisitedCount U vis ≤ U.length :=
  List.length_filter_le _ U

theorem edgesGet_mem_flatten (es : List (String × List String)) (a b : String)
    (h : b ∈ edgesGet es a) : b ∈ (es.map (fun p => p.2)).flatten := by
  unfold edgesGet mapGet at h
  cases hf : es.find? (fun p => p.1 = a) with
  | none => rw [hf] at h; cases h
  | some p =>
    rw [hf] at h
    simp only [Option.map_some', Option.getD_some] at h
    exact List.mem_flatten.mpr ⟨p.2, List.mem_map_of_mem _ (List.mem_of_find?_eq_some hf), h⟩

theorem mapSet_pairs {α : Type} (Q : String × α → Prop) (m : List (String × α))
    (k : String) (v : α) (hm : ∀ p ∈ m, Q p) (hk : Q (k, v)) :
    ∀ p ∈ mapSet m k v, Q p := by
  intro p hp
  unfold mapSet at hp
  split at hp
  · rcases List.mem_map.mp hp with ⟨q, hq, hqe⟩
    by_cases hqk : q.1 = k
    · rw [if_pos hqk] at hqe; rw [← hqe]; exact hk
    · rw [if_neg hqk] at hqe; rw [← hqe]; exact hm q hq
  · rcases List.mem_append.mp hp with hq | hq
    · exact hm p hq
    · simp only [List.mem_singleton] at hq; rw [hq]; exact hk

theorem rbMapOf_pairs (rbs : List ParsedRuleblock) :
    ∀ p ∈ rbMapOf rbs, p.2.name = p.1 := by
  have hfold : ∀ (l : List ParsedRuleblock) (acc : List (String × ParsedRuleblock)),
      (∀ p ∈ acc, p.2.name = p.1) →
      ∀ p ∈ l.foldl (fun m rb => mapSet m rb.name rb) acc, p.2.name = p.1 := by
    intro l
    induction l with
    | nil => intro acc h; exact h
    | cons rb rest ih =>
      intro acc h
      exact ih _ (mapSet_pairs _ acc rb.name rb h rfl)
  exact hfold rbs [] (by intro p hp; cases hp)

theorem rbMapOf_name (rbs : List ParsedRuleblock) (n : String) (rb : ParsedRuleblock)
    (h : mapGet (rbMapOf rbs) n = some rb) : rb.name = n := by
  unfold mapGet at h
  cases hf : (rbMapOf rbs).find? (fun p => p.1 = n) with
  | none => rw [hf] at h; exact absurd h (by simp)
  | some p =>
    rw [hf] at h
    have h1 : p.1 = n := by simpa using List.find?_some hf
    have h2 := rbMapOf_pairs rbs p (List.mem_of_find?_eq_some hf)
    simp only [Option.map_some'] at h
    injection h with h
    rw [← h, h2, h1]

theorem snoc_eq_append_cons {α : Type} (l : List α) (x a : α) (l1 l2 : List α)
    (h : l ++ [x] = l1 ++ a :: l2) :
    (∃ l2', l = l1 ++ a :: l2' ∧ l2 = l2' ++ [x]) ∨ (l1 = l ∧ a = x ∧ l2 = []) := by
  rcases List.append_eq_append_iff.mp h with ⟨t, ht1, ht2⟩ | ⟨t, ht1, ht2⟩
  · cases t with
    | nil =>
      simp only [List.nil_append] at ht2
      injection ht2 with h1 h2
      exact Or.inr ⟨by rw [ht1]; simp, h1.symm, h2.symm⟩
    | cons t0 t' =>
      rw [List.cons_append] at ht2
      injection ht2 with h1 h2
      exact absurd h2.symm (List.append_ne_nil_of_right_ne_nil t' (by simp))
  · cases t with
    | nil =>
      simp only [List.append_nil] at ht1
      injection ht2 with h1 h2
      exact Or.inr ⟨ht1.symm, h1, h2⟩
    | cons t0 t' =>
      rw [List.cons_append] at ht2
      injection ht2 with h1 h2
      exact Or.inl ⟨t', by rw [ht1, h1], h2⟩

theorem filter_split {α : Type} (q : α → Bool) :
    ∀ (l t1 t2 : List α) (a : α), l.filter q = t1 ++ a :: t2 →
    ∃ l1 l2, l = l1 ++ a :: l2 ∧ t1 = l1.filter q ∧ t2 = l2.filter q := by
  intro l
  induction l with
  | nil =>
    intro t1 t2 a h
    rw [List.filter_nil] at h
    exact absurd h.symm (List.append_ne_nil_of_right_ne_nil _ (by simp))
  | cons x l ih =>
    intro t1 t2 a h
    rw [List.filter_cons] at h
    by_cases hx : q x
    · rw [if_pos hx] at h
      cases t1 with
      | nil =>
        simp only [List.nil_append] at h
        injection h with h1 h2
        exact ⟨[], l, by rw [h1]; rfl, by simp, h2.symm⟩
      | cons y t1' =>
        rw [List.cons_append] at h
        injection h with h1 h2
        obtain ⟨l1, l2, hl, he1, he2⟩ := ih t1' t2 a h2
        refine ⟨x :: l1, l2, by rw [hl]; rfl, ?_, he2⟩
        rw [List.filter_cons, if_pos hx, ← he1, h1]
    · rw [if_neg hx] at h
      obtain ⟨l1, l2, hl, he1, he2⟩ := ih t1 t2 a h
      refine ⟨x :: l1, l2, by rw [hl]; rfl, ?_, he2⟩
      rw [List.filter_cons, if_neg hx, ← he1]

theorem visit_spec (edges : List (String × List String))
    (rbMap : List (String × ParsedRuleblock)) (U : List String)
    (hU : ∀ a b, b ∈ edgesGet edges a → b ∈ U)
    (hnm : ∀ n rb, mapGet rbMap n = some rb → rb.name = n)
    (hacyc : ∀ n, ¬ Relation.TransGen (edgeRel edges) n n) :
    ∀ (fuel : Nat) (name : String) (st : SortSt),
    name ∈ U →
    unvisitedCount U st.visited + 1 ≤ fuel →
    SortInv edges rbMap st →
    GreyReach edges rbMap st name →
    SortInv edges rbMap (visit fuel edges rbMap name st) ∧
    (∀ x ∈ st.visited, x ∈ (visit fuel edges rbMap name st).visited) ∧
    st.sorted <+: (visit fuel edges rbMap name st).sorted ∧
    (∀ g ∈ (visit fuel edges rbMap name st).visited,
      g ∉ placedNames (visit fuel edges rbMap name st) →
      (g ∈ st.visited ∧ g ∉ placedNames st) ∨ mapGet rbMap g = none) ∧
    (∀ x ∈ placedNames (visit fuel edges rbMap name st),
      x ∈ placedNames st ∨ x ∉ st.visited) ∧
    name ∈ (visit fuel edges rbMap name st).visited ∧
    (name ∈ placedNames (visit fuel edges rbMap name st) ∨ mapGet rbMap name = none ∨
      (name ∈ st.visited ∧ name ∉ placedNames st)) := by
  intro fuel
  induction fuel with
  | zero =>
    intro name st _ hfuel _ _
    exact absurd hfuel (by omega)
  | succ f ih =>
    intro name st hnU hfuel hinv hgrey
    rw [visit]
    by_cases hv : name ∈ st.visited
    · rw [if_pos hv]
      refine ⟨hinv, fun x hx => hx, List.prefix_refl _,
        fun g hg hgp => Or.inl ⟨hg, hgp⟩, fun x hx => Or.inl hx, hv, ?_⟩
      by_cases hp : name ∈ placedNames st
      · exact Or.inl hp
      · exact Or.inr (Or.inr ⟨hv, hp⟩)
    · rw [if_neg hv]
      dsimp only
      have hcnt1 : unvisitedCount U (setAdd st.visited name) + 1 ≤ f := by
        have h1 := unvisitedCount_mark U st.visited name hnU hv
        omega
      have hfold : ∀ (ds : List String), (∀ d ∈ ds, d ∈ edgesGet edges name) →
          ∀ (s : SortSt),
          SortInv edges rbMap s →
          (∀ x ∈ setAdd st.visited name, x ∈ s.visited) →
          st.sorted <+: s.sorted →
          (∀ g ∈ s.visited, g ∉ placedNames s →
            (g ∈ setAdd st.visited name ∧ g ∉ placedNames st) ∨ mapGet rbMap g = none) →
          (∀ x ∈ placedNames s, x ∈ placedNames st ∨ x ∉ setAdd st.visited name) →
          SortInv edges rbMap (ds.foldl (fun s d => visit f edges rbMap d s) s) ∧
          (∀ x ∈ s.visited,
            x ∈ (ds.foldl (fun s d => visit f edges rbMap d s) s).visited) ∧
          s.sorted <+: (ds.foldl (fun s d => visit f edges rbMap d s) s).sorted ∧
          (∀ g ∈ (ds.foldl (fun s d => visit f edges rbMap d s) s).visited,
            g ∉ placedNames (ds.foldl (fun s d => visit f edges rbMap d s) s) →
            (g ∈ setAdd st.visited name ∧ g ∉ placedNames st) ∨ mapGet rbMap g = none) ∧
          (∀ x ∈ placedNames (ds.foldl (fun s d => visit f edges rbMap d s) s),
            x ∈ placedNames st ∨ x ∉ setAdd st.visited name) ∧
          (∀ d ∈ ds, d ∈ placedNames (ds.foldl (fun s d => visit f edges rbMap d s) s) ∨
            mapGet rbMap d = none) := by
        intro ds
        induction ds with
        | nil =>
          intro _ s hsinv hsvis hspre hsgrey hsplaced
          exact ⟨hsinv, fun x hx => hx, List.prefix_refl _, hsgrey, hsplaced,
            by intro d hd; cases hd⟩
        | cons d ds ihd =>
          intro hds s hsinv hsvis hspre hsgrey hsplaced
          rw [List.foldl_cons]
          have hde : d ∈ edgesGet edges name := hds d (List.mem_cons_self d ds)
          have hdU : d ∈ U := hU name d hde
          have hscnt : unvisitedCount U s.visited + 1 ≤ f := by
            have h2 : unvisitedCount U s.visited ≤
                unvisitedCount U (setAdd st.visited name) :=
              unvisitedCount_mono U _ _ hsvis
            omega
          have hgreyd : GreyReach edges rbMap s d := by
            intro g hg hgp
            rcases hsgrey g hg hgp with ⟨hg1, hgp0⟩ | hnone
            · rcases (mem_setAdd st.visited name g).mp hg1 with hg0 | hg0
              · rcases hgrey g hg0 hgp0 with hnone | hreach
                · exact Or.inl hnone
                · exact Or.inr (hreach.tail hde)
              · rw [hg0]
                exact Or.inr (Relation.ReflTransGen.single hde)
            · exact Or.inl hnone
          obtain ⟨h2inv, h2vis, h2pre, h2grey, h2placed, h2dvis, h2dres⟩ :=
            ih d s hdU hscnt hsinv hgreyd
          have hdstat : d ∈ placedNames (visit f edges rbMap d s) ∨
              mapGet rbMap d = none := by
            rcases h2dres with h | h | hgreyS
            · exact Or.inl h
            · exact Or.inr h
            · rcases hsgrey d hgreyS.1 hgreyS.2 with ⟨hd1, hdp0⟩ | hnone
              · rcases (mem_setAdd st.visited name d).mp hd1 with hd0 | hd0
                · rcases hgrey d hd0 hdp0 with hnone | hreach
                  · exact Or.inr hnone
                  · exact absurd (Relation.TransGen.tail' hreach hde) (hacyc d)
                · refine absurd (Relation.TransGen.single ?_) (hacyc d)
                  show edgeRel edges d d
                  unfold edgeRel
                  rw [hd0]
                  exact hd0 ▸ hde
              · exact Or.inr hnone
          obtain ⟨hfinv, hfvis, hfpre, hfgrey, hfplaced, hfall⟩ :=
            ihd (fun d' hd' => hds d' (List.mem_cons_of_mem d hd'))
              (visit f edges rbMap d s)
              h2inv
              (fun x hx => h2vis x (hsvis x hx))
              (hspre.trans h2pre)
              (by
                intro g hg hgp
                rcases h2grey g hg hgp with ⟨hg1, hgp1⟩ | hnone
                · exact hsgrey g hg1 hgp1
                · exact Or.inr hnone)
              (by
                intro x hx
                rcases h2placed x hx with hx1 | hx1
                · exact hsplaced x hx1
                · exact Or.inr (fun hc => hx1 (hsvis x hc)))
          refine ⟨hfinv, fun x hx => hfvis x (h2vis x hx), h2pre.trans hfpre,
            hfgrey, hfplaced, ?_⟩
          intro d' hd'
          rcases List.mem_cons.mp hd' with hd' | hd'
          · rw [hd']
            rcases hdstat with h | h
            · exact Or.inl ((hfpre.map (fun rb => rb.name)).subset h)
            · exact Or.inr h
          · exact hfall d' hd'
      have hst1inv : SortInv edges rbMap { st with visited := setAdd st.visited name } := by
        obtain ⟨h1, h2, h3, h4⟩ := hinv
        exact ⟨h1, h2,
          fun n hn => (mem_setAdd st.visited name n).mpr (Or.inl (h3 n hn)), h4⟩
      obtain ⟨hFinv, hFvis, hFpre, hFgrey, hFplaced, hFall⟩ :=
        hfold (edgesGet edges name) (fun d hd => hd)
          { st with visited := setAdd st.visited name }
          hst1inv (fun x hx => hx) (List.prefix_refl _)
          (fun g hg hgp => Or.inl ⟨hg, hgp⟩)
          (fun x hx => Or.inl hx)
      cases hmg : mapGet rbMap name with
      | none =>
        dsimp only
        have hfin0 : ∀ (X : SortSt),
            SortInv edges rbMap X →
            (∀ x ∈ setAdd st.visited name, x ∈ X.visited) →
            st.sorted <+: X.sorted →
            (∀ g ∈ X.visited, g ∉ placedNames X →
              (g ∈ setAdd st.visited name ∧ g ∉ placedNames st) ∨
                mapGet rbMap g = none) →
            (∀ x ∈ placedNames X, x ∈ placedNames st ∨ x ∉ setAdd st.visited name) →
            SortInv edges rbMap X ∧
            (∀ x ∈ st.visited, x ∈ X.visited) ∧
            st.sorted <+: X.sorted ∧
            (∀ g ∈ X.visited, g ∉ placedNames X →
              (g ∈ st.visited ∧ g ∉ placedNames st) ∨ mapGet rbMap g = none) ∧
            (∀ x ∈ placedNames X, x ∈ placedNames st ∨ x ∉ st.visited) ∧
            name ∈ X.visited ∧
            (name ∈ placedNames X ∨ (none : Option ParsedRuleblock) = none ∨
              (name ∈ st.visited ∧ name ∉ placedNames st)) := by
          intro X hXinv hXvis hXpre hXgrey hXplaced
          refine ⟨hXinv,
            fun x hx => hXvis x ((mem_setAdd st.visited name x).mpr (Or.inl hx)),
            hXpre, ?_, ?_,
            hXvis name ((mem_setAdd st.visited name name).mpr (Or.inr rfl)),
            Or.inr (Or.inl rfl)⟩
          · intro g hg hgp
            rcases hXgrey g hg hgp with ⟨hg1, hgp1⟩ | hnone
            · rcases (mem_setAdd st.visited name g).mp hg1 with hg0 | hg0
              · exact Or.inl ⟨hg0, hgp1⟩
              · exact Or.inr (hg0.symm ▸ hmg)
            · exact Or.inr hnone
          · intro x hx
            rcases hXplaced x hx with hx1 | hx1
            · exact Or.inl hx1
            · exact Or.inr
                (fun hc => hx1 ((mem_setAdd st.visited name x).mpr (Or.inl hc)))
        exact hfin0 _ hFinv hFvis hFpre hFgrey hFplaced
      | some rb =>
        dsimp only
        have hrbname : rb.name = name := hnm name rb hmg
        have hfin : ∀ (X : SortSt),
            SortInv edges rbMap X →
            (∀ x ∈ setAdd st.visited name, x ∈ X.visited) →
            st.sorted <+: X.sorted →
            (∀ g ∈ X.visited, g ∉ placedNames X →
              (g ∈ setAdd st.visited name ∧ g ∉ placedNames st) ∨
                mapGet rbMap g = none) →
            (∀ x ∈ placedNames X, x ∈ placedNames st ∨ x ∉ setAdd st.visited name) →
            (∀ d ∈ edgesGet edges name, d ∈ placedNames X ∨ mapGet rbMap d = none) →
            SortInv edges rbMap ({ visited := X.visited, sorted := X.sorted ++ [rb] } : SortSt) ∧
            (∀ x ∈ st.visited, x ∈ X.visited) ∧
            st.sorted <+: X.sorted ++ [rb] ∧
            (∀ g ∈ X.visited,
              g ∉ placedNames ({ visited := X.visited, sorted := X.sorted ++ [rb] } : SortSt) →
              (g ∈ st.visited ∧ g ∉ placedNames st) ∨ mapGet rbMap g = none) ∧
            (∀ x ∈ placedNames ({ visited := X.visited, sorted := X.sorted ++ [rb] } : SortSt),
              x ∈ placedNames st ∨ x ∉ st.visited) ∧
            name ∈ X.visited ∧
            (name ∈ placedNames ({ visited := X.visited, sorted := X.sorted ++ [rb] } : SortSt) ∨
              (some rb : Option ParsedRuleblock) = none ∨
              (name ∈ st.visited ∧ name ∉ placedNames st)) := by
          intro X hXinv hXvis hXpre hXgrey hXplaced hXall
          have hnamevis : name ∈ X.visited :=
            hXvis name ((mem_setAdd st.visited name name).mpr (Or.inr rfl))
          have hnp : name ∉ placedNames X := by
            intro hc
            rcases hXplaced name hc with h | h
            · exact hv (hinv.2.2.1 name h)
            · exact h ((mem_setAdd st.visited name name).mpr (Or.inr rfl))
          have hplEq :
              placedNames ({ visited := X.visited, sorted := X.sorted ++ [rb] } : SortSt) =
              placedNames X ++ [name] := by
            show (X.sorted ++ [rb]).map (fun rb => rb.name) = _
            rw [List.map_append]
            rw [show ([rb].map (fun rb => rb.name)) = [name] from by
              rw [List.map_cons, List.map_nil, hrbname]]
            rfl
          have hnodup :
              (placedNames ({ visited := X.visited, sorted := X.sorted ++ [rb] } : SortSt)).Nodup := by
            rw [hplEq, List.nodup_append]
            exact ⟨hXinv.1, List.nodup_singleton name, by simpa using hnp⟩
          have hmem2 : ∀ rb' ∈ X.sorted ++ [rb], mapGet rbMap rb'.name = some rb' := by
            intro rb' hrb'
            rcases List.mem_append.mp hrb' with h | h
            · exact hXinv.2.1 rb' h
            · simp only [List.mem_singleton] at h
              rw [h, hrbname, hmg]
          have hpv2 : ∀ n ∈
              placedNames ({ visited := X.visited, sorted := X.sorted ++ [rb] } : SortSt),
              n ∈ X.visited := by
            intro n hn
            rw [hplEq] at hn
            rcases List.mem_append.mp hn with h | h
            · exact hXinv.2.2.1 n h
            · simp only [List.mem_singleton] at h
              rw [h]
              exact hnamevis
          have hdep2 : ∀ l1 a l2, X.sorted ++ [rb] = l1 ++ a :: l2 →
              ∀ b ∈ edgesGet edges a.name,
              b ∈ l1.map (fun rb => rb.name) ∨ mapGet rbMap b = none := by
            intro l1 a l2 hsplit b hb
            rcases snoc_eq_append_cons X.sorted rb a l1 l2 hsplit with
              ⟨l2', hl, -⟩ | ⟨hl1, hax, -⟩
            · exact hXinv.2.2.2 l1 a l2' hl b hb
            · rw [hax, hrbname] at hb
              rcases hXall b hb with h | h
              · rw [hl1]
                exact Or.inl h
              · exact Or.inr h
          refine ⟨⟨hnodup, hmem2, hpv2, hdep2⟩,
            fun x hx => hXvis x ((mem_setAdd st.visited name x).mpr (Or.inl hx)),
            hXpre.trans ⟨[rb], rfl⟩, ?_, ?_, hnamevis,
            Or.inl (by
              rw [hplEq]
              exact List.mem_append_right _ (List.mem_singleton.mpr rfl))⟩
          · intro g hg hgp
            have hgp' : g ∉ placedNames X := by
              intro hc
              exact hgp (by rw [hplEq]; exact List.mem_append_left _ hc)
            rcases hXgrey g hg hgp' with ⟨hg1, hgp1⟩ | hnone
            · rcases (mem_setAdd st.visited name g).mp hg1 with hg0 | hg0
              · exact Or.inl ⟨hg0, hgp1⟩
              · exact absurd (by
                  rw [hplEq, hg0]
                  exact List.mem_append_right _ (List.mem_singleton.mpr rfl)) hgp
            · exact Or.inr hnone
          · intro x hx
            rw [hplEq] at hx
            rcases List.mem_append.mp hx with h | h
            · rcases hXplaced x h with hx1 | hx1
              · exact Or.inl hx1
              · exact Or.inr
                  (fun hc => hx1 ((mem_setAdd st.visited name x).mpr (Or.inl hc)))
            · simp only [List.mem_singleton] at h
              rw [h]
              exact Or.inr hv
        exact hfin _ hFinv hFvis hFpre hFgrey hFplaced hFall

theorem sortFold_spec (edges : List (String × List String))
    (rbMap : List (String × ParsedRuleblock)) (U : List String) (fuel : Nat)
    (hU : ∀ a b, b ∈ edgesGet edges a → b ∈ U)
    (hnm : ∀ n rb, mapGet rbMap n = some rb → rb.name = n)
    (hacyc : ∀ n, ¬ Relation.TransGen (edgeRel edges) n n)
    (hfuel : U.length + 1 ≤ fuel) :
    ∀ (l : List ParsedRuleblock) (st : SortSt),
    (∀ rb ∈ l, rb.name ∈ U) →
    SortInv edges rbMap st →
    (∀ g ∈ st.visited, g ∉ placedNames st → mapGet rbMap g = none) →
    SortInv edges rbMap (l.foldl (fun s rb => visit fuel edges rbMap rb.name s) st) ∧
    (∀ g ∈ (l.foldl (fun s rb => visit fuel edges rbMap rb.name s) st).visited,
      g ∉ placedNames (l.foldl (fun s rb => visit fuel edges rbMap rb.name s) st) →
      mapGet rbMap g = none) := by
  intro l
  induction l with
  | nil => intro st _ hinv habs; exact ⟨hinv, habs⟩
  | cons rb rest ih =>
    intro st hl hinv habs
    rw [List.foldl_cons]
    have hn : rb.name ∈ U := hl rb (List.mem_cons_self rb rest)
    have hcnt : unvisitedCount U st.visited + 1 ≤ fuel := by
      have := unvisitedCount_le U st.visited
      omega
    have hgrey : GreyReach edges rbMap st rb.name := by
      intro g hg hgp
      exact Or.inl (habs g hg hgp)
    obtain ⟨h1, h2, h3, h4, h5, h6, h7⟩ :=
      visit_spec edges rbMap U hU hnm hacyc fuel rb.name st hn hcnt hinv hgrey
    refine ih _ (fun rb' h' => hl rb' (List.mem_cons_of_mem rb h')) h1 ?_
    intro g hg hgp
    rcases h4 g hg hgp with ⟨hg1, hgp1⟩ | hnone
    · exact habs g hg1 hgp1
    · exact hnone

theorem topologicalSort_ok_inv (rbs sorted : List ParsedRuleblock)
    (h : topologicalSort rbs = .ok sorted) :
    (sorted.map (fun rb => rb.name)).Nodup ∧
    (∀ rb ∈ sorted, mapGet (rbMapOf rbs) rb.name = some rb) ∧
    (∀ l1 a l2, sorted = l1 ++ a :: l2 →
      ∀ b ∈ edgesGet (buildDependencyGraph rbs).edges a.name,
      b ∈ l1.map (fun rb => rb.name) ∨ mapGet (rbMapOf rbs) b = none) ∧
    (∀ n, ¬ Relation.TransGen (edgeRel (buildDependencyGraph rbs).edges) n n) := by
  cases hd : detectCircularDependencies (buildDependencyGraph rbs) with
  | some cyc =>
    rw [show topologicalSort rbs = .error ("Circular dependency detected: " ++
      strJoin " -> " cyc) from by simp only [topologicalSort, hd]] at h
    exact absurd h (by simp)
  | none =>
    have hacyc : ∀ n, ¬ Relation.TransGen
        (edgeRel (buildDependencyGraph rbs).edges) n n :=
      fun n hn => (cycle_detected rbs ⟨n, hn⟩) hd
    rw [show topologicalSort rbs = .ok ((rbs.foldl (fun s rb =>
        visit (graphFuel (buildDependencyGraph rbs)) (buildDependencyGraph rbs).edges
          (rbMapOf rbs) rb.name s) { visited := [], sorted := [] }).sorted) from by
      simp only [topologicalSort, hd]] at h
    injection h with hsorted
    have hU : ∀ a b, b ∈ edgesGet (buildDependencyGraph rbs).edges a →
        b ∈ (buildDependencyGraph rbs).nodes ++
          ((buildDependencyGraph rbs).edges.map (fun p => p.2)).flatten :=
      fun a b hb => List.mem_append_right _ (edgesGet_mem_flatten _ a b hb)
    have hinv0 : SortInv (buildDependencyGraph rbs).edges (rbMapOf rbs)
        { visited := [], sorted := [] } := by
      refine ⟨List.nodup_nil, ?_, ?_, ?_⟩
      · intro rb hrb; cases hrb
      · intro n hn; cases hn
      · intro l1 a l2 hsplit
        exact absurd hsplit.symm (List.append_ne_nil_of_right_ne_nil _ (by simp))
    obtain ⟨⟨hN, hM, hPV, hD⟩, -⟩ :=
      sortFold_spec (buildDependencyGraph rbs).edges (rbMapOf rbs)
        ((buildDependencyGraph rbs).nodes ++
          ((buildDependencyGraph rbs).edges.map (fun p => p.2)).flatten)
        (graphFuel (buildDependencyGraph rbs))
        hU (fun n rb hr => rbMapOf_name rbs n rb hr) hacyc (Nat.le_refl _)
        rbs { visited := [], sorted := [] }
        (fun rb hrb => List.mem_append_left _ (foldl_setAddName_mem rbs [] rb hrb))
        hinv0 (fun g hg => absurd hg (by intro hc; cases hc))
    refine ⟨?_, ?_, ?_, hacyc⟩
    · rw [← hsorted]
      exact hN
    · exact fun rb hrb => hM rb (hsorted.symm ▸ hrb)
    · exact fun l1 a l2 hs => hD l1 a l2 (hsorted.trans hs)

set_option maxRecDepth 1000000 in
/-- C1 counterexample (stability clause): in the batch `a` (binds `c`),
`b`, `c`, the ruleblocks `b` and `c` have no dependency relation (both
adjacency rows are empty), and the input places `b` before `c`; yet the
emitted order is `c`, `a`, `b`, with `c` before `b` — the relative order
of unrelated ruleblocks is not the input order. -/
theorem C1_counterexample :
    ((compile [inBindsC, inPlainB, inPlainC] { dialect := .oracle }).manifest.map
      (fun m => m.entries.map (fun e => e.ruleblockId))) = some ["c", "a", "b"] ∧
    ((compile [inBindsC, inPlainB, inPlainC] { dialect := .oracle }).manifest.map
      (fun m => m.dependencyGraph)) =
      some [("c", []), ("a", ["c"]), ("b", [])] := by
  refine ⟨by decide, by decide⟩

/-- C1 (amended): for every successful compilation, whenever entry `i`'s
dependencies contain entry `j`'s ruleblock id (entry `i` has a bind rule
naming entry `j`'s ruleblock), entry `j` comes strictly first, and the sql
array is index-aligned with the entries; the stability clause of the claim
is false (see the counterexample). -/
theorem C1_dependency_order (rbs : List RuleblockInput) (opts : CompilerOptions)
    (sql : List String) (m : Manifest) (i j : Nat)
    (hc : compileE rbs opts = .ok (sql, m))
    (hi : i < m.entries.length) (hj : j < m.entries.length)
    (hdep : (m.entries.getD j entryD).ruleblockId ∈
      (m.entries.getD i entryD).dependencies) :
    j < i ∧ sql.length = m.entries.length := by
  obtain ⟨validated, parsed, linked, hv, hp, hl, hs, hm⟩ :=
    compileE_ok_elim rbs opts sql m hc
  obtain ⟨hnd, hmem, hord, hacyc⟩ :=
    topologicalSort_ok_inv (parsed.map resolveReferences) linked
      (show topologicalSort (parsed.map resolveReferences) = .ok linked from hl)
  subst hm
  have hme : (generateManifest (transform linked (validateOptions opts))
      (buildDependencyGraph (transform linked (validateOptions opts)))
      (validateOptions opts).dialect).entries =
      mkEntries (buildDependencyGraph (transform linked (validateOptions opts)))
        (validateOptions opts).dialect (transform linked (validateOptions opts)) 0 := rfl
  rw [hme, mkEntries_length] at hi hj
  rw [hme, mkEntries_getD _ _ _ 0 i hi, mkEntries_getD _ _ _ 0 j hj] at hdep
  dsimp only at hdep
  refine ⟨?_, ?_⟩
  · obtain ⟨q, hq⟩ := transform_eq_filter linked (validateOptions opts)
    rw [hq] at hdep hi hj
    have hTnd : ((linked.filter q).map (fun rb => rb.name)).Nodup :=
      hnd.sublist ((List.filter_sublist linked).map (fun rb => rb.name))
    have haT : (linked.filter q).getD i rbD ∈ linked.filter q := by
      rw [List.getD_eq_getElem _ _ hi]
      exact List.getElem_mem hi
    have hbT : (linked.filter q).getD j rbD ∈ linked.filter q := by
      rw [List.getD_eq_getElem _ _ hj]
      exact List.getElem_mem hj
    have hG : edgesGet (buildDependencyGraph (linked.filter q)).edges
        ((linked.filter q).getD i rbD).name =
        bindTargets ((linked.filter q).getD i rbD) := by
      rw [edges_eq_of_nodup _ hTnd]
      exact edgesGet_map_name bindTargets _ hTnd _ haT
    rw [hG] at hdep
    have haL : (linked.filter q).getD i rbD ∈ linked := List.mem_of_mem_filter haT
    have hbL : (linked.filter q).getD j rbD ∈ linked := List.mem_of_mem_filter hbT
    have hma := hmem _ haL
    have hbtne : bindTargets ((linked.filter q).getD i rbD) ≠ [] := by
      intro hz
      rw [hz] at hdep
      cases hdep
    have hEa := edgesGet_of_rbMap (parsed.map resolveReferences) _ _ hma hbtne
    have hsplitT : linked.filter q =
        (linked.filter q).take i ++
          ((linked.filter q).getD i rbD) :: (linked.filter q).drop (i + 1) := by
      conv_lhs => rw [← List.take_append_drop i (linked.filter q)]
      rw [List.drop_eq_getElem_cons hi, List.getD_eq_getElem _ _ hi]
    obtain ⟨l1, l2, hlsplit, ht1, ht2⟩ := filter_split q linked _ _ _ hsplitT
    have horda := hord l1 _ l2 hlsplit _ (hEa.symm ▸ hdep)
    rcases horda with hbmem | hnone
    · obtain ⟨x, hxl1, hxname⟩ := List.mem_map.mp hbmem
      have hxL : x ∈ linked := by
        rw [hlsplit]
        exact List.mem_append_left _ hxl1
      have hxbb : x = (linked.filter q).getD j rbD :=
        List.inj_on_of_nodup_map hnd hxL hbL hxname
      have hqbb : q ((linked.filter q).getD j rbD) = true := List.of_mem_filter hbT
      have hbbt1 : (linked.filter q).getD j rbD ∈ (linked.filter q).take i := by
        rw [ht1]
        exact List.mem_filter.mpr ⟨hxbb ▸ hxl1, hqbb⟩
      obtain ⟨k, hk, hkeq⟩ := List.mem_iff_getElem.mp hbbt1
      have hki : k < i := by
        rw [List.length_take] at hk
        omega
      have hkT : k < (linked.filter q).length := by
        rw [List.length_take] at hk
        omega
      rw [List.getElem_take] at hkeq
      have hnames : ((linked.filter q).map (fun rb => rb.name)).get
            ⟨k, by simpa using hkT⟩ =
          ((linked.filter q).map (fun rb => rb.name)).get ⟨j, by simpa using hj⟩ := by
        rw [List.get_eq_getElem, List.get_eq_getElem, List.getElem_map, List.getElem_map,
          hkeq, List.getD_eq_getElem _ _ hj]
      have hkj : k = j := by
        have hfin := (List.Nodup.get_inj_iff hTnd).mp hnames
        simpa using hfin
      omega
    · rw [hmem _ hbL] at hnone
      exact absurd hnone (by simp)
  · rw [hme, mkEntries_length]
    exact mapM_ok_length _ _ sql hs

set_option maxRecDepth 1000000 in
/-- C1 witness: the amended theorem applied to the batch `a` (binds `c`),
`b`, `c`: the entry for `c` is at index 0, the entry for `a` at index 1
depends on `c`, and 0 < 1. -/
theorem C1_dependency_order_witness :
    (compileE [inBindsC, inPlainB, inPlainC] { dialect := .oracle } =
      .ok (exOk ([], mD) (compileE [inBindsC, inPlainB, inPlainC]
        { dialect := .oracle }))) ∧
    1 < (exOk ([], mD) (compileE [inBindsC, inPlainB, inPlainC]
      { dialect := .oracle })).2.entries.length ∧
    0 < (exOk ([], mD) (compileE [inBindsC, inPlainB, inPlainC]
      { dialect := .oracle })).2.entries.length ∧
    ((exOk ([], mD) (compileE [inBindsC, inPlainB, inPlainC]
      { dialect := .oracle })).2.entries.getD 0 entryD).ruleblockId ∈
      ((exOk ([], mD) (compileE [inBindsC, inPlainB, inPlainC]
        { dialect := .oracle })).2.entries.getD 1 entryD).dependencies ∧
    (0 < 1 ∧ (exOk ([], mD) (compileE [inBindsC, inPlainB, inPlainC]
      { dialect := .oracle })).1.length =
      (exOk ([], mD) (compileE [inBindsC, inPlainB, inPlainC]
        { dialect := .oracle })).2.entries.length) :=
  ⟨rfl, by decide, by decide, by decide,
   C1_dependency_order [inBindsC, inPlainB, inPlainC] { dialect := .oracle }
     (exOk ([], mD) (compileE [inBindsC, inPlainB, inPlainC]
       { dialect := .oracle })).1
     (exOk ([], mD) (compileE [inBindsC, inPlainB, inPlainC]
       { dialect := .oracle })).2
     1 0 rfl (by decide) (by decide) (by decide)⟩

/-! ## C5: ancestor and descendant closures of the pruning stage -/

theorem mem_foldl_setAdd : ∀ (xs acc : List String) (x : String),
    x ∈ xs.foldl setAdd acc → x ∈ acc ∨ x ∈ xs := by
  intro xs
  induction xs with
  | nil => intro acc x hx; exact Or.inl hx
  | cons y ys ih =>
    intro acc x hx
    rcases ih (setAdd acc y) x hx with h | h
    · rcases (mem_setAdd acc y x).mp h with h | h
      · exact Or.inl h
      · exact Or.inr (by rw [h]; exact List.mem_cons_self y ys)
    · exact Or.inr (List.mem_cons_of_mem y h)

theorem unvisitedCount_append_lt (U v : List String) (d : String)
    (hU : d ∈ U) (hv : d ∉ v) :
    unvisitedCount U (v ++ [d]) < unvisitedCount U v := by
  refine filter_length_lt _ _ ?_ d ?_ ?_ U hU
  · intro x hx
    simp only [decide_eq_true_eq] at hx ⊢
    exact fun hc => hx (List.mem_append_left _ hc)
  · simp only [decide_eq_true_eq]
    exact hv
  · simp only [decide_eq_false_iff_not]
    exact fun hc => hc (List.mem_append_right _ (List.mem_singleton.mpr rfl))

theorem depMapGet_length_le (m : List (String × List String)) (a : String) :
    (depMapGet m a).length ≤ ((m.map (fun p => p.2)).flatten).length := by
  unfold depMapGet mapGet
  cases hf : m.find? (fun p => p.1 = a) with
  | none => simp
  | some p =>
    simp only [Option.map_some', Option.getD_some]
    have hs : List.Sublist p.2 ((m.map (fun p => p.2)).flatten) :=
      List.sublist_flatten_of_mem (List.mem_map_of_mem _ (List.mem_of_find?_eq_some hf))
    exact hs.length_le

theorem ancBFS_mono (m : List (String × List String)) :
    ∀ (fuel : Nat) (queue anc : List String) (x : String),
    x ∈ anc → x ∈ ancBFS m fuel queue anc := by
  intro fuel
  induction fuel with
  | zero => intro queue anc x hx; exact hx
  | succ f ih =>
    intro queue anc x hx
    cases queue with
    | nil => exact hx
    | cons c rest =>
      rw [ancBFS]
      by_cases hc : c ∈ anc
      · rw [if_pos hc]
        exact ih rest anc x hx
      · rw [if_neg hc]
        dsimp only
        exact ih _ _ x ((mem_setAdd anc c x).mpr (Or.inl hx))

theorem ancBFS_sound (m : List (String × List String)) (P : String → Prop)
    (hstep : ∀ a b, P a → b ∈ depMapGet m a → P b) :
    ∀ (fuel : Nat) (queue anc : List String),
    (∀ x ∈ queue, P x) → (∀ x ∈ anc, P x) →
    ∀ x ∈ ancBFS m fuel queue anc, P x := by
  intro fuel
  induction fuel with
  | zero => intro queue anc _ hanc x hx; exact hanc x hx
  | succ f ih =>
    intro queue anc hq hanc
    cases queue with
    | nil => exact hanc
    | cons c rest =>
      rw [ancBFS]
      by_cases hc : c ∈ anc
      · rw [if_pos hc]
        exact ih rest anc (fun x hx => hq x (List.mem_cons_of_mem c hx)) hanc
      · rw [if_neg hc]
        dsimp only
        refine ih _ _ ?_ ?_
        · intro x hx
          rcases List.mem_append.mp hx with h | h
          · exact hq x (List.mem_cons_of_mem c h)
          · exact hstep c x (hq c (List.mem_cons_self c rest)) (List.mem_filter.mp h).1
        · intro x hx
          rcases (mem_setAdd anc c x).mp hx with h | h
          · exact hanc x h
          · rw [h]
            exact hq c (List.mem_cons_self c rest)

theorem ancBFS_spec (m : List (String × List String)) (U : List String) (F : Nat)
    (hU : ∀ a d, d ∈ depMapGet m a → d ∈ U)
    (hF : ∀ a, (depMapGet m a).length ≤ F) :
    ∀ (fuel : Nat) (queue anc : List String),
    queue.length + unvisitedCount U anc * (F + 1) + 1 ≤ fuel →
    (∀ x ∈ queue, x ∈ U) →
    (∀ a ∈ anc, ∀ d ∈ depMapGet m a, d ∈ anc ∨ d ∈ queue) →
    (∀ x ∈ anc, x ∈ ancBFS m fuel queue anc) ∧
    (∀ x ∈ queue, x ∈ ancBFS m fuel queue anc) ∧
    (∀ a ∈ ancBFS m fuel queue anc, ∀ d ∈ depMapGet m a,
      d ∈ ancBFS m fuel queue anc) := by
  intro fuel
  induction fuel with
  | zero =>
    intro queue anc hfuel _ _
    exact absurd hfuel (by omega)
  | succ f ih =>
    intro queue anc hfuel hqU hinv
    cases queue with
    | nil =>
      refine ⟨fun x hx => hx, ?_, ?_⟩
      · intro x hx
        cases hx
      · intro a ha d hd
        rcases hinv a ha d hd with h | h
        · exact h
        · cases h
    | cons c rest =>
      rw [ancBFS]
      by_cases hc : c ∈ anc
      · rw [if_pos hc]
        have hfuel' : rest.length + unvisitedCount U anc * (F + 1) + 1 ≤ f := by
          simp only [List.length_cons] at hfuel
          omega
        obtain ⟨h1, h2, h3⟩ := ih rest anc hfuel'
          (fun x hx => hqU x (List.mem_cons_of_mem c hx))
          (by
            intro a ha d hd
            rcases hinv a ha d hd with h | h
            · exact Or.inl h
            · rcases List.mem_cons.mp h with h | h
              · exact Or.inl (h ▸ hc)
              · exact Or.inr h)
        refine ⟨h1, ?_, h3⟩
        intro x hx
        rcases List.mem_cons.mp hx with h | h
        · exact h ▸ h1 c hc
        · exact h2 x h
      · rw [if_neg hc]
        dsimp only
        have hcU : c ∈ U := hqU c (List.mem_cons_self c rest)
        have hpl : ((depMapGet m c).filter
            (fun d => !(d ∈ setAdd anc c))).length ≤ F :=
          le_trans (List.length_filter_le _ _) (hF c)
        have hcnt : unvisitedCount U (setAdd anc c) + 1 ≤ unvisitedCount U anc :=
          unvisitedCount_mark U anc c hcU hc
        have hfuel' : (rest ++ (depMapGet m c).filter
              (fun d => !(d ∈ setAdd anc c))).length +
            unvisitedCount U (setAdd anc c) * (F + 1) + 1 ≤ f := by
          rw [List.length_append]
          simp only [List.length_cons] at hfuel
          have hmul := Nat.mul_le_mul_right (F + 1) hcnt
          rw [Nat.add_mul, Nat.one_mul] at hmul
          omega
        obtain ⟨h1, h2, h3⟩ := ih _ _ hfuel'
          (by
            intro x hx
            rcases List.mem_append.mp hx with h | h
            · exact hqU x (List.mem_cons_of_mem c h)
            · exact hU c x (List.mem_filter.mp h).1)
          (by
            intro a ha d hd
            rcases (mem_setAdd anc c a).mp ha with ha0 | ha0
            · rcases hinv a ha0 d hd with h | h
              · exact Or.inl ((mem_setAdd anc c d).mpr (Or.inl h))
              · rcases List.mem_cons.mp h with h | h
                · exact Or.inl (by rw [h]; exact (mem_setAdd anc c c).mpr (Or.inr rfl))
                · exact Or.inr (List.mem_append_left _ h)
            · rw [ha0] at hd
              by_cases hdm : d ∈ setAdd anc c
              · exact Or.inl hdm
              · refine Or.inr (List.mem_append_right _ ?_)
                exact List.mem_filter.mpr ⟨hd, by simpa using hdm⟩)
        refine ⟨?_, ?_, h3⟩
        · intro x hx
          exact h1 x ((mem_setAdd anc c x).mpr (Or.inl hx))
        · intro x hx
          rcases List.mem_cons.mp hx with h | h
          · exact h ▸ h1 c ((mem_setAdd anc c c).mpr (Or.inr rfl))
          · exact h2 x (List.mem_append_left _ h)

theorem revIns_mono (k P x y : String) (R : List (String × List String))
    (h : y ∈ (mapGet R x).getD []) :
    y ∈ (mapGet (mapSet R k (setAdd ((mapGet R k).getD []) P)) x).getD [] := by
  rw [mapGet_mapSet]
  by_cases hxk : x = k
  · rw [if_pos hxk, Option.getD_some]
    subst hxk
    exact (mem_setAdd _ _ _).mpr (Or.inl h)
  · rw [if_neg hxk]
    exact h

theorem revFold_mono (P : String) :
    ∀ (ds : List String) (R : List (String × List String)) (x y : String),
    y ∈ (mapGet R x).getD [] →
    y ∈ (mapGet (ds.foldl (fun r d =>
      mapSet r d (setAdd ((mapGet r d).getD []) P)) R) x).getD [] := by
  intro ds
  induction ds with
  | nil => intro R x y h; exact h
  | cons d ds ih =>
    intro R x y h
    rw [List.foldl_cons]
    exact ih _ x y (revIns_mono d P x y R h)

theorem revFold_hit (P : String) :
    ∀ (ds : List String) (R : List (String × List String)) (d : String),
    d ∈ ds →
    P ∈ (mapGet (ds.foldl (fun r d =>
      mapSet r d (setAdd ((mapGet r d).getD []) P)) R) d).getD [] := by
  intro ds
  induction ds with
  | nil => intro R d h; cases h
  | cons e es ih =>
    intro R d h
    rw [List.foldl_cons]
    rcases List.mem_cons.mp h with h | h
    · subst h
      apply revFold_mono
      rw [mapGet_mapSet, if_pos rfl, Option.getD_some]
      exact (mem_setAdd _ _ _).mpr (Or.inr rfl)
    · exact ih _ d h

theorem revFold_sound (P : String) :
    ∀ (ds : List String) (R : List (String × List String)) (x y : String),
    y ∈ (mapGet (ds.foldl (fun r d =>
      mapSet r d (setAdd ((mapGet r d).getD []) P)) R) x).getD [] →
    y ∈ (mapGet R x).getD [] ∨ (y = P ∧ x ∈ ds) := by
  intro ds
  induction ds with
  | nil => intro R x y h; exact Or.inl h
  | cons e es ih =>
    intro R x y h
    rw [List.foldl_cons] at h
    rcases ih _ x y h with h1 | ⟨h1, h2⟩
    · rw [mapGet_mapSet] at h1
      by_cases hxe : x = e
      · rw [if_pos hxe, Option.getD_some] at h1
        rcases (mem_setAdd _ _ _).mp h1 with h2 | h2
        · exact Or.inl (hxe.symm ▸ h2)
        · exact Or.inr ⟨h2, by rw [hxe]; exact List.mem_cons_self e es⟩
      · rw [if_neg hxe] at h1
        exact Or.inl h1
    · exact Or.inr ⟨h1, List.mem_cons_of_mem e h2⟩

theorem buildReverse_mono :
    ∀ (l : List (String × List String)) (R : List (String × List String)) (x y : String),
    y ∈ (mapGet R x).getD [] →
    y ∈ (mapGet (l.foldl (fun r p => p.2.foldl (fun r d =>
      mapSet r d (setAdd ((mapGet r d).getD []) p.1)) r) R) x).getD [] := by
  intro l
  induction l with
  | nil => intro R x y h; exact h
  | cons p rest ih =>
    intro R x y h
    rw [List.foldl_cons]
    exact ih _ x y (revFold_mono p.1 p.2 R x y h)

theorem buildReverse_complete (m : List (String × List String))
    (p : String × List String) (d : String) (hp : p ∈ m) (hd : d ∈ p.2) :
    p.1 ∈ (mapGet (buildReverse m) d).getD [] := by
  have hgen : ∀ (l : List (String × List String)) (R : List (String × List String)),
      p ∈ l → p.1 ∈ (mapGet (l.foldl (fun r q => q.2.foldl (fun r d =>
        mapSet r d (setAdd ((mapGet r d).getD []) q.1)) r) R) d).getD [] := by
    intro l
    induction l with
    | nil => intro R h; cases h
    | cons q rest ih =>
      intro R h
      rw [List.foldl_cons]
      rcases List.mem_cons.mp h with h | h
      · subst h
        exact buildReverse_mono rest _ d p.1 (revFold_hit p.1 p.2 R d hd)
      · exact ih _ h
  exact hgen m [] hp

theorem buildReverse_sound (m : List (String × List String)) (x y : String)
    (h : y ∈ (mapGet (buildReverse m) x).getD []) :
    ∃ p ∈ m, p.1 = y ∧ x ∈ p.2 := by
  have hgen : ∀ (l : List (String × List String)) (R : List (String × List String))
      (x y : String),
      y ∈ (mapGet (l.foldl (fun r q => q.2.foldl (fun r d =>
        mapSet r d (setAdd ((mapGet r d).getD []) q.1)) r) R) x).getD [] →
      y ∈ (mapGet R x).getD [] ∨ ∃ p ∈ l, p.1 = y ∧ x ∈ p.2 := by
    intro l
    induction l with
    | nil => intro R x y h; exact Or.inl h
    | cons q rest ih =>
      intro R x y h
      rw [List.foldl_cons] at h
      rcases ih _ x y h with h1 | ⟨p, hp, he, hm⟩
      · rcases revFold_sound q.1 q.2 R x y h1 with h2 | ⟨h2, h3⟩
        · exact Or.inl h2
        · exact Or.inr ⟨q, List.mem_cons_self q rest, h2.symm, h3⟩
      · exact Or.inr ⟨p, List.mem_cons_of_mem q hp, he, hm⟩
  rcases hgen m [] x y h with h1 | h1
  · cases h1
  · exact h1

theorem mapSet_keys_nodup {α : Type} (m : List (String × α)) (k : String) (v : α)
    (h : (m.map (fun p => p.1)).Nodup) :
    ((mapSet m k v).map (fun p => p.1)).Nodup := by
  unfold mapSet
  by_cases ha : m.any (fun p => p.1 = k)
  · rw [if_pos ha]
    rw [List.map_map]
    rw [show ((fun p : String × α => p.1) ∘ fun p => if p.1 = k then (k, v) else p) =
        (fun p : String × α => p.1) from by
      funext p
      by_cases hpk : p.1 = k
      · simp [Function.comp, hpk]
      · simp [Function.comp, hpk]]
    exact h
  · rw [if_neg ha]
    rw [List.map_append, List.nodup_append]
    have hk : k ∉ m.map (fun p : String × α => p.1) := by
      intro hk
      rcases List.mem_map.mp hk with ⟨p, hp, he⟩
      exact ha (List.any_eq_true.mpr ⟨p, hp, by simpa using he⟩)
    exact ⟨h, List.nodup_singleton k, by simpa using hk⟩

theorem foldl_mapSet_keys_nodup {α β : Type} (f : β → String) (g : β → α) :
    ∀ (l : List β) (acc : List (String × α)),
    (acc.map (fun p => p.1)).Nodup →
    ((l.foldl (fun m b => mapSet m (f b) (g b)) acc).map (fun p => p.1)).Nodup := by
  intro l
  induction l with
  | nil => intro acc h; exact h
  | cons b rest ih =>
    intro acc h
    rw [List.foldl_cons]
    exact ih _ (mapSet_keys_nodup acc (f b) (g b) h)

theorem buildDependencyMap_keys_nodup (rbs : List ParsedRuleblock) :
    ((buildDependencyMap rbs).map (fun p => p.1)).Nodup :=
  foldl_mapSet_keys_nodup (fun rb => strToLower rb.name)
    (fun rb => rb.rules.foldl (fun ds r =>
      match r with
      | .bind _ srb _ _ _ => setAdd ds (strToLower srb)
      | _ => ds) []) rbs [] (by simp)

theorem mapGet_of_mem_nodup {α : Type} :
    ∀ (m : List (String × α)) (p : String × α),
    (m.map (fun q => q.1)).Nodup → p ∈ m →
    mapGet m p.1 = some p.2 := by
  intro m
  induction m with
  | nil => intro p _ hp; cases hp
  | cons q rest ih =>
    intro p hnd hp
    rw [List.map_cons, List.nodup_cons] at hnd
    rcases List.mem_cons.mp hp with h | h
    · subst h
      unfold mapGet
      rw [List.find?_cons_of_pos _ (by simp)]
      rfl
    · have hne : ¬ (q.1 = p.1) := by
        intro he
        exact hnd.1 (he ▸ List.mem_map_of_mem (fun q => q.1) h)
      unfold mapGet
      rw [List.find?_cons_of_neg _ (by simpa using hne)]
      exact ih p hnd.2 h

theorem revGet_iff (rbs : List ParsedRuleblock) (a b : String) :
    b ∈ (mapGet (buildReverse (buildDependencyMap rbs)) a).getD [] ↔
    a ∈ depMapGet (buildDependencyMap rbs) b := by
  constructor
  · intro h
    obtain ⟨p, hp, he, ha⟩ := buildReverse_sound _ a b h
    have hg := mapGet_of_mem_nodup _ p (buildDependencyMap_keys_nodup rbs) hp
    unfold depMapGet
    rw [← he, hg, Option.getD_some]
    exact ha
  · intro h
    unfold depMapGet mapGet at h
    cases hf : (buildDependencyMap rbs).find? (fun p => p.1 = b) with
    | none =>
      rw [hf] at h
      simp at h
    | some p =>
      rw [hf] at h
      simp only [Option.map_some', Option.getD_some] at h
      have hpb : p.1 = b := by simpa using List.find?_some hf
      exact hpb ▸ buildReverse_complete _ p a (List.mem_of_find?_eq_some hf) h

theorem descStep_spec (U : List String) :
    ∀ (ds : List String) (dp : List String × List String),
    (∀ d ∈ ds, d ∈ U) →
    (∀ x ∈ dp.2, x ∈ dp.1) →
    (∀ x ∈ dp.1, x ∈ (ds.foldl (fun dp d =>
        if d ∈ dp.1 then dp else (dp.1 ++ [d], dp.2 ++ [d])) dp).1) ∧
    (∀ x ∈ (ds.foldl (fun dp d =>
        if d ∈ dp.1 then dp else (dp.1 ++ [d], dp.2 ++ [d])) dp).1,
      x ∈ dp.1 ∨ x ∈ ds) ∧
    (∀ x ∈ (ds.foldl (fun dp d =>
        if d ∈ dp.1 then dp else (dp.1 ++ [d], dp.2 ++ [d])) dp).2,
      x ∈ dp.2 ∨ x ∈ ds) ∧
    (∀ d ∈ ds, d ∈ (ds.foldl (fun dp d =>
        if d ∈ dp.1 then dp else (dp.1 ++ [d], dp.2 ++ [d])) dp).1) ∧
    (∀ x ∈ (ds.foldl (fun dp d =>
        if d ∈ dp.1 then dp else (dp.1 ++ [d], dp.2 ++ [d])) dp).2,
      x ∈ (ds.foldl (fun dp d =>
        if d ∈ dp.1 then dp else (dp.1 ++ [d], dp.2 ++ [d])) dp).1) ∧
    (unvisitedCount U (ds.foldl (fun dp d =>
        if d ∈ dp.1 then dp else (dp.1 ++ [d], dp.2 ++ [d])) dp).1 +
      (ds.foldl (fun dp d =>
        if d ∈ dp.1 then dp else (dp.1 ++ [d], dp.2 ++ [d])) dp).2.length ≤
      unvisitedCount U dp.1 + dp.2.length) ∧
    (∀ x ∈ (ds.foldl (fun dp d =>
        if d ∈ dp.1 then dp else (dp.1 ++ [d], dp.2 ++ [d])) dp).1,
      x ∈ dp.1 ∨ x ∈ (ds.foldl (fun dp d =>
        if d ∈ dp.1 then dp else (dp.1 ++ [d], dp.2 ++ [d])) dp).2) ∧
    (∀ x ∈ dp.2, x ∈ (ds.foldl (fun dp d =>
        if d ∈ dp.1 then dp else (dp.1 ++ [d], dp.2 ++ [d])) dp).2) := by
  intro ds
  induction ds with
  | nil =>
    intro dp _ hsub
    exact ⟨fun x hx => hx, fun x hx => Or.inl hx, fun x hx => Or.inl hx,
      fun d hd => absurd hd (by simp), hsub, Nat.le_refl _,
      fun x hx => Or.inl hx, fun x hx => hx⟩
  | cons d ds ih =>
    intro dp hds hsub
    rw [List.foldl_cons]
    by_cases hd : d ∈ dp.1
    · rw [if_pos hd]
      obtain ⟨i1, i2, i3, i4, i5, i6, i7, i8⟩ :=
        ih dp (fun e he => hds e (List.mem_cons_of_mem d he)) hsub
      refine ⟨i1, ?_, ?_, ?_, i5, i6, i7, i8⟩
      · intro x hx
        rcases i2 x hx with h | h
        · exact Or.inl h
        · exact Or.inr (List.mem_cons_of_mem d h)
      · intro x hx
        rcases i3 x hx with h | h
        · exact Or.inl h
        · exact Or.inr (List.mem_cons_of_mem d h)
      · intro e he
        rcases List.mem_cons.mp he with h | h
        · exact h ▸ i1 d hd
        · exact i4 e h
    · rw [if_neg hd]
      obtain ⟨i1, i2, i3, i4, i5, i6, i7, i8⟩ :=
        ih (dp.1 ++ [d], dp.2 ++ [d]) (fun e he => hds e (List.mem_cons_of_mem d he))
          (by
            intro x hx
            rcases List.mem_append.mp hx with h | h
            · exact List.mem_append_left _ (hsub x h)
            · exact List.mem_append_right _ h)
      have hcnt : unvisitedCount U (dp.1 ++ [d]) + 1 ≤ unvisitedCount U dp.1 :=
        unvisitedCount_append_lt U dp.1 d (hds d (List.mem_cons_self d ds)) hd
      refine ⟨?_, ?_, ?_, ?_, i5, ?_, ?_, ?_⟩
      · intro x hx
        exact i1 x (List.mem_append_left _ hx)
      · intro x hx
        rcases i2 x hx with h | h
        · rcases List.mem_append.mp h with h1 | h1
          · exact Or.inl h1
          · simp only [List.mem_singleton] at h1
            exact Or.inr (h1 ▸ List.mem_cons_self d ds)
        · exact Or.inr (List.mem_cons_of_mem d h)
      · intro x hx
        rcases i3 x hx with h | h
        · rcases List.mem_append.mp h with h1 | h1
          · exact Or.inl h1
          · simp only [List.mem_singleton] at h1
            exact Or.inr (h1 ▸ List.mem_cons_self d ds)
        · exact Or.inr (List.mem_cons_of_mem d h)
      · intro e he
        rcases List.mem_cons.mp he with h | h
        · exact h ▸ i1 d (List.mem_append_right _ (List.mem_singleton.mpr rfl))
        · exact i4 e h
      · have hlen := i6
        simp only [List.length_append, List.length_cons, List.length_nil] at hlen ⊢
        omega
      · intro x hx
        rcases i7 x hx with h | h
        · rcases List.mem_append.mp h with h1 | h1
          · exact Or.inl h1
          · simp only [List.mem_singleton] at h1
            subst h1
            exact Or.inr (i8 x (List.mem_append_right _ (List.mem_singleton.mpr rfl)))
        · exact Or.inr h
      · intro x hx
        exact i8 x (List.mem_append_left _ hx)

theorem descBFS_sound (rev : List (String × List String)) (P : String → Prop)
    (hstep : ∀ a b, P a → b ∈ (mapGet rev a).getD [] → P b) :
    ∀ (fuel : Nat) (queue desc : List String),
    (∀ x ∈ queue, P x) → (∀ x ∈ desc, P x) →
    ∀ x ∈ descBFS rev fuel queue desc, P x := by
  intro fuel
  induction fuel with
  | zero => intro queue desc _ hd x hx; exact hd x hx
  | succ f ih =>
    intro queue desc hq hd
    cases queue with
    | nil => exact hd
    | cons c rest =>
      rw [descBFS]
      obtain ⟨s1, s2, s3, s4, s5, s6, s7, s8⟩ :=
        descStep_spec ((mapGet rev c).getD []) ((mapGet rev c).getD []) (desc, [])
          (fun e he => he) (by intro x hx; cases hx)
      refine ih _ _ ?_ ?_
      · intro x hx
        rcases List.mem_append.mp hx with h | h
        · exact hq x (List.mem_cons_of_mem c h)
        · rcases s3 x h with h1 | h1
          · cases h1
          · exact hstep c x (hq c (List.mem_cons_self c rest)) h1
      · intro x hx
        rcases s2 x hx with h1 | h1
        · exact hd x h1
        · exact hstep c x (hq c (List.mem_cons_self c rest)) h1

theorem descBFS_spec (rev : List (String × List String)) (U : List String)
    (hval : ∀ c d, d ∈ (mapGet rev c).getD [] → d ∈ U) :
    ∀ (fuel : Nat) (queue desc : List String),
    queue.length + unvisitedCount U desc + 1 ≤ fuel →
    (∀ x ∈ queue, x ∈ desc) →
    (∀ a ∈ desc, a ∈ queue ∨ ∀ d ∈ (mapGet rev a).getD [], d ∈ desc) →
    (∀ x ∈ desc, x ∈ descBFS rev fuel queue desc) ∧
    (∀ a ∈ descBFS rev fuel queue desc, ∀ d ∈ (mapGet rev a).getD [],
      d ∈ descBFS rev fuel queue desc) := by
  intro fuel
  induction fuel with
  | zero => intro queue desc hfuel _ _; exact absurd hfuel (by omega)
  | succ f ih =>
    intro queue desc hfuel hqd hinv
    cases queue with
    | nil =>
      refine ⟨fun x hx => hx, ?_⟩
      intro a ha d hd
      rcases hinv a ha with h | h
      · cases h
      · exact h d hd
    | cons c rest =>
      rw [descBFS]
      obtain ⟨s1, s2, s3, s4, s5, s6, s7, s8⟩ :=
        descStep_spec U ((mapGet rev c).getD []) (desc, [])
          (fun d hd => hval c d hd) (by intro x hx; cases hx)
      have hfuel' : (rest ++ (((mapGet rev c).getD []).foldl (fun dp d =>
            if d ∈ dp.1 then dp else (dp.1 ++ [d], dp.2 ++ [d])) (desc, [])).2).length +
          unvisitedCount U (((mapGet rev c).getD []).foldl (fun dp d =>
            if d ∈ dp.1 then dp else (dp.1 ++ [d], dp.2 ++ [d])) (desc, [])).1 + 1 ≤
          f := by
        rw [List.length_append]
        simp only [List.length_cons] at hfuel
        simp only [List.length_nil] at s6
        omega
      obtain ⟨hh1, hh2⟩ := ih _ _ hfuel'
        (by
          intro x hx
          rcases List.mem_append.mp hx with h | h
          · exact s1 x (hqd x (List.mem_cons_of_mem c h))
          · exact s5 x h)
        (by
          intro a ha
          rcases s7 a ha with h | h
          · rcases hinv a h with h2 | h2
            · rcases List.mem_cons.mp h2 with h3 | h3
              · refine Or.inr ?_
                intro d hd
                rw [h3] at hd
                exact s4 d hd
              · exact Or.inl (List.mem_append_left _ h3)
            · exact Or.inr (fun d hd => s1 d (h2 d hd))
          · exact Or.inl (List.mem_append_right _ h))
      exact ⟨fun x hx => hh1 x (s1 x hx), hh2⟩

theorem findAncestors_mem (names : List String) (m : List (String × List String))
    (x : String) :
    x ∈ findAncestors names m ↔
      ∃ s ∈ names.map strToLower, Relation.ReflTransGen (depStep m) s x := by
  unfold findAncestors
  dsimp only
  constructor
  · intro hx
    refine ancBFS_sound m
      (fun y => ∃ s ∈ names.map strToLower, Relation.ReflTransGen (depStep m) s y)
      ?_ _ _ _ ?_ ?_ x hx
    · rintro a b ⟨s, hs, hr⟩ hb
      exact ⟨s, hs, hr.tail hb⟩
    · intro y hy
      exact ⟨y, hy, Relation.ReflTransGen.refl⟩
    · intro y hy
      cases hy
  · rintro ⟨s, hs, hr⟩
    obtain ⟨hA1, hA2, hA3⟩ := ancBFS_spec m
      ((names.map strToLower ++
        ((m.map (fun p => p.2)).flatten ++ m.map (fun p => p.1))).dedup)
      ((m.map (fun p => p.2)).flatten).length
      (fun a d hd => List.mem_dedup.mpr (List.mem_append_right _
        (List.mem_append_left _ (edgesGet_mem_flatten m a d hd))))
      (fun a => depMapGet_length_le m a)
      (pruneFuel m (names.map strToLower)) (names.map strToLower) []
      (by
        have h1 := unvisitedCount_le
          ((names.map strToLower ++
            ((m.map (fun p => p.2)).flatten ++ m.map (fun p => p.1))).dedup)
          ([] : List String)
        have h2 : (((m.map (fun p => p.2)).flatten).length + 1) ≤
            ((m.map (fun p => p.2)).flatten ++ m.map (fun p => p.1)).length + 1 := by
          rw [List.length_append]
          omega
        have hmul := Nat.mul_le_mul h1 h2
        simp only [pruneFuel]
        omega)
      (fun y hy => List.mem_dedup.mpr (List.mem_append_left _ hy))
      (by intro a ha; cases ha)
    induction hr with
    | refl => exact hA2 s hs
    | tail hab hbc ihab => exact hA3 _ ihab _ hbc

theorem findAncestors_ne (names : List String) (m : List (String × List String))
    (h : names ≠ []) : findAncestors names m ≠ [] := by
  unfold findAncestors
  dsimp only
  intro hnil
  cases hq : names.map strToLower with
  | nil => exact h (by simpa using hq)
  | cons s rest =>
    rw [hq] at hnil
    have hmem : s ∈ ancBFS m (pruneFuel m (s :: rest)) (s :: rest) [] := by
      simp only [pruneFuel]
      rw [ancBFS]
      rw [if_neg (show s ∉ ([] : List String) from by intro hc; cases hc)]
      dsimp only
      exact ancBFS_mono m _ _ _ s ((mem_setAdd [] s s).mpr (Or.inr rfl))
    rw [hnil] at hmem
    cases hmem

theorem findDescendants_mem (names : List String) (m : List (String × List String))
    (x : String) :
    x ∈ findDescendants names m ↔
      ∃ s ∈ names.map strToLower, Relation.ReflTransGen
        (fun a b => b ∈ (mapGet (buildReverse m) a).getD []) s x := by
  unfold findDescendants
  dsimp only
  constructor
  · intro hx
    refine descBFS_sound (buildReverse m)
      (fun y => ∃ s ∈ names.map strToLower, Relation.ReflTransGen
        (fun a b => b ∈ (mapGet (buildReverse m) a).getD []) s y)
      ?_ _ _ _ ?_ ?_ x hx
    · rintro a b ⟨s, hs, hr⟩ hb
      exact ⟨s, hs, hr.tail hb⟩
    · intro y hy
      exact ⟨y, hy, Relation.ReflTransGen.refl⟩
    · intro y hy
      rcases mem_foldl_setAdd _ _ _ hy with h | h
      · cases h
      · exact ⟨y, h, Relation.ReflTransGen.refl⟩
  · rintro ⟨s, hs, hr⟩
    obtain ⟨hD1, hD2⟩ := descBFS_spec (buildReverse m)
      ((names.map strToLower ++
        (((buildReverse m).map (fun p => p.2)).flatten ++
          (buildReverse m).map (fun p => p.1))).dedup)
      (fun c d hd => List.mem_dedup.mpr (List.mem_append_right _
        (List.mem_append_left _ (edgesGet_mem_flatten (buildReverse m) c d hd))))
      (pruneFuel (buildReverse m) (names.map strToLower)) (names.map strToLower)
      ((names.map strToLower).foldl setAdd [])
      (by
        have h1 := unvisitedCount_le
          ((names.map strToLower ++
            (((buildReverse m).map (fun p => p.2)).flatten ++
              (buildReverse m).map (fun p => p.1))).dedup)
          ((names.map strToLower).foldl setAdd [])
        have h2 := Nat.le_mul_of_pos_right
          ((names.map strToLower ++
            (((buildReverse m).map (fun p => p.2)).flatten ++
              (buildReverse m).map (fun p => p.1))).dedup).length
          (show 0 < (((buildReverse m).map (fun p => p.2)).flatten ++
            (buildReverse m).map (fun p => p.1)).length + 1 from Nat.succ_pos _)
        simp only [pruneFuel]
        omega)
      (fun y hy => foldl_setAdd_mem _ [] y hy)
      (by
        intro a ha
        rcases mem_foldl_setAdd _ _ _ ha with h | h
        · cases h
        · exact Or.inl h)
    induction hr with
    | refl =>
      exact hD1 s (foldl_setAdd_mem _ [] s hs)
    | tail hab hbc ihab => exact hD2 _ ihab _ hbc

/-- C5: membership in the pruned batch. A ruleblock is kept exactly when it
is present and, case-insensitively, is a transitive ancestor (inclusive) of
some pruneOutputs name whenever pruneOutputs is nonempty, and a transitive
descendant (inclusive) of some pruneInputs name whenever pruneInputs is
nonempty — so only-outputs keeps the ancestors, only-inputs the
descendants, both keeps the intersection, and neither keeps everything. -/
theorem C5_prune_sets (rbs : List ParsedRuleblock)
    (pruneInputs pruneOutputs : Option (List String)) (rb : ParsedRuleblock) :
    rb ∈ pruneRuleblocks rbs pruneInputs pruneOutputs ↔
      rb ∈ rbs ∧
      ((pruneOutputs.getD []).isEmpty = true ∨ AncP rbs (pruneOutputs.getD []) rb) ∧
      ((pruneInputs.getD []).isEmpty = true ∨ DescP rbs (pruneInputs.getD []) rb) := by
  have hconv : ∀ s y, Relation.ReflTransGen
      (fun a b => b ∈ (mapGet (buildReverse (buildDependencyMap rbs)) a).getD []) s y ↔
      Relation.ReflTransGen (fun a b => depStep (buildDependencyMap rbs) b a) s y := by
    intro s y
    constructor
    · intro h
      exact h.mono (fun a b hb => (revGet_iff rbs a b).mp hb)
    · intro h
      exact h.mono (fun a b hb => (revGet_iff rbs a b).mpr hb)
  have hdesc : ∀ (names : List String) (x : String),
      x ∈ findDescendants names (buildDependencyMap rbs) ↔
      ∃ s ∈ names.map strToLower, Relation.ReflTransGen
        (fun a b => depStep (buildDependencyMap rbs) b a) s x := by
    intro names x
    rw [findDescendants_mem]
    constructor
    · rintro ⟨s, hs, hr⟩
      exact ⟨s, hs, (hconv s x).mp hr⟩
    · rintro ⟨s, hs, hr⟩
      exact ⟨s, hs, (hconv s x).mpr hr⟩
  simp only [pruneRuleblocks]
  by_cases hPI : (pruneInputs.getD []).isEmpty = true
  · by_cases hPO : (pruneOutputs.getD []).isEmpty = true
    · rw [if_pos (by rw [hPI, hPO]; rfl)]
      constructor
      · intro h
        exact ⟨h, Or.inl hPO, Or.inl hPI⟩
      · exact fun h => h.1
    · rw [Bool.not_eq_true] at hPO
      rw [if_neg (by rw [hPI, hPO]; simp)]
      rw [if_neg (by rw [hPI]; simp), if_pos (by rw [hPO]; rfl)]
      rw [List.mem_filter]
      constructor
      · rintro ⟨hin, hcond⟩
        refine ⟨hin, Or.inr ?_, Or.inl hPI⟩
        have hm : strToLower rb.name ∈
            findAncestors (pruneOutputs.getD []) (buildDependencyMap rbs) := by
          simpa using hcond
        exact (findAncestors_mem _ _ _).mp hm
      · rintro ⟨hin, hOr, -⟩
        rcases hOr with h | h
        · rw [h] at hPO
          exact absurd hPO (by simp)
        · refine ⟨hin, ?_⟩
          simpa using (findAncestors_mem _ _ _).mpr h
  · by_cases hPO : (pruneOutputs.getD []).isEmpty = true
    · rw [Bool.not_eq_true] at hPI
      rw [if_neg (by rw [hPI, hPO]; simp)]
      rw [if_pos (by rw [hPI]; rfl)]
      rw [if_neg (by rw [hPO]; simp)]
      rw [List.mem_filter]
      constructor
      · rintro ⟨hin, hcond⟩
        refine ⟨hin, Or.inl hPO, Or.inr ?_⟩
        have hm : strToLower rb.name ∈
            findDescendants (pruneInputs.getD []) (buildDependencyMap rbs) := by
          simpa using hcond
        exact (hdesc _ _).mp hm
      · rintro ⟨hin, -, hOr⟩
        rcases hOr with h | h
        · rw [h] at hPI
          exact absurd hPI (by simp)
        · refine ⟨hin, ?_⟩
          simpa using (hdesc _ _).mpr h
    · rw [Bool.not_eq_true] at hPI hPO
      rw [if_neg (by rw [hPI]; simp)]
      rw [if_pos (by rw [hPI]; rfl)]
      rw [if_pos (show (!(pruneOutputs.getD []).isEmpty) = true from by rw [hPO]; rfl)]
      have hne : pruneOutputs.getD [] ≠ [] := by
        intro hc
        rw [hc] at hPO
        simp at hPO
      have hlen : (findAncestors (pruneOutputs.getD [])
          (buildDependencyMap rbs)).length > 0 :=
        List.length_pos.mpr (findAncestors_ne _ _ hne)
      rw [if_pos hlen]
      rw [List.mem_filter]
      constructor
      · rintro ⟨hin, hcond⟩
        have hc2 := List.mem_filter.mp (show strToLower rb.name ∈
            (findAncestors (pruneOutputs.getD []) (buildDependencyMap rbs)).filter
              (fun n => n ∈ findDescendants (pruneInputs.getD [])
                (buildDependencyMap rbs))
          from by simpa using hcond)
        refine ⟨hin, Or.inr ((findAncestors_mem _ _ _).mp hc2.1),
          Or.inr ((hdesc _ _).mp (by simpa using hc2.2))⟩
      · rintro ⟨hin, hOr1, hOr2⟩
        rcases hOr1 with h1 | h1
        · rw [h1] at hPO
          exact absurd hPO (by simp)
        · rcases hOr2 with h2 | h2
          · rw [h2] at hPI
            exact absurd hPI (by simp)
          · refine ⟨hin, ?_⟩
            have hm : strToLower rb.name ∈
                (findAncestors (pruneOutputs.getD []) (buildDependencyMap rbs)).filter
                  (fun n => n ∈ findDescendants (pruneInputs.getD [])
                    (buildDependencyMap rbs)) :=
              List.mem_filter.mpr ⟨(findAncestors_mem _ _ _).mpr h1,
                by simpa using (hdesc _ _).mpr h2⟩
            simpa using hm

end Picorules
